import Mathlib

/-!
Manchester Baby: assembler and simulator.

A shallow embedding of `assembler.c` / `assembler.h` and `simulator.c`.

Conventions of the embedding

* A C string is a `List Char` without the terminating NUL; a text file is the
  `List Char` of its characters, one `Char` standing for one byte.  A buffer
  filled by `fgets` is viewed as a C string through `cstr` (everything before
  the first NUL).
* `int` is `Int`, `uint32_t` is `Nat`; every operation that can leave the 32-bit
  range wraps explicitly (`toU32`, `toI32`, `wrap32`).
* Memory accesses outside the allocated store, a modulo by zero, a shift count
  outside `[0, 31]` and the quotient `INT_MIN / -1` have no defined result in C;
  the functions that can perform them return `Option`, with `none` for these cases.
* Opening the input and output files is assumed to succeed; `printf` output is
  not modelled.
-/

namespace ManchesterBaby

/-! ## Machine integers -/

/-- The 32-bit pattern of an `int` (two's complement), as in `(uint32_t)x`. -/
def toU32 (x : Int) : Nat := (x % 4294967296).toNat

/-- The `int` whose two's complement pattern is the low 32 bits of `u`. -/
def toI32 (u : Nat) : Int :=
  if u % 4294967296 < 2147483648 then ((u % 4294967296 : Nat) : Int)
  else ((u % 4294967296 : Nat) : Int) - 4294967296

/-- Reduction of a mathematical integer to the `int` range. -/
def wrap32 (x : Int) : Int := toI32 (toU32 x)

/-- The C operator `a | b` on `int`. -/
def or32 (a b : Int) : Int := toI32 (toU32 a ||| toU32 b)

/-- The C operator `a & b` on `int`. -/
def and32 (a b : Int) : Int := toI32 (toU32 a &&& toU32 b)

/-- The C operator `a ^ b` on `int`. -/
def xor32 (a b : Int) : Int := toI32 (toU32 a ^^^ toU32 b)

/-- The C operator `a << k` on `int`, for a shift count `k` in `[0, 31]`. -/
def shl32 (a : Int) (k : Nat) : Int := toI32 (toU32 a <<< k)

/-- The C operator `a >> k` on `int` (arithmetic shift), for `k` in `[0, 31]`. -/
def shr32 (a : Int) (k : Nat) : Int := a / (2 ^ k : Int)

/-! ## C library functions -/

/-- The function `isspace` of `<ctype.h>` in the C locale. -/
def isspace (c : Char) : Bool :=
  c = ' ' || c = '\t' || c = '\n' || c = '\x0b' || c = '\x0c' || c = '\r'

/-- The function `isdigit` of `<ctype.h>`. -/
def isdigit (c : Char) : Bool := decide (48 ≤ c.toNat) && decide (c.toNat ≤ 57)

/-- The C string held by a character buffer: the characters before the first NUL. -/
def cstr (buf : List Char) : List Char := buf.takeWhile (fun c => c ≠ '\x00')

/-- The call `strchr(s, c)`: `none` when `c` does not occur, otherwise the text
before the first occurrence and the text after it. -/
def strchr (s : List Char) (c : Char) : Option (List Char × List Char) :=
  if c ∈ s then some (s.takeWhile (fun x => x ≠ c), (s.dropWhile (fun x => x ≠ c)).drop 1)
  else none

/-- One call of `strtok` on the text `s` still to be scanned: skips leading
delimiters, returns `none` when nothing is left, otherwise the token and the
text that a following `strtok(NULL, ...)` scans (the delimiter that ended the
token is overwritten and skipped). -/
def strtok (s : List Char) (delim : List Char) : Option (List Char × List Char) :=
  match s.dropWhile (fun x => decide (x ∈ delim)) with
  | [] => none
  | c :: cs =>
    some ((c :: cs).takeWhile (fun x => !decide (x ∈ delim)),
          ((c :: cs).dropWhile (fun x => !decide (x ∈ delim))).drop 1)

/-- The loop `end = s + strlen(s) - 1; while (end > s && isspace(*end)) *end-- = 0`:
trailing white space is cut, the first character is never removed. -/
def trimEnd : List Char → List Char
  | [] => []
  | c :: cs => c :: (cs.reverse.dropWhile isspace).reverse

/-- The digit loop of `atoi`. -/
def atoiDigits (acc : Nat) : List Char → Nat
  | [] => acc
  | c :: cs => if isdigit c then atoiDigits (acc * 10 + (c.toNat - 48)) cs else acc

/-- The function `atoi`: optional white space, optional sign, decimal digits.  For a
numeral whose value lies in the `int` range this is the value `atoi` returns.  C defines
no result for a numeral outside that range; the reduction to 32 bits written here is a
placeholder there, and the theorems about operands bound the numeral by that range. -/
def atoi (s : List Char) : Int :=
  match s.dropWhile isspace with
  | '-' :: r => wrap32 (-(atoiDigits 0 r : Int))
  | '+' :: r => wrap32 (atoiDigits 0 r : Int)
  | r => wrap32 (atoiDigits 0 r : Int)

/-- The body of `fgets` for a buffer with room for `room` characters: reads up to
and including the first newline, at most `room` characters. -/
def fgetsAux : Nat → List Char → List Char × List Char
  | 0, s => ([], s)
  | _ + 1, [] => ([], [])
  | n + 1, c :: cs =>
    if c = '\n' then ([c], cs)
    else ((fgetsAux n cs).1.cons c, (fgetsAux n cs).2)

/-- The call `fgets(buf, size, fp)` on the unread rest `fp` of a file: `none` at
end of file, otherwise the characters stored in `buf` and the new unread rest. -/
def fgets (size : Nat) (fp : List Char) : Option (List Char × List Char) :=
  match fp with
  | [] => none
  | _ :: _ => some (fgetsAux (size - 1) fp)

/-- The successive results of `fgets(buf, size, fp)` until it returns `NULL`;
`fuel` bounds the number of calls. -/
def readLines (size : Nat) : Nat → List Char → List (List Char)
  | 0, _ => []
  | fuel + 1, fp =>
    match fgets size fp with
    | none => []
    | some (line, rest) => line :: readLines size fuel rest

/-- All buffers that a `while (fgets(line, size, fp))` loop sees on `file`: each
call consumes at least one character, so `file.length` calls reach end of file. -/
def fileLines (size : Nat) (file : List Char) : List (List Char) :=
  readLines size file.length file

/-! ## assembler.h -/

/-- Maximum allowed symbols in symbol table. -/
def MAX_SYMBOLS : Nat := 100

/-- Maximum length for a single line of assembly code. -/
def MAX_LINE_LENGTH : Nat := 256

/-- Maximum memory size (`MEMORY_SIZE` of assembler.h). -/
def MEMORY_SIZE : Nat := 64

/-- Symbol table entry. -/
structure Symbol where
  name : List Char
  address : Int
deriving DecidableEq, Repr

/-- Symbol table: `symbols` holds the entries `0 .. count - 1` of the array. -/
structure SymbolTable where
  symbols : List Symbol
deriving DecidableEq, Repr

/-- The field `count` of the symbol table. -/
def SymbolTable.count (table : SymbolTable) : Nat := table.symbols.length

/-! ## assembler.c -/

/-- The instruction opcode definitions (`enum Opcode`): mnemonic and 4-bit code. -/
def opcodeTable : List (List Char × Nat) :=
  [(['J', 'M', 'P'], 0b0000), (['J', 'R', 'P'], 0b1000), (['L', 'D', 'N'], 0b0100),
   (['S', 'T', 'O'], 0b1100), (['S', 'U', 'B'], 0b0010), (['S', 'U', 'B', '2'], 0b1010),
   (['C', 'M', 'P'], 0b0110), (['S', 'T', 'P'], 0b1110), (['A', 'D', 'D'], 0b0001),
   (['M', 'U', 'L'], 0b1001), (['D', 'I', 'V'], 0b0101), (['A', 'N', 'D'], 0b1101),
   (['O', 'R'], 0b0011), (['X', 'O', 'R'], 0b1011), (['S', 'H', 'L'], 0b0111),
   (['S', 'H', 'R'], 0b1111)]

/-- The symbol table after `initAssembler` (`count = 0`). -/
def initAssembler : SymbolTable := ⟨[]⟩

/-- Add symbol to symbol table: returns the status and the table afterwards. -/
def addSymbol (table : SymbolTable) (name : List Char) (address : Int) : Int × SymbolTable :=
  if table.count ≥ MAX_SYMBOLS then (-1, table)
  else if table.symbols.any (fun s => decide (s.name = name)) then (-1, table)
  else (0, ⟨table.symbols ++ [⟨name, address⟩]⟩)

/-- Find symbol in symbol table and return its address, `-1` when absent. -/
def findSymbol (table : SymbolTable) (name : List Char) : Int :=
  match table.symbols.find? (fun s => decide (s.name = name)) with
  | some s => s.address
  | none => -1

/-- The loop `for (i = 0; i < n; i++) if (value & (1 << i)) result |= (1UL << (32 - 1 - i))`
of `parseInstruction`, started with `result`. -/
def placeBits (n : Nat) (value : Nat) (result : Nat) : Nat :=
  (List.range n).foldl
    (fun r i => if value.testBit i then r ||| (1 <<< (32 - 1 - i)) else r) result

/-- The `strcmp` chain of `parseInstruction` for the mnemonics that set `op`;
`none` stands for `op == -1`.  `STP` is handled before this chain is consulted. -/
def opcodeOf (opcode : List Char) : Option Nat :=
  if opcode = ['J', 'M', 'P'] then some 0b0000
  else if opcode = ['J', 'R', 'P'] then some 0b1000
  else if opcode = ['L', 'D', 'N'] then some 0b0100
  else if opcode = ['S', 'T', 'O'] then some 0b1100
  else if opcode = ['S', 'U', 'B'] then some 0b0010
  else if opcode = ['S', 'U', 'B', '2'] then some 0b1010
  else if opcode = ['C', 'M', 'P'] then some 0b0110
  else if opcode = ['A', 'D', 'D'] then some 0b0001
  else if opcode = ['M', 'U', 'L'] then some 0b1001
  else if opcode = ['D', 'I', 'V'] then some 0b0101
  else if opcode = ['A', 'N', 'D'] then some 0b1101
  else if opcode = ['O', 'R'] then some 0b0011
  else if opcode = ['X', 'O', 'R'] then some 0b1011
  else if opcode = ['S', 'H', 'L'] then some 0b0111
  else if opcode = ['S', 'H', 'R'] then some 0b1111
  else none

/-- Resolution of the operand of an instruction: `Option.none` inside stands for
the undefined-symbol error, `some 0` is the value without operand. -/
def resolveOperand (operand : Option (List Char)) (table : SymbolTable) : Option Int :=
  match operand with
  | none => some 0
  | some text =>
    if (text.head?.map isdigit).getD false then some (atoi text)
    else if findSymbol table text = -1 then none
    else some (findSymbol table text)

/-- The first part of `parseInstruction` (skip white space and comments, handle
labels, get opcode, get operand): `none` when the function returns 0 before an
opcode is found, otherwise the opcode token and the trimmed operand (`none` for
a `NULL` operand). -/
def tokenize (line : List Char) : Option (List Char × Option (List Char)) :=
  match line.dropWhile isspace with
  | [] => none
  | c :: cs =>
    if c = ';' then none
    else
      match strtok
          (match strchr (c :: cs) ':' with
           | some (_, after) => after.dropWhile isspace
           | none => c :: cs)
          [' ', '\t', '\n'] with
      | none => none
      | some (opcode, saved) =>
        some (opcode, (strtok saved [';']).map (fun p => trimEnd (p.1.dropWhile isspace)))

/-- The second part of `parseInstruction`: the word for an opcode token and an
operand (handle `VAR`, parse opcode, build the 32-bit instruction). -/
def encode (opcode : List Char) (operand : Option (List Char)) (table : SymbolTable) : Nat :=
  if opcode = ['V', 'A', 'R'] then
    match operand with
    | some text => placeBits 32 (toU32 (atoi text)) 0
    | none => 0
  else if opcode = ['S', 'T', 'P'] then 0 ||| (0b1110 <<< (32 - 17))
  else
    match opcodeOf opcode with
    | none => 0
    | some op =>
      match resolveOperand operand table with
      | none => 0
      | some addr => placeBits 13 (toU32 addr) 0 ||| (op <<< (32 - 17))

/-- Parse instruction and convert to machine code (the `uint32_t` result). -/
def parseInstruction (line : List Char) (table : SymbolTable) : Nat :=
  match tokenize line with
  | none => 0
  | some (opcode, operand) => encode opcode operand table

/-- The test `while (isspace(*p)) p++; if (*p == ';' || *p == '\0')` that both
passes apply to a line: blank or comment-only. -/
def skipped (line : List Char) : Bool :=
  match line.dropWhile isspace with
  | [] => true
  | c :: _ => c = ';'

/-- The label that pass 1 takes from a line that is not skipped: the text before
the first `:` of the line cut at its first `;`, trimmed; `none` when there is no
`:` or when the trimmed text is empty or `VAR`. -/
def labelOf (line : List Char) : Option (List Char) :=
  match strchr (line.takeWhile (fun c => c ≠ ';')) ':' with
  | none => none
  | some (before, _) =>
    let start := trimEnd (before.dropWhile isspace)
    if start ≠ [] ∧ start ≠ ['V', 'A', 'R'] then some start else none

/-- The loop of `firstPass` over the buffers read by `fgets`, from the current
table and address counter. -/
def firstPassLoop (table : SymbolTable) (address : Nat) : List (List Char) → Int × SymbolTable
  | [] => (0, table)
  | raw :: rest =>
    if address < MEMORY_SIZE then
      if skipped (cstr raw) then firstPassLoop table address rest
      else
        match labelOf (cstr raw) with
        | none => firstPassLoop table (address + 1) rest
        | some start =>
          if (addSymbol table start address).1 < 0 then (-1, table)
          else firstPassLoop (addSymbol table start address).2 (address + 1) rest
    else (0, table)

/-- First pass: collect all labels and their addresses. -/
def firstPass (input : List Char) : Int × SymbolTable :=
  firstPassLoop initAssembler 0 (fileLines MAX_LINE_LENGTH input)

/-- The words that the loop of `secondPass` emits, in order. -/
def secondPassLoop (table : SymbolTable) : List (List Char) → List Nat
  | [] => []
  | raw :: rest =>
    if skipped (cstr raw) then secondPassLoop table rest
    else parseInstruction (cstr raw) table :: secondPassLoop table rest

/-- The 32 characters printed for a word: `(instruction >> i) & 1` for
`i = 31` down to `0`. -/
def wordChars (instruction : Nat) : List Char :=
  (List.range 32).map (fun k => if instruction.testBit (31 - k) then '1' else '0')

/-- The words emitted by pass 2 for a source file. -/
def secondPassWords (input : List Char) (table : SymbolTable) : List Nat :=
  secondPassLoop table (fileLines MAX_LINE_LENGTH input)

/-- Second pass: generate machine code; returns the status and the text written
to the output file. -/
def secondPass (input : List Char) (table : SymbolTable) : Int × List Char :=
  (0, ((secondPassWords input table).map (fun w => wordChars w ++ ['\n'])).flatten)

/-- Main assembly function: the status and the output file, `none` when the
output file was never opened. -/
def assemble (input : List Char) : Int × Option (List Char) :=
  if (firstPass input).1 < 0 then (-1, none)
  else if (secondPass input (firstPass input).2).1 < 0 then
    (-1, some (secondPass input (firstPass input).2).2)
  else (0, some (secondPass input (firstPass input).2).2)

/-! ## simulator.c -/

/-- Number of bits of a word. -/
def WORD_SIZE : Nat := 32

/-- Extended addressing mode. -/
inductive AddressingMode where
  | DIRECT
  | INDIRECT
  | IMMEDIATE
  | RELATIVE
deriving DecidableEq, Repr

/-- Hardware components simulation.  `store` is the allocated memory: one list of
`int` cells per word. -/
structure BabyComputer where
  store : List (List Int)
  memory_size : Int
  accumulator : Int
  CI : Int
  PI : Int
  running : Int
  addr_mode : AddressingMode
  index_reg : Int
  base_reg : Int
deriving DecidableEq, Repr

/-- The word `store[address][0 .. WORD_SIZE - 1]`, `none` when one of the cells
lies outside the allocated memory. -/
def readWord (store : List (List Int)) (address : Int) : Option (List Int) :=
  if address < 0 then none
  else
    match store[address.toNat]? with
    | none => none
    | some w => if w.length < WORD_SIZE then none else some (w.take WORD_SIZE)

/-- The assignments `store[address][i] = vals[i]` for `i < WORD_SIZE`, `none`
when one of the cells lies outside the allocated memory. -/
def writeWord (store : List (List Int)) (address : Int) (vals : List Int) :
    Option (List (List Int)) :=
  if address < 0 then none
  else
    match store[address.toNat]? with
    | none => none
    | some w =>
      if w.length < WORD_SIZE then none
      else some (store.set address.toNat (vals.take WORD_SIZE ++ w.drop WORD_SIZE))

/-- Initialize computer with specified memory size. -/
def initialize_computer (memory_size : Int) : BabyComputer :=
  { store := List.replicate memory_size.toNat (List.replicate WORD_SIZE 0)
    memory_size := memory_size
    accumulator := 0
    CI := 0
    PI := 0
    running := 1
    addr_mode := AddressingMode.DIRECT
    index_reg := 0
    base_reg := 0 }

/-- The line buffer after `line[strcspn(line, "\n")] = 0`. -/
def stripNewline (raw : List Char) : List Char :=
  (cstr raw).takeWhile (fun c => c ≠ '\n')

/-- The format check of `load_program` on one buffer: `strlen(line) == WORD_SIZE`
and only the characters `0` and `1`. -/
def validLine (raw : List Char) : Bool :=
  decide ((stripNewline raw).length = WORD_SIZE) &&
    (stripNewline raw).all (fun ch => ch = '0' || ch = '1')

/-- The values `line[i] - '0'` for `i < WORD_SIZE`. -/
def loadLine (line : List Char) : List Int :=
  (List.range WORD_SIZE).map (fun i => ((line.getD i '\x00').toNat : Int) - 48)

/-- The loading loop of `load_program` over the buffers read by `fgets`. -/
def loadLoop (computer : BabyComputer) (address : Int) :
    List (List Char) → Option BabyComputer
  | [] => some computer
  | raw :: rest =>
    if address < computer.memory_size then
      match writeWord computer.store address (loadLine (stripNewline raw)) with
      | none => none
      | some st => loadLoop { computer with store := st } (address + 1) rest
    else some computer

/-- Load program from file into memory: the status and the machine afterwards. -/
def load_program (computer : BabyComputer) (file : List Char) : Option (Int × BabyComputer) :=
  if (fileLines (WORD_SIZE + 2) file).all validLine then
    (loadLoop computer 0 (fileLines (WORD_SIZE + 2) file)).map (fun c => (0, c))
  else some (-1, computer)

/-- Fetch instruction from memory. -/
def fetch (computer : BabyComputer) : Option BabyComputer :=
  match readWord computer.store computer.CI with
  | none => none
  | some w => some { computer with PI := w.foldl (fun pi b => or32 (shl32 pi 1) b) 0 }

/-- The operand loop of `decode`: `if (store[CI][i]) *operand |= (1 << i)`. -/
def orBits (w : List Int) (n : Nat) : Int :=
  (List.range n).foldl (fun v i => if w.getD i 0 ≠ 0 then or32 v (shl32 1 i) else v) 0

/-- Decode instruction: the pair `(opcode, operand)`. -/
def decode (computer : BabyComputer) : Option (Int × Int) :=
  match readWord computer.store computer.CI with
  | none => none
  | some w =>
    some (or32 (or32 (or32 (shl32 (w.getD 13 0) 3) (shl32 (w.getD 14 0) 2))
            (shl32 (w.getD 15 0) 1)) (shl32 (w.getD 16 0) 0),
          orBits w 13)

/-- The function `get_value_from_address`. -/
def get_value_from_address (computer : BabyComputer) (address : Int) : Option Int :=
  if computer.addr_mode = AddressingMode.IMMEDIATE then some address
  else if computer.memory_size = 0 then none
  else
    match readWord computer.store (Int.tmod address computer.memory_size) with
    | none => none
    | some w => some (orBits w WORD_SIZE)

/-- Store value to address. -/
def store_value_to_address (computer : BabyComputer) (address : Int) (value : Int) :
    Option BabyComputer :=
  match writeWord computer.store address
      ((List.range WORD_SIZE).map (fun i => if (toU32 value).testBit i then (1 : Int) else 0)) with
  | none => none
  | some st => some { computer with store := st }

/-- The arithmetic and bitwise cases of `execute`: the new accumulator for the
value read from memory, `none` where C defines no result. -/
def alu (opcode : Int) (acc value : Int) : Option Int :=
  if opcode = 0b0100 then some (wrap32 (-value))
  else if opcode = 0b0010 ∨ opcode = 0b1010 then some (wrap32 (acc - value))
  else if opcode = 0b0110 then some acc
  else if opcode = 0b0001 then some (wrap32 (acc + value))
  else if opcode = 0b1001 then some (wrap32 (acc * value))
  else if opcode = 0b0101 then
    if value ≠ 0 then
      if acc = -2147483648 ∧ value = -1 then none else some (Int.tdiv acc value)
    else some acc
  else if opcode = 0b1101 then some (and32 acc value)
  else if opcode = 0b0011 then some (or32 acc value)
  else if opcode = 0b1011 then some (xor32 acc value)
  else if opcode = 0b0111 then
    if 0 ≤ value ∧ value < 32 then some (shl32 acc value.toNat) else none
  else if opcode = 0b1111 then
    if 0 ≤ value ∧ value < 32 then some (shr32 acc value.toNat) else none
  else some acc

/-- Execute instruction. -/
def execute (computer : BabyComputer) (opcode operand : Int) : Option BabyComputer :=
  if computer.CI = 0 then some { computer with CI := 1 }
  else if opcode = 0b0000 then some { computer with CI := operand }
  else if opcode = 0b1000 then some { computer with CI := wrap32 (computer.CI + operand) }
  else if opcode = 0b1100 then
    match store_value_to_address computer operand computer.accumulator with
    | none => none
    | some c => some { c with CI := wrap32 (c.CI + 1) }
  else if opcode = 0b1110 then some { computer with running := 0 }
  else if opcode = 0b0100 ∨ opcode = 0b0010 ∨ opcode = 0b1010 ∨ opcode = 0b0110 ∨
      opcode = 0b0001 ∨ opcode = 0b1001 ∨ opcode = 0b0101 ∨ opcode = 0b1101 ∨
      opcode = 0b0011 ∨ opcode = 0b1011 ∨ opcode = 0b0111 ∨ opcode = 0b1111 then
    match get_value_from_address computer operand with
    | none => none
    | some value =>
      match alu opcode computer.accumulator value with
      | none => none
      | some acc => some { computer with accumulator := acc, CI := wrap32 (computer.CI + 1) }
  else some { computer with CI := wrap32 (computer.CI + 1) }

/-- One pass of the body of the `while (computer.running)` loop of `main`:
fetch, decode, execute. -/
def cycle (computer : BabyComputer) : Option BabyComputer :=
  match fetch computer with
  | none => none
  | some c =>
    match decode c with
    | none => none
    | some (opcode, operand) => execute c opcode operand

/-- The loop `while (computer.running)` of `main`, for at most `fuel` cycles. -/
def run : Nat → BabyComputer → Option BabyComputer
  | 0, computer => some computer
  | fuel + 1, computer =>
    if computer.running ≠ 0 then
      match cycle computer with
      | none => none
      | some c => run fuel c
    else some computer

/-! ## Source text used to state the properties -/

/-- The lines of a text file, each with its terminating newline (only the last
line can lack it). -/
def splitLines : List Char → List (List Char)
  | [] => []
  | c :: cs =>
    if c = '\n' then [c] :: splitLines cs
    else
      match splitLines cs with
      | [] => [[c]]
      | l :: ls => (c :: l) :: ls

/-- The number of lines before line `k` that are neither blank nor comment-only:
the address of line `k` when it is an instruction line. -/
def lineAddress (lines : List (List Char)) (k : Nat) : Nat :=
  (lines.take k).countP (fun l => !skipped l)

/-- A source text as the assembler reads it line by line: it holds no NUL character
and every line, newline included, fits in the line buffer of `MAX_LINE_LENGTH`
characters (at most `MAX_LINE_LENGTH - 1` characters per line). -/
def SourceText (file : List Char) : Prop :=
  '\x00' ∉ file ∧ ∀ l ∈ splitLines file, l.length < MAX_LINE_LENGTH

instance (file : List Char) : Decidable (SourceText file) := by
  unfold SourceText; infer_instance

/-- A line of a machine-code file that is, after removing its newline, exactly 32
characters each of which is `0` or `1`. -/
def binaryLine (l : List Char) : Prop :=
  (l.takeWhile (fun c => c ≠ '\n')).length = 32 ∧
    ∀ c ∈ l.takeWhile (fun c => c ≠ '\n'), c = '0' ∨ c = '1'

instance (l : List Char) : Decidable (binaryLine l) := by
  unfold binaryLine; infer_instance

/-- The allocated memory of a machine matches its `memory_size`: one word of
`WORD_SIZE` cells per address (the state that `initialize_computer` sets up). -/
def WellFormed (computer : BabyComputer) : Prop :=
  (computer.store.length : Int) = computer.memory_size ∧
    ∀ w ∈ computer.store, w.length = WORD_SIZE

instance (computer : BabyComputer) : Decidable (WellFormed computer) := by
  unfold WellFormed; infer_instance

/-- The character of a decimal digit `d < 10`. -/
def digitChar (d : Nat) : Char := Char.ofNat (48 + d)

/-- Digits of `n` pushed in front of `acc`, most significant first; `fuel` bounds
the number of digits. -/
def decimalAux : Nat → Nat → List Char → List Char
  | 0, _, acc => acc
  | fuel + 1, n, acc =>
    if n < 10 then digitChar n :: acc
    else decimalAux fuel (n / 10) (digitChar (n % 10) :: acc)

/-- The decimal numeral of a natural number, without leading zeros. -/
def decimal (n : Nat) : List Char := decimalAux (n + 1) n []

/-- The decimal numeral of an integer: a leading `-` for a negative value. -/
def decimalInt (v : Int) : List Char :=
  if v < 0 then '-' :: decimal v.natAbs else decimal v.natAbs

/-- The natural number whose bit `i` (`i < n`) is set exactly when cell `i` of the
word is non-zero: cell `i` carries the weight `2 ^ i`. -/
def bitSum (w : List Int) (n : Nat) : Nat :=
  ((List.range n).map (fun i => if w.getD i 0 ≠ 0 then 2 ^ i else 0)).sum

/-- The value of a memory word under the weight-`2 ^ i` convention, read as a signed
32-bit integer. -/
def wordValue (w : List Int) : Int := toI32 (bitSum w 32)

/-- The opcodes whose case in `execute` reads memory through `get_value_from_address`:
LDN, SUB, SUB2, CMP, ADD, MUL, DIV, AND, OR, XOR, SHL, SHR. -/
def readingOpcodes : List Int :=
  [0b0100, 0b0010, 0b1010, 0b0110, 0b0001, 0b1001, 0b0101, 0b1101, 0b0011, 0b1011,
   0b0111, 0b1111]

/-- The five-line source of the end-to-end example of the specification. -/
def exampleSource : List Char :=
  "START: LDN 2\n ADD 3\n STP\n VAR 5\n VAR -5".toList

/-- The five lines that the assembler writes for `exampleSource`. -/
def exampleOutput : List Char :=
  ("01000000000000100000000000000000\n" ++
   "11000000000000001000000000000000\n" ++
   "00000000000001110000000000000000\n" ++
   "10100000000000000000000000000000\n" ++
   "11011111111111111111111111111111\n").toList

/-- The freshly initialised 32-word machine after loading `exampleOutput`. -/
def exampleMachine : BabyComputer :=
  { initialize_computer 32 with
    store := [loadLine "01000000000000100000000000000000".toList,
              loadLine "11000000000000001000000000000000".toList,
              loadLine "00000000000001110000000000000000".toList,
              loadLine "10100000000000000000000000000000".toList,
              loadLine "11011111111111111111111111111111".toList] ++
             List.replicate 27 (List.replicate WORD_SIZE 0) }

/-- The table after a sequence of `addSymbol` calls (name and address of each call, in
order), whether the calls succeed or fail. -/
def addSymbols (table : SymbolTable) : List (List Char × Int) → SymbolTable
  | [] => table
  | call :: rest => addSymbols (addSymbol table call.1 call.2).2 rest

/-- A source of 66 instruction lines: 64 lines `STP`, then `L: STP` at address 64 and
`JMP L` at address 65. -/
def longSource : List Char :=
  (List.replicate 64 "STP\n".toList).flatten ++ "L: STP\nJMP L\n".toList

/-- The extended instruction set of simulator.c (`enum OpCode`): mnemonic and code. -/
def OpCode : List (List Char × Int) :=
  [(['J', 'M', 'P'], 0b0000), (['J', 'R', 'P'], 0b1000), (['L', 'D', 'N'], 0b0100),
   (['S', 'T', 'O'], 0b1100), (['S', 'U', 'B'], 0b0010), (['S', 'U', 'B', '2'], 0b1010),
   (['C', 'M', 'P'], 0b0110), (['S', 'T', 'P'], 0b1110), (['A', 'D', 'D'], 0b0001),
   (['M', 'U', 'L'], 0b1001), (['D', 'I', 'V'], 0b0101), (['A', 'N', 'D'], 0b1101),
   (['O', 'R'], 0b0011), (['X', 'O', 'R'], 0b1011), (['S', 'H', 'L'], 0b0111),
   (['S', 'H', 'R'], 0b1111)]

/-- The `case` labels of `switch (opcode)` in `execute`, in source order; every other
value takes the `default` branch. -/
def executeCases : List Int :=
  [0b0000, 0b1000, 0b0100, 0b1100, 0b0010, 0b1010, 0b0110, 0b1110, 0b0001, 0b1001, 0b0101,
   0b1101, 0b0011, 0b1011, 0b0111, 0b1111]

/-- The branch that a call of `execute` takes: the early return at `CI == 0`, the
`case` with the given label, or `default` (`Unknown instruction`). -/
inductive Branch where
  | skip
  | case (label : Int)
  | default
deriving DecidableEq, Repr

/-- The function `execute` written out branch by branch, in source order: the branch
taken and the machine afterwards (`none` where a C operation has no defined result). -/
def executeBranch (computer : BabyComputer) (opcode operand : Int) :
    Branch × Option BabyComputer :=
  if computer.CI = 0 then (Branch.skip, some { computer with CI := 1 })
  else if opcode = 0b0000 then (Branch.case 0b0000, some { computer with CI := operand })
  else if opcode = 0b1000 then
    (Branch.case 0b1000, some { computer with CI := wrap32 (computer.CI + operand) })
  else if opcode = 0b0100 then
    (Branch.case 0b0100, (get_value_from_address computer operand).map (fun value =>
      { computer with accumulator := wrap32 (-value), CI := wrap32 (computer.CI + 1) }))
  else if opcode = 0b1100 then
    (Branch.case 0b1100,
      (store_value_to_address computer operand computer.accumulator).map (fun c =>
        { c with CI := wrap32 (c.CI + 1) }))
  else if opcode = 0b0010 then
    (Branch.case 0b0010, (get_value_from_address computer operand).map (fun value =>
      { computer with
        accumulator := wrap32 (computer.accumulator - value), CI := wrap32 (computer.CI + 1) }))
  else if opcode = 0b1010 then
    (Branch.case 0b1010, (get_value_from_address computer operand).map (fun value =>
      { computer with
        accumulator := wrap32 (computer.accumulator - value), CI := wrap32 (computer.CI + 1) }))
  else if opcode = 0b0110 then
    (Branch.case 0b0110, (get_value_from_address computer operand).map (fun _ =>
      { computer with CI := wrap32 (computer.CI + 1) }))
  else if opcode = 0b1110 then (Branch.case 0b1110, some { computer with running := 0 })
  else if opcode = 0b0001 then
    (Branch.case 0b0001, (get_value_from_address computer operand).map (fun value =>
      { computer with
        accumulator := wrap32 (computer.accumulator + value), CI := wrap32 (computer.CI + 1) }))
  else if opcode = 0b1001 then
    (Branch.case 0b1001, (get_value_from_address computer operand).map (fun value =>
      { computer with
        accumulator := wrap32 (computer.accumulator * value), CI := wrap32 (computer.CI + 1) }))
  else if opcode = 0b0101 then
    (Branch.case 0b0101, (get_value_from_address computer operand).bind (fun value =>
      if value ≠ 0 then
        if computer.accumulator = -2147483648 ∧ value = -1 then none
        else some { computer with
          accumulator := Int.tdiv computer.accumulator value,
          CI := wrap32 (computer.CI + 1) }
      else some { computer with CI := wrap32 (computer.CI + 1) }))
  else if opcode = 0b1101 then
    (Branch.case 0b1101, (get_value_from_address computer operand).map (fun value =>
      { computer with
        accumulator := and32 computer.accumulator value, CI := wrap32 (computer.CI + 1) }))
  else if opcode = 0b0011 then
    (Branch.case 0b0011, (get_value_from_address computer operand).map (fun value =>
      { computer with
        accumulator := or32 computer.accumulator value, CI := wrap32 (computer.CI + 1) }))
  else if opcode = 0b1011 then
    (Branch.case 0b1011, (get_value_from_address computer operand).map (fun value =>
      { computer with
        accumulator := xor32 computer.accumulator value, CI := wrap32 (computer.CI + 1) }))
  else if opcode = 0b0111 then
    (Branch.case 0b0111, (get_value_from_address computer operand).bind (fun value =>
      if 0 ≤ value ∧ value < 32 then
        some { computer with
          accumulator := shl32 computer.accumulator value.toNat,
          CI := wrap32 (computer.CI + 1) }
      else none))
  else if opcode = 0b1111 then
    (Branch.case 0b1111, (get_value_from_address computer operand).bind (fun value =>
      if 0 ≤ value ∧ value < 32 then
        some { computer with
          accumulator := shr32 computer.accumulator value.toNat,
          CI := wrap32 (computer.CI + 1) }
      else none))
  else (Branch.default, some { computer with CI := wrap32 (computer.CI + 1) })

/-! ## Machine integer lemmas -/

theorem toU32_lt (x : Int) : toU32 x < 4294967296 := by
  unfold toU32; omega

theorem toU32_toI32 (u : Nat) : toU32 (toI32 u) = u % 4294967296 := by
  unfold toU32 toI32; split <;> omega

theorem toI32_toU32 (x : Int) (h1 : -2147483648 ≤ x) (h2 : x < 2147483648) :
    toI32 (toU32 x) = x := by
  unfold toU32 toI32; split <;> omega

theorem toU32_natCast (n : Nat) : toU32 (n : Int) = n % 4294967296 := by
  unfold toU32; omega

theorem testBit_placeBits (n v r j : Nat) (hn : n ≤ 32) :
    (placeBits n v r).testBit j =
      (r.testBit j || (decide (j ≤ 31) && decide (31 - j < n) && v.testBit (31 - j))) := by
  induction n with
  | zero => simp [placeBits]
  | succ n ih =>
    have ih := ih (by omega)
    unfold placeBits at ih ⊢
    rw [List.range_succ, List.foldl_append]
    simp only [List.foldl_cons, List.foldl_nil]
    by_cases hj : 31 - n = j
    · have h1 : 31 - j = n := by omega
      rw [h1]
      split
      · rename_i hv
        rw [Nat.testBit_or, ih, Nat.one_shiftLeft, Nat.testBit_two_pow]
        simp [hv, hj]
        omega
      · rename_i hv
        rw [ih]
        simp [hv, h1]
    · split
      · rw [Nat.testBit_or, ih, Nat.one_shiftLeft, Nat.testBit_two_pow]
        have : (decide (32 - 1 - n = j)) = false := by simp; omega
        rw [this]
        by_cases h3 : j ≤ 31
        · have e : decide (31 - j < n + 1) = decide (31 - j < n) := by
            simp; omega
          rw [e]; simp
        · simp [h3]
      · rw [ih]
        by_cases h3 : j ≤ 31
        · have e : decide (31 - j < n + 1) = decide (31 - j < n) := by
            simp; omega
          rw [e]
        · simp [h3]

/-! ## Words as characters and as memory cells -/

theorem wordChars_length (w : Nat) : (wordChars w).length = 32 := by
  simp [wordChars]

theorem getElem?_wordChars (w k : Nat) (h : k < 32) :
    (wordChars w)[k]? = some (if w.testBit (31 - k) then '1' else '0') := by
  simp [wordChars, List.getElem?_map, List.getElem?_range h]

theorem getD_wordChars (w k : Nat) (h : k < 32) (d : Char) :
    (wordChars w).getD k d = if w.testBit (31 - k) then '1' else '0' := by
  rw [List.getD_eq_getElem?_getD, getElem?_wordChars w k h]; rfl

theorem loadLine_wordChars (w : Nat) :
    loadLine (wordChars w) =
      (List.range 32).map (fun i => if w.testBit (31 - i) then (1 : Int) else 0) := by
  unfold loadLine WORD_SIZE
  apply List.map_congr_left
  intro i hi
  rw [getD_wordChars w i (List.mem_range.mp hi)]
  split <;> rfl

theorem getD_bitCells (f : Nat → Bool) (j : Nat) (h : j < 32) :
    ((List.range 32).map (fun i => if f i then (1 : Int) else 0)).getD j 0 =
      if f j then 1 else 0 := by
  rw [List.getD_eq_getElem?_getD, List.getElem?_map, List.getElem?_range h]; rfl

/-- The operand loop computes the integer whose bit `j` is set exactly when cell
`j` is non-zero. -/
theorem orBits_spec (w : List Int) (n : Nat) (hn : n ≤ 32) :
    ∃ u : Nat, u < 4294967296 ∧ orBits w n = toI32 u ∧
      ∀ j, u.testBit j = (decide (j < n) && decide (w.getD j 0 ≠ 0)) := by
  induction n with
  | zero => exact ⟨0, by decide, by simp [orBits, toI32], by simp⟩
  | succ n ih =>
    obtain ⟨u, hu, he, hb⟩ := ih (by omega)
    have hstep : orBits w (n + 1) =
        if w.getD n 0 ≠ 0 then or32 (orBits w n) (shl32 1 n) else orBits w n := by
      unfold orBits
      rw [List.range_succ, List.foldl_append]
      rfl
    have hpow : 2 ^ n < 4294967296 := by
      have : 2 ^ n ≤ 2 ^ 31 := Nat.pow_le_pow_right (by decide) (by omega)
      omega
    by_cases hc : w.getD n 0 ≠ 0
    · refine ⟨u ||| 2 ^ n, ?_, ?_, ?_⟩
      · exact Nat.or_lt_two_pow (n := 32) hu hpow
      · rw [hstep, if_pos hc, he]
        unfold or32 shl32
        rw [toU32_toI32, toU32_toI32, Nat.mod_eq_of_lt hu]
        have h1 : toU32 1 = 1 := by decide
        rw [h1, Nat.one_shiftLeft, Nat.mod_eq_of_lt hpow]
      · intro j
        rw [Nat.testBit_or, hb, Nat.testBit_two_pow]
        by_cases hj : n = j
        · subst hj; simpa using hc
        · have : decide (j < n + 1) = decide (j < n) := by simp; omega
          rw [this]; simp [hj]
    · refine ⟨u, hu, ?_, ?_⟩
      · rw [hstep, if_neg hc, he]
      · intro j
        rw [hb]
        by_cases hj : n = j
        · subst hj; simpa using hc
        · have : decide (j < n + 1) = decide (j < n) := by simp; omega
          rw [this]

/-! ## Decimal numerals and `atoi` -/

theorem isdigit_digitChar (d : Nat) (h : d < 10) : isdigit (digitChar d) = true := by
  interval_cases d <;> decide

theorem toNat_digitChar (d : Nat) (h : d < 10) : (digitChar d).toNat - 48 = d := by
  interval_cases d <;> decide

/-- The value accumulated by the digit loop of `atoi` over a run of digits. -/
theorem atoiDigits_append (ds rest : List Char) (a : Nat) (h : ∀ c ∈ ds, isdigit c = true) :
    atoiDigits a (ds ++ rest) =
      atoiDigits (ds.foldl (fun x c => x * 10 + (c.toNat - 48)) a) rest := by
  induction ds generalizing a with
  | nil => rfl
  | cons c cs ih =>
    have hc : isdigit c = true := h c (List.mem_cons_self _ _)
    simp only [List.cons_append, atoiDigits, hc, if_true, List.foldl_cons]
    exact ih _ (fun x hx => h x (List.mem_cons_of_mem _ hx))

theorem decimalAux_spec (fuel : Nat) : ∀ (n : Nat) (acc : List Char), n < 10 ^ (fuel + 1) →
    ∃ ds : List Char, decimalAux (fuel + 1) n acc = ds ++ acc ∧ ds ≠ [] ∧
      (∀ c ∈ ds, isdigit c = true) ∧
      ∀ a, ds.foldl (fun x c => x * 10 + (c.toNat - 48)) a = a * 10 ^ ds.length + n := by
  induction fuel with
  | zero =>
    intro n acc hn
    have hn : n < 10 := by simpa using hn
    refine ⟨[digitChar n], by simp [decimalAux, hn], by simp, ?_, ?_⟩
    · intro c hc
      rw [List.mem_singleton.mp hc]
      exact isdigit_digitChar n hn
    · intro a
      simp [toNat_digitChar n hn]
  | succ fuel ih =>
    intro n acc hn
    by_cases h10 : n < 10
    · refine ⟨[digitChar n], by simp [decimalAux, h10], by simp, ?_, ?_⟩
      · intro c hc
        rw [List.mem_singleton.mp hc]
        exact isdigit_digitChar n h10
      · intro a
        simp [toNat_digitChar n h10]
    · have hq : n / 10 < 10 ^ (fuel + 1) := by
        rw [Nat.div_lt_iff_lt_mul (by decide)]
        calc n < 10 ^ (fuel + 1 + 1) := hn
          _ = 10 ^ (fuel + 1) * 10 := by rw [Nat.pow_succ]
      obtain ⟨ds, he, _, hd, hv⟩ := ih (n / 10) (digitChar (n % 10) :: acc) hq
      have hm : n % 10 < 10 := Nat.mod_lt _ (by decide)
      refine ⟨ds ++ [digitChar (n % 10)], ?_, by simp, ?_, ?_⟩
      · rw [decimalAux, if_neg h10, he]; simp
      · intro c hc
        rcases List.mem_append.mp hc with h | h
        · exact hd c h
        · rw [List.mem_singleton.mp h]; exact isdigit_digitChar _ hm
      · intro a
        rw [List.foldl_append, hv a]
        simp only [List.foldl_cons, List.foldl_nil, List.length_append, List.length_singleton,
          toNat_digitChar _ hm]
        rw [Nat.pow_succ]
        have := Nat.div_add_mod n 10
        nlinarith [Nat.div_add_mod n 10]

theorem decimal_spec (n : Nat) :
    decimal n ≠ [] ∧ (∀ c ∈ decimal n, isdigit c = true) ∧
      ∀ rest, atoiDigits 0 (decimal n ++ rest) = atoiDigits n rest := by
  have hn : n < 10 ^ (n + 1) := by
    calc n < 2 ^ n := Nat.lt_two_pow n
      _ ≤ 10 ^ n := Nat.pow_le_pow_left (by decide) n
      _ ≤ 10 ^ (n + 1) := Nat.pow_le_pow_right (by decide) (by omega)
  obtain ⟨ds, he, hne, hd, hv⟩ := decimalAux_spec n n [] hn
  have hds : decimal n = ds := by unfold decimal; rw [he]; simp
  rw [hds]
  refine ⟨hne, hd, ?_⟩
  intro rest
  rw [atoiDigits_append ds rest 0 hd, hv 0]
  simp

/-- The numerals of some values, by evaluation. -/
theorem decimal_examples :
    decimal 0 = "0".toList ∧ decimal 8191 = "8191".toList ∧
      decimalInt (-5) = "-5".toList ∧ decimalInt 2147483647 = "2147483647".toList := by
  decide

/-! ## Tokenising a line of the form `MNEMONIC operand` -/

theorem isspace_ne_colon {c : Char} (h : isspace c = true) : c ≠ ':' ∧ c ≠ ';' := by
  constructor <;> (rintro rfl; revert h; decide)

theorem not_mem_delim_of_not_isspace {c : Char} (h : isspace c = false) :
    decide (c ∈ [' ', '\t', '\n']) = false := by
  simp only [isspace, Bool.or_eq_false_iff, decide_eq_false_iff_not] at h
  simp [h.1.1.1.1.1, h.1.1.1.1.2, h.1.1.1.2]

theorem trimEnd_append_spaces (c : Char) (cs tail : List Char)
    (htail : ∀ x ∈ tail, isspace x = true) :
    trimEnd (c :: cs ++ tail) = trimEnd (c :: cs) := by
  simp only [List.cons_append, trimEnd, List.reverse_append]
  rw [List.dropWhile_append_of_pos]
  intro x hx
  exact htail x (List.mem_reverse.mp hx)

theorem tokenize_mnemonic_operand (mn opnd tail : List Char)
    (hmn1 : mn ≠ []) (hmn : ∀ c ∈ mn, isspace c = false ∧ c ≠ ':' ∧ c ≠ ';')
    (hop1 : ∀ c ∈ opnd.head?, isspace c = false) (hop0 : opnd ≠ [])
    (hop : ∀ c ∈ opnd, c ≠ ':' ∧ c ≠ ';')
    (htrim : trimEnd opnd = opnd)
    (htail : ∀ c ∈ tail, isspace c = true) :
    tokenize (mn ++ ' ' :: (opnd ++ tail)) = some (mn, some opnd) := by
  obtain ⟨m, ms, rfl⟩ := List.exists_cons_of_ne_nil hmn1
  obtain ⟨c, cs, rfl⟩ := List.exists_cons_of_ne_nil hop0
  have hm := hmn m (List.mem_cons_self _ _)
  have hc : isspace c = false := hop1 c (by simp)
  have hcne := hop c (List.mem_cons_self _ _)
  have hrest : ∀ x ∈ (c :: cs) ++ tail, x ≠ ':' ∧ x ≠ ';' := by
    intro x hx
    rcases List.mem_append.mp hx with h | h
    · exact hop x h
    · exact isspace_ne_colon (htail x h)
  have hcolon : ¬ (':' ∈ (m :: ms) ++ ' ' :: ((c :: cs) ++ tail)) := by
    intro h
    rcases List.mem_append.mp h with h | h
    · exact (hmn _ h).2.1 rfl
    · rcases List.mem_cons.mp h with h | h
      · exact absurd h (by decide)
      · exact (hrest _ h).1 rfl
  have htw : List.takeWhile (fun x => !decide (x ∈ [' ', '\t', '\n']))
      ((m :: ms) ++ ' ' :: ((c :: cs) ++ tail)) = m :: ms := by
    rw [List.takeWhile_append_of_pos]
    · simp
    · intro a ha
      show (!decide (a ∈ [' ', '\t', '\n'])) = true
      rw [not_mem_delim_of_not_isspace (hmn a ha).1]; rfl
  have hdw : List.dropWhile (fun x => !decide (x ∈ [' ', '\t', '\n']))
      ((m :: ms) ++ ' ' :: ((c :: cs) ++ tail)) = ' ' :: ((c :: cs) ++ tail) := by
    rw [List.dropWhile_append_of_pos]
    · simp
    · intro a ha
      show (!decide (a ∈ [' ', '\t', '\n'])) = true
      rw [not_mem_delim_of_not_isspace (hmn a ha).1]; rfl
  have htok1 : strtok ((m :: ms) ++ ' ' :: ((c :: cs) ++ tail)) [' ', '\t', '\n'] =
      some (m :: ms, (c :: cs) ++ tail) := by
    have h0 : List.dropWhile (fun x => decide (x ∈ [' ', '\t', '\n']))
        ((m :: ms) ++ ' ' :: ((c :: cs) ++ tail)) =
        m :: (ms ++ ' ' :: ((c :: cs) ++ tail)) := by
      rw [List.cons_append, List.dropWhile_cons, not_mem_delim_of_not_isspace hm.1]
      rfl
    unfold strtok
    rw [h0]
    simp only
    rw [← List.cons_append, htw, hdw]
    rfl
  have htok2 : strtok ((c :: cs) ++ tail) [';'] = some ((c :: cs) ++ tail, []) := by
    have hall : ∀ x ∈ c :: (cs ++ tail), (!decide (x ∈ [';'])) = true := by
      intro x hx
      have := (hrest x (by simpa using hx)).2
      simp [this]
    have h0 : List.dropWhile (fun x => decide (x ∈ [';'])) ((c :: cs) ++ tail) =
        c :: (cs ++ tail) := by
      rw [List.cons_append, List.dropWhile_cons]
      simp [hcne.2]
    unfold strtok
    rw [h0]
    simp only
    rw [List.takeWhile_eq_self_iff.mpr hall, List.dropWhile_eq_nil_iff.mpr hall]
    rfl
  unfold tokenize
  rw [List.cons_append, List.dropWhile_cons, hm.1]
  simp only [Bool.false_eq_true, if_false, hm.2.2]
  rw [← List.cons_append]
  have hs : strchr ((m :: ms) ++ ' ' :: ((c :: cs) ++ tail)) ':' = none := by
    unfold strchr; rw [if_neg hcolon]
  rw [hs]
  simp only
  rw [htok1]
  simp only
  rw [htok2]
  simp only [Option.map_some']
  rw [List.cons_append, List.dropWhile_cons, hc]
  simp only [Bool.false_eq_true, if_false]
  rw [← List.cons_append, trimEnd_append_spaces c cs tail htail, htrim]

/-! ## Encoding a line `MNEMONIC n` -/

theorem isdigit_props {c : Char} (h : isdigit c = true) :
    isspace c = false ∧ c ≠ ':' ∧ c ≠ ';' ∧ c ≠ '-' ∧ c ≠ '+' := by
  refine ⟨?_, ?_, ?_, ?_, ?_⟩
  · cases hs : isspace c with
    | false => rfl
    | true =>
      exfalso
      simp only [isspace, Bool.or_eq_true, decide_eq_true_eq] at hs
      rcases hs with ((((hs | hs) | hs) | hs) | hs) | hs <;> (subst hs; revert h; decide)
  all_goals (rintro rfl; revert h; decide)

theorem trimEnd_of_no_space (l : List Char) (h : ∀ c ∈ l, isspace c = false) :
    trimEnd l = l := by
  cases l with
  | nil => rfl
  | cons c cs =>
    simp only [trimEnd]
    have : cs.reverse.dropWhile isspace = cs.reverse := by
      cases hr : cs.reverse with
      | nil => rfl
      | cons x xs =>
        have hx : x ∈ cs := by
          rw [← List.mem_reverse, hr]; exact List.mem_cons_self _ _
        rw [List.dropWhile_cons, h x (List.mem_cons_of_mem _ hx)]
        rfl
    rw [this, List.reverse_reverse]

theorem atoi_of_digit_head (d : Char) (ds : List Char) (h : isdigit d = true) :
    atoi (d :: ds) = wrap32 (atoiDigits 0 (d :: ds) : Int) := by
  obtain ⟨hs, _, _, hm, hp⟩ := isdigit_props h
  unfold atoi
  rw [List.dropWhile_cons, hs]
  simp only [Bool.false_eq_true, if_false]
  split
  · rename_i r heq
    exact absurd (List.cons.inj heq).1 hm
  · rename_i r heq
    exact absurd (List.cons.inj heq).1 hp
  · rfl

theorem atoi_decimal (n : Nat) : atoi (decimal n) = wrap32 (n : Int) := by
  obtain ⟨hne, hd, hv⟩ := decimal_spec n
  obtain ⟨d, ds, he⟩ := List.exists_cons_of_ne_nil hne
  have h0 := hv []
  rw [List.append_nil] at h0
  rw [he] at hd h0 ⊢
  rw [atoi_of_digit_head d ds (hd d (List.mem_cons_self _ _)), h0]
  rfl

theorem toU32_wrap32_natCast (n : Nat) : toU32 (wrap32 (n : Int)) = n % 4294967296 := by
  unfold wrap32
  rw [toU32_toI32, toU32_natCast, Nat.mod_mod]

theorem resolveOperand_decimal (n : Nat) (table : SymbolTable) :
    resolveOperand (some (decimal n)) table = some (wrap32 (n : Int)) := by
  obtain ⟨hne, hd, _⟩ := decimal_spec n
  obtain ⟨d, ds, he⟩ := List.exists_cons_of_ne_nil hne
  have hdig : isdigit d = true := hd d (by rw [he]; exact List.mem_cons_self _ _)
  unfold resolveOperand
  simp only
  rw [← atoi_decimal n, he]
  simp [hdig]

/-- Facts about the rows of the opcode table, checked by evaluation. -/
theorem opcodeTable_facts : ∀ p ∈ opcodeTable,
    p.1 ≠ [] ∧ (∀ c ∈ p.1, isspace c = false ∧ c ≠ ':' ∧ c ≠ ';') ∧
    p.1 ≠ ['V', 'A', 'R'] ∧ p.2 < 16 ∧
    (p.1 ≠ ['S', 'T', 'P'] → opcodeOf p.1 = some p.2) ∧
    (p.1 = ['S', 'T', 'P'] → p.2 = 0b1110) := by
  decide

theorem placeBits_zero : placeBits 13 0 0 = 0 := by decide

/-- The word that `parseInstruction` builds for `MNEMONIC n`. -/
theorem parseInstruction_numeric (mn : List Char) (code n : Nat) (tail : List Char)
    (table : SymbolTable) (hp : (mn, code) ∈ opcodeTable)
    (htail : ∀ c ∈ tail, isspace c = true) :
    parseInstruction (mn ++ ' ' :: (decimal n ++ tail)) table =
      placeBits 13 (if mn = ['S', 'T', 'P'] then 0 else n % 4294967296) 0 |||
        (code <<< (32 - 17)) := by
  obtain ⟨h1, h2, h3, _, h5, h6⟩ := opcodeTable_facts (mn, code) hp
  simp only at h1 h2 h3 h5 h6
  obtain ⟨hne, hd, _⟩ := decimal_spec n
  have htok : tokenize (mn ++ ' ' :: (decimal n ++ tail)) = some (mn, some (decimal n)) := by
    apply tokenize_mnemonic_operand mn (decimal n) tail h1 h2 _ hne _ _ htail
    · intro c hc
      obtain ⟨d, ds, he⟩ := List.exists_cons_of_ne_nil hne
      rw [he] at hc
      simp only [List.head?_cons, Option.mem_def, Option.some.injEq] at hc
      rw [← hc]
      exact (isdigit_props (hd d (by rw [he]; exact List.mem_cons_self _ _))).1
    · intro c hc
      exact ⟨(isdigit_props (hd c hc)).2.1, (isdigit_props (hd c hc)).2.2.1⟩
    · exact trimEnd_of_no_space _ (fun c hc => (isdigit_props (hd c hc)).1)
  unfold parseInstruction
  rw [htok]
  simp only
  unfold encode
  rw [if_neg h3]
  by_cases hstp : mn = ['S', 'T', 'P']
  · rw [if_pos hstp, if_pos hstp, placeBits_zero, h6 hstp]
  · rw [if_neg hstp, if_neg hstp, h5 hstp]
    simp only
    rw [resolveOperand_decimal]
    simp only
    rw [toU32_wrap32_natCast]

/-- Bits of an encoded instruction word. -/
theorem testBit_encoded (v code j : Nat) (hc : code < 16) :
    (placeBits 13 v 0 ||| (code <<< (32 - 17))).testBit j =
      if 19 ≤ j then decide (j ≤ 31) && v.testBit (31 - j)
      else if 15 ≤ j then code.testBit (j - 15) else false := by
  rw [Nat.testBit_or, testBit_placeBits 13 v 0 j (by decide), Nat.testBit_shiftLeft]
  simp only [Nat.zero_testBit, Bool.false_or]
  have hcode : ∀ k, 4 ≤ k → code.testBit k = false := by
    intro k hk
    apply Nat.testBit_lt_two_pow
    calc code < 2 ^ 4 := hc
      _ ≤ 2 ^ k := Nat.pow_le_pow_right (by decide) hk
  by_cases h19 : 19 ≤ j
  · rw [if_pos h19]
    have e1 : (32 - 17 : Nat) = 15 := rfl
    rw [e1, hcode (j - 15) (by omega)]
    by_cases h31 : j ≤ 31
    · have : decide (31 - j < 13) = true := by simp; omega
      simp [h31, this]
    · simp [h31]
  · rw [if_neg h19]
    have : decide (31 - j < 13) = false := by simp; omega
    rw [this]
    by_cases h15 : 15 ≤ j
    · simp [h15]
    · simp [h15]

/-! ## Decoding a loaded word -/

theorem loadLine_length (line : List Char) : (loadLine line).length = 32 := by
  simp [loadLine, WORD_SIZE]

theorem readWord_of_getElem? (store : List (List Int)) (a : Int) (w : List Int)
    (ha : 0 ≤ a) (hw : store[a.toNat]? = some w) (hl : w.length = 32) :
    readWord store a = some w := by
  unfold readWord
  rw [if_neg (by omega), hw]
  simp only [WORD_SIZE]
  rw [if_neg (by omega), ← hl, List.take_length]

theorem opcode_of_bits (code : Nat) (h : code < 16) :
    or32 (or32 (or32 (shl32 (if code.testBit 3 then 1 else 0) 3)
      (shl32 (if code.testBit 2 then 1 else 0) 2))
      (shl32 (if code.testBit 1 then 1 else 0) 1))
      (shl32 (if code.testBit 0 then 1 else 0) 0) = (code : Int) := by
  interval_cases code <;> decide

/-- The result of `decode` on a machine whose current word holds the characters
of the encoded instruction `(code, v)`. -/
theorem decode_encoded (computer : BabyComputer) (v code : Nat) (hc : code < 16)
    (hv : v < 8192) (hCI : 0 ≤ computer.CI)
    (hw : computer.store[computer.CI.toNat]? =
      some (loadLine (wordChars (placeBits 13 v 0 ||| (code <<< (32 - 17)))))) :
    decode computer = some ((code : Int), (v : Int)) := by
  unfold decode
  rw [readWord_of_getElem? _ _ _ hCI hw (loadLine_length _)]
  simp only
  rw [loadLine_wordChars]
  rw [getD_bitCells _ 13 (by decide), getD_bitCells _ 14 (by decide),
    getD_bitCells _ 15 (by decide), getD_bitCells _ 16 (by decide)]
  rw [testBit_encoded v code _ hc, testBit_encoded v code _ hc, testBit_encoded v code _ hc,
    testBit_encoded v code _ hc]
  simp only [Nat.reduceSub, Nat.reduceLeDiff, if_false, if_true]
  rw [opcode_of_bits code hc]
  obtain ⟨u, hu, he, hb⟩ := orBits_spec
    ((List.range 32).map (fun i =>
      if (placeBits 13 v 0 ||| (code <<< (32 - 17))).testBit (31 - i) then (1 : Int) else 0))
    13 (by decide)
  rw [he]
  have huv : u = v := by
    apply Nat.eq_of_testBit_eq
    intro j
    rw [hb j]
    by_cases hj : j < 13
    · rw [getD_bitCells _ j (by omega), testBit_encoded v code _ hc]
      have h19 : 19 ≤ 31 - j := by omega
      have e : 31 - (31 - j) = j := by omega
      rw [if_pos h19, e]
      cases hvj : v.testBit j <;> simp [hj]
    · have : v.testBit j = false := by
        apply Nat.testBit_lt_two_pow
        calc v < 2 ^ 13 := hv
          _ ≤ 2 ^ j := Nat.pow_le_pow_right (by decide) (by omega)
      simp [hj, this]
  rw [huv]
  have : toI32 v = (v : Int) := by
    unfold toI32
    rw [Nat.mod_eq_of_lt (by omega), if_pos (by omega)]
  rw [this]

/-! ## Lines of a file as read by `fgets` -/

theorem splitLines_ne_nil (c : Char) (cs : List Char) : splitLines (c :: cs) ≠ [] := by
  unfold splitLines
  split
  · simp
  · split <;> simp

/-- When the first line fits in the buffer, `fgets` returns exactly that line. -/
theorem fgetsAux_splitLines (fp : List Char) : ∀ (room : Nat) (l : List Char)
    (ls : List (List Char)), splitLines fp = l :: ls → l.length ≤ room →
    l ≠ [] ∧ (fgetsAux room fp).1 = l ∧ splitLines (fgetsAux room fp).2 = ls ∧
      fp = l ++ (fgetsAux room fp).2 := by
  induction fp with
  | nil => intro room l ls h; simp [splitLines] at h
  | cons c cs ih =>
    intro room l ls h hl
    by_cases hc : c = '\n'
    · rw [splitLines, if_pos hc] at h
      obtain ⟨h1, h2⟩ := List.cons.inj h
      subst h1
      cases room with
      | zero => simp at hl
      | succ n =>
        rw [fgetsAux, if_pos hc]
        exact ⟨by simp, rfl, h2, rfl⟩
    · rw [splitLines, if_neg hc] at h
      cases hs : splitLines cs with
      | nil =>
        rw [hs] at h
        obtain ⟨h1, h2⟩ := List.cons.inj h
        subst h1
        have hcs : cs = [] := by
          cases cs with
          | nil => rfl
          | cons x xs => exact absurd hs (splitLines_ne_nil x xs)
        subst hcs
        cases room with
        | zero => simp at hl
        | succ n =>
          rw [fgetsAux, if_neg hc]
          have : fgetsAux n [] = ([], []) := by cases n <;> rfl
          rw [this]
          exact ⟨by simp, rfl, by rw [← h2]; rfl, rfl⟩
      | cons l' ls' =>
        rw [hs] at h
        obtain ⟨h1, h2⟩ := List.cons.inj h
        subst h1
        cases room with
        | zero => simp at hl
        | succ n =>
          obtain ⟨_, i1, i2, i3⟩ := ih n l' ls' hs (by simpa using hl)
          rw [fgetsAux, if_neg hc]
          refine ⟨by simp, ?_, ?_, ?_⟩
          · show c :: (fgetsAux n cs).1 = c :: l'
            rw [i1]
          · show splitLines (fgetsAux n cs).2 = ls
            rw [i2, h2]
          · show c :: cs = (c :: l') ++ (fgetsAux n cs).2
            rw [List.cons_append, ← i3]

theorem readLines_eq_splitLines (size : Nat) : ∀ (fuel : Nat) (fp : List Char),
    fp.length ≤ fuel → (∀ l ∈ splitLines fp, l.length ≤ size - 1) →
    readLines size fuel fp = splitLines fp := by
  intro fuel
  induction fuel with
  | zero =>
    intro fp h _
    have : fp = [] := List.length_eq_zero.mp (by omega)
    subst this; rfl
  | succ fuel ih =>
    intro fp h hl
    cases fp with
    | nil => rfl
    | cons c cs =>
      obtain ⟨l, ls, hs⟩ := List.exists_cons_of_ne_nil (splitLines_ne_nil c cs)
      obtain ⟨h0, h1, h2, h3⟩ := fgetsAux_splitLines (c :: cs) (size - 1) l ls hs
        (hl l (by rw [hs]; exact List.mem_cons_self _ _))
      rw [readLines, fgets]
      simp only
      have hlen : (fgetsAux (size - 1) (c :: cs)).2.length ≤ fuel := by
        have := congrArg List.length h3
        rw [List.length_append] at this
        have hpos : 0 < l.length := List.length_pos.mpr h0
        simp only [List.length_cons] at this h
        omega
      rw [ih _ hlen (by rw [h2]; intro x hx; exact hl x (by rw [hs]; exact List.mem_cons_of_mem _ hx)),
        h1, h2, hs]

/-- A loop over `fgets` sees the lines of the file when every line fits in the buffer. -/
theorem fileLines_eq_splitLines (size : Nat) (file : List Char)
    (h : ∀ l ∈ splitLines file, l.length < size) :
    fileLines size file = splitLines file :=
  readLines_eq_splitLines size file.length file (Nat.le_refl _)
    (fun l hl => by have := h l hl; omega)

theorem flatten_splitLines (file : List Char) : (splitLines file).flatten = file := by
  induction file with
  | nil => rfl
  | cons c cs ih =>
    by_cases hc : c = '\n'
    · rw [splitLines, if_pos hc, List.flatten_cons, ih]; rfl
    · rw [splitLines, if_neg hc]
      cases hs : splitLines cs with
      | nil =>
        rw [hs] at ih
        simp only [List.flatten_cons, List.flatten_nil, List.append_nil]
        rw [← ih]; rfl
      | cons l ls =>
        rw [hs] at ih
        simp only [List.flatten_cons, List.cons_append]
        rw [← ih]; rfl

theorem cstr_of_no_nul (l : List Char) (h : '\x00' ∉ l) : cstr l = l := by
  unfold cstr
  rw [List.takeWhile_eq_self_iff]
  intro c hc
  simp only [ne_eq, decide_not, Bool.not_eq_true', decide_eq_false_iff_not]
  rintro rfl
  exact h hc

theorem cstr_of_mem_splitLines (file l : List Char) (h : '\x00' ∉ file)
    (hl : l ∈ splitLines file) : cstr l = l := by
  apply cstr_of_no_nul
  intro hc
  apply h
  rw [← flatten_splitLines file]
  exact List.mem_flatten.mpr ⟨l, hl, hc⟩

/-! ## Symbol table -/

theorem addSymbol_cases (table : SymbolTable) (name : List Char) (address : Int) :
    ((addSymbol table name address).1 = -1 ∧ (addSymbol table name address).2 = table ∧
      (table.count ≥ MAX_SYMBOLS ∨ ∃ s ∈ table.symbols, s.name = name)) ∨
    ((addSymbol table name address).1 = 0 ∧
      (addSymbol table name address).2 = ⟨table.symbols ++ [⟨name, address⟩]⟩ ∧
      table.count < MAX_SYMBOLS ∧ ∀ s ∈ table.symbols, s.name ≠ name) := by
  unfold addSymbol
  by_cases h1 : table.count ≥ MAX_SYMBOLS
  · rw [if_pos h1]; exact Or.inl ⟨rfl, rfl, Or.inl h1⟩
  · rw [if_neg h1]
    by_cases h2 : table.symbols.any (fun s => decide (s.name = name)) = true
    · rw [if_pos h2]
      refine Or.inl ⟨rfl, rfl, Or.inr ?_⟩
      simpa using h2
    · rw [if_neg h2]
      refine Or.inr ⟨rfl, rfl, by omega, ?_⟩
      simpa using h2

theorem findSymbol_append_of_mem (symbols extra : List Symbol) (name : List Char)
    (h : ∃ s ∈ symbols, s.name = name) :
    findSymbol ⟨symbols ++ extra⟩ name = findSymbol ⟨symbols⟩ name := by
  unfold findSymbol
  simp only [List.find?_append]
  obtain ⟨s, hs, hn⟩ := h
  cases hf : symbols.find? (fun s => decide (s.name = name)) with
  | none =>
    rw [List.find?_eq_none] at hf
    have := hf s hs
    simp [hn] at this
  | some x => rfl

theorem findSymbol_append_new (symbols : List Symbol) (name : List Char) (address : Int)
    (h : ∀ s ∈ symbols, s.name ≠ name) :
    findSymbol ⟨symbols ++ [⟨name, address⟩]⟩ name = address := by
  unfold findSymbol
  simp only [List.find?_append]
  have : symbols.find? (fun s => decide (s.name = name)) = none := by
    rw [List.find?_eq_none]
    intro s hs
    simpa using h s hs
  rw [this]
  simp

/-! ## Pass 1 -/

/-- Pass 1 on one more line, by cases on the line. -/
theorem firstPassLoop_cons (table : SymbolTable) (address : Nat) (raw : List Char)
    (rest : List (List Char)) (h : address < MEMORY_SIZE) :
    firstPassLoop table address (raw :: rest) =
      if skipped (cstr raw) then firstPassLoop table address rest
      else
        match labelOf (cstr raw) with
        | none => firstPassLoop table (address + 1) rest
        | some start =>
          if (addSymbol table start address).1 < 0 then (-1, table)
          else firstPassLoop (addSymbol table start address).2 (address + 1) rest := by
  rw [firstPassLoop, if_pos h]

/-- A successful pass 1 binds every label defined on an instruction line with
address below `MEMORY_SIZE` to that address and keeps the earlier bindings. -/
theorem firstPassLoop_bindings (ls : List (List Char)) :
    ∀ (table T : SymbolTable) (address : Nat),
    firstPassLoop table address ls = (0, T) →
    (∀ name, (∃ s ∈ table.symbols, s.name = name) →
      findSymbol T name = findSymbol table name) ∧
    (∀ (k : Nat) (raw name : List Char), ls[k]? = some raw → skipped (cstr raw) = false →
      labelOf (cstr raw) = some name →
      address + (ls.take k).countP (fun l => !skipped (cstr l)) < MEMORY_SIZE →
      findSymbol T name = ((address + (ls.take k).countP (fun l => !skipped (cstr l)) : Nat) : Int)) := by
  induction ls with
  | nil =>
    intro table T address h
    simp only [firstPassLoop, Prod.mk.injEq, true_and] at h
    subst h
    exact ⟨fun _ _ => rfl, fun k raw name hk => by simp at hk⟩
  | cons raw rest ih =>
    intro table T address h
    by_cases ha : address < MEMORY_SIZE
    · rw [firstPassLoop_cons _ _ _ _ ha] at h
      by_cases hsk : skipped (cstr raw) = true
      · rw [if_pos hsk] at h
        obtain ⟨i1, i2⟩ := ih table T address h
        refine ⟨i1, ?_⟩
        intro k r name hk hr hl hlt
        cases k with
        | zero =>
          simp only [List.getElem?_cons_zero, Option.some.injEq] at hk
          subst hk
          rw [hsk] at hr
          exact absurd hr (by decide)
        | succ k =>
          simp only [List.getElem?_cons_succ] at hk
          have e : ((raw :: rest).take (k + 1)).countP (fun l => !skipped (cstr l)) =
              (rest.take k).countP (fun l => !skipped (cstr l)) := by
            rw [List.take_succ_cons, List.countP_cons_of_neg]
            simp [hsk]
          rw [e] at hlt ⊢
          exact i2 k r name hk hr hl hlt
      · have hsk' : skipped (cstr raw) = false := by simpa using hsk
        rw [if_neg hsk] at h
        have e : ∀ k, ((raw :: rest).take (k + 1)).countP (fun l => !skipped (cstr l)) =
            (rest.take k).countP (fun l => !skipped (cstr l)) + 1 := by
          intro k
          rw [List.take_succ_cons, List.countP_cons_of_pos]
          simp [hsk']
        cases hlab : labelOf (cstr raw) with
        | none =>
          rw [hlab] at h
          simp only at h
          obtain ⟨i1, i2⟩ := ih table T (address + 1) h
          refine ⟨i1, ?_⟩
          intro k r name hk hr hl hlt
          cases k with
          | zero =>
            simp only [List.getElem?_cons_zero, Option.some.injEq] at hk
            subst hk
            rw [hlab] at hl
            exact absurd hl (by simp)
          | succ k =>
            simp only [List.getElem?_cons_succ] at hk
            rw [e k] at hlt ⊢
            have := i2 k r name hk hr hl (by omega)
            rw [this]
            congr 1
            omega
        | some start =>
          rw [hlab] at h
          simp only at h
          rcases addSymbol_cases table start address with ⟨c1, _, _⟩ | ⟨c1, c2, c3, c4⟩
          · rw [c1] at h
            simp at h
          · rw [c1, c2] at h
            simp only [lt_self_iff_false, if_false] at h
            obtain ⟨i1, i2⟩ := ih _ T (address + 1) h
            have hpres : ∀ name, (∃ s ∈ table.symbols, s.name = name) →
                findSymbol T name = findSymbol table name := by
              intro name hn
              obtain ⟨s, hs, hsn⟩ := hn
              rw [i1 name ⟨s, List.mem_append_left _ hs, hsn⟩]
              exact findSymbol_append_of_mem _ _ _ ⟨s, hs, hsn⟩
            refine ⟨hpres, ?_⟩
            intro k r name hk hr hl hlt
            cases k with
            | zero =>
              simp only [List.getElem?_cons_zero, Option.some.injEq] at hk
              subst hk
              rw [hlab] at hl
              have hname : start = name := Option.some.inj hl
              subst hname
              rw [i1 start ⟨⟨start, address⟩, by simp, rfl⟩,
                findSymbol_append_new _ _ _ c4]
              simp
            | succ k =>
              simp only [List.getElem?_cons_succ] at hk
              rw [e k] at hlt ⊢
              have := i2 k r name hk hr hl (by omega)
              rw [this]
              congr 1
              omega
    · rw [firstPassLoop, if_neg ha] at h
      simp only [Prod.mk.injEq, true_and] at h
      subst h
      refine ⟨fun _ _ => rfl, ?_⟩
      intro k r name _ _ _ hlt
      omega

/-- Pass 1 fails when a label that is already in the table is defined again on an
instruction line with address below `MEMORY_SIZE`. -/
theorem firstPassLoop_fails_of_present (ls : List (List Char)) :
    ∀ (table : SymbolTable) (address j : Nat) (raw name : List Char),
    ls[j]? = some raw → skipped (cstr raw) = false → labelOf (cstr raw) = some name →
    (∃ s ∈ table.symbols, s.name = name) →
    address + (ls.take j).countP (fun l => !skipped (cstr l)) < MEMORY_SIZE →
    (firstPassLoop table address ls).1 = -1 := by
  induction ls with
  | nil => intro table address j raw name hj; simp at hj
  | cons r rest ih =>
    intro table address j raw name hj hsk hlab hmem hlt
    have ha : address < MEMORY_SIZE := by omega
    rw [firstPassLoop_cons _ _ _ _ ha]
    cases j with
    | zero =>
      simp only [List.getElem?_cons_zero, Option.some.injEq] at hj
      subst hj
      rw [hsk, hlab]
      simp only [Bool.false_eq_true, if_false]
      rcases addSymbol_cases table name address with ⟨c1, _, _⟩ | ⟨_, _, _, c4⟩
      · rw [c1]; simp
      · obtain ⟨s, hs, hn⟩ := hmem
        exact absurd hn (c4 s hs)
    | succ j =>
      simp only [List.getElem?_cons_succ] at hj
      by_cases hr : skipped (cstr r) = true
      · rw [if_pos hr]
        have e : ((r :: rest).take (j + 1)).countP (fun l => !skipped (cstr l)) =
            (rest.take j).countP (fun l => !skipped (cstr l)) := by
          rw [List.take_succ_cons, List.countP_cons_of_neg]; simp [hr]
        rw [e] at hlt
        exact ih table address j raw name hj hsk hlab hmem hlt
      · have hr' : skipped (cstr r) = false := by simpa using hr
        rw [if_neg hr]
        have e : ((r :: rest).take (j + 1)).countP (fun l => !skipped (cstr l)) =
            (rest.take j).countP (fun l => !skipped (cstr l)) + 1 := by
          rw [List.take_succ_cons, List.countP_cons_of_pos]; simp [hr']
        rw [e] at hlt
        cases hl : labelOf (cstr r) with
        | none =>
          simp only
          exact ih table (address + 1) j raw name hj hsk hlab hmem (by omega)
        | some start =>
          simp only
          rcases addSymbol_cases table start address with ⟨c1, _, _⟩ | ⟨c1, c2, _, _⟩
          · rw [c1]; simp
          · rw [c1, c2]
            simp only [lt_self_iff_false, if_false]
            obtain ⟨s, hs, hn⟩ := hmem
            exact ih _ (address + 1) j raw name hj hsk hlab
              ⟨s, List.mem_append_left _ hs, hn⟩ (by omega)

/-- Pass 1 fails when two instruction lines with addresses below `MEMORY_SIZE`
define the same label. -/
theorem firstPassLoop_fails_of_duplicate (ls : List (List Char)) :
    ∀ (table : SymbolTable) (address i j : Nat) (ri rj name : List Char), i < j →
    ls[i]? = some ri → skipped (cstr ri) = false → labelOf (cstr ri) = some name →
    ls[j]? = some rj → skipped (cstr rj) = false → labelOf (cstr rj) = some name →
    address + (ls.take j).countP (fun l => !skipped (cstr l)) < MEMORY_SIZE →
    (firstPassLoop table address ls).1 = -1 := by
  induction ls with
  | nil => intro table address i j ri rj name _ hi; simp at hi
  | cons r rest ih =>
    intro table address i j ri rj name hij hi hski hlabi hj hskj hlabj hlt
    have ha : address < MEMORY_SIZE := by omega
    rw [firstPassLoop_cons _ _ _ _ ha]
    obtain ⟨j, rfl⟩ : ∃ j', j = j' + 1 := ⟨j - 1, by omega⟩
    simp only [List.getElem?_cons_succ] at hj
    cases i with
    | zero =>
      simp only [List.getElem?_cons_zero, Option.some.injEq] at hi
      subst hi
      rw [hski, hlabi]
      simp only [Bool.false_eq_true, if_false]
      have e : ((r :: rest).take (j + 1)).countP (fun l => !skipped (cstr l)) =
          (rest.take j).countP (fun l => !skipped (cstr l)) + 1 := by
        rw [List.take_succ_cons, List.countP_cons_of_pos]; simp [hski]
      rw [e] at hlt
      rcases addSymbol_cases table name address with ⟨c1, _, _⟩ | ⟨c1, c2, _, _⟩
      · rw [c1]; simp
      · rw [c1, c2]
        simp only [lt_self_iff_false, if_false]
        exact firstPassLoop_fails_of_present rest _ (address + 1) j rj name hj hskj hlabj
          ⟨⟨name, address⟩, by simp, rfl⟩ (by omega)
    | succ i =>
      simp only [List.getElem?_cons_succ] at hi
      by_cases hr : skipped (cstr r) = true
      · rw [if_pos hr]
        have e : ((r :: rest).take (j + 1)).countP (fun l => !skipped (cstr l)) =
            (rest.take j).countP (fun l => !skipped (cstr l)) := by
          rw [List.take_succ_cons, List.countP_cons_of_neg]; simp [hr]
        rw [e] at hlt
        exact ih table address i j ri rj name (by omega) hi hski hlabi hj hskj hlabj hlt
      · have hr' : skipped (cstr r) = false := by simpa using hr
        rw [if_neg hr]
        have e : ((r :: rest).take (j + 1)).countP (fun l => !skipped (cstr l)) =
            (rest.take j).countP (fun l => !skipped (cstr l)) + 1 := by
          rw [List.take_succ_cons, List.countP_cons_of_pos]; simp [hr']
        rw [e] at hlt
        cases hl : labelOf (cstr r) with
        | none =>
          simp only
          exact ih table (address + 1) i j ri rj name (by omega) hi hski hlabi hj hskj hlabj
            (by omega)
        | some start =>
          simp only
          rcases addSymbol_cases table start address with ⟨c1, _, _⟩ | ⟨c1, c2, _, _⟩
          · rw [c1]; simp
          · rw [c1, c2]
            simp only [lt_self_iff_false, if_false]
            exact ih _ (address + 1) i j ri rj name (by omega) hi hski hlabi hj hskj hlabj
              (by omega)

/-! ## Pass 2 -/

theorem secondPassLoop_eq (table : SymbolTable) (ls : List (List Char)) :
    secondPassLoop table ls =
      (ls.filter (fun l => !skipped (cstr l))).map (fun l => parseInstruction (cstr l) table) := by
  induction ls with
  | nil => rfl
  | cons raw rest ih =>
    rw [secondPassLoop]
    by_cases h : skipped (cstr raw) = true
    · rw [if_pos h, ih, List.filter_cons_of_neg]
      simp [h]
    · rw [if_neg h, ih, List.filter_cons_of_pos]
      · rfl
      · simpa using h

/-- The position of an element that passes a filter, in the filtered list. -/
theorem getElem?_filter_countP {α : Type} (p : α → Bool) (ls : List α) :
    ∀ (k : Nat) (x : α), ls[k]? = some x → p x = true →
    (ls.filter p)[(ls.take k).countP p]? = some x := by
  induction ls with
  | nil => intro k x h; simp at h
  | cons a rest ih =>
    intro k x h hp
    cases k with
    | zero =>
      simp only [List.getElem?_cons_zero, Option.some.injEq] at h
      subst h
      rw [List.filter_cons_of_pos hp]
      simp
    | succ k =>
      simp only [List.getElem?_cons_succ] at h
      rw [List.take_succ_cons]
      by_cases ha : p a = true
      · rw [List.filter_cons_of_pos ha, List.countP_cons_of_pos p _ ha,
          List.getElem?_cons_succ]
        exact ih k x h hp
      · rw [List.filter_cons_of_neg ha, List.countP_cons_of_neg p _ ha]
        exact ih k x h hp

/-! ## The passes on a source text -/

theorem firstPass_eq (file : List Char) (h : SourceText file) :
    firstPass file = firstPassLoop initAssembler 0 (splitLines file) := by
  unfold firstPass
  rw [fileLines_eq_splitLines _ _ h.2]

theorem secondPassWords_eq (file : List Char) (table : SymbolTable) (h : SourceText file) :
    secondPassWords file table =
      ((splitLines file).filter (fun l => !skipped l)).map
        (fun l => parseInstruction l table) := by
  unfold secondPassWords
  rw [fileLines_eq_splitLines _ _ h.2, secondPassLoop_eq]
  have hc : ∀ l ∈ splitLines file, cstr l = l :=
    fun l hl => cstr_of_mem_splitLines file l h.1 hl
  have hf : (splitLines file).filter (fun l => !skipped (cstr l)) =
      (splitLines file).filter (fun l => !skipped l) := by
    apply List.filter_congr
    intro l hl
    rw [hc l hl]
  rw [hf]
  apply List.map_congr_left
  intro l hl
  rw [hc l (List.mem_of_mem_filter hl)]

theorem countP_cstr_take (ls : List (List Char)) (h : ∀ l ∈ ls, cstr l = l) (k : Nat) :
    (ls.take k).countP (fun l => !skipped (cstr l)) = lineAddress ls k := by
  unfold lineAddress
  apply List.countP_congr
  intro l hl
  rw [h l (List.mem_of_mem_take hl)]

theorem lineAddress_le (ls : List (List Char)) (k : Nat) :
    lineAddress ls k ≤ ls.countP (fun l => !skipped l) := by
  unfold lineAddress
  exact List.Sublist.countP_le _ (List.take_sublist k ls)

theorem splitLines_append_line (l rest : List Char) (h : '\n' ∉ l) :
    splitLines (l ++ '\n' :: rest) = (l ++ ['\n']) :: splitLines rest := by
  induction l with
  | nil => simp [splitLines]
  | cons c cs ih =>
    have hc : c ≠ '\n' := fun e => h (by rw [e]; exact List.mem_cons_self _ _)
    have hcs : '\n' ∉ cs := fun e => h (List.mem_cons_of_mem _ e)
    rw [List.cons_append, splitLines, if_neg hc, ih hcs]
    rfl

theorem splitLines_flatten_lines (ws : List (List Char)) (h : ∀ w ∈ ws, '\n' ∉ w) :
    splitLines ((ws.map (fun w => w ++ ['\n'])).flatten) = ws.map (fun w => w ++ ['\n']) := by
  induction ws with
  | nil => rfl
  | cons w rest ih =>
    simp only [List.map_cons, List.flatten_cons, List.append_assoc, List.singleton_append]
    rw [splitLines_append_line w _ (h w (List.mem_cons_self _ _)),
      ih (fun x hx => h x (List.mem_cons_of_mem _ hx))]

theorem mem_wordChars (w : Nat) (c : Char) (h : c ∈ wordChars w) : c = '0' ∨ c = '1' := by
  unfold wordChars at h
  obtain ⟨k, _, hk⟩ := List.mem_map.mp h
  rw [← hk]
  split
  · exact Or.inr rfl
  · exact Or.inl rfl

theorem validLine_of_binaryLine (l : List Char) (hnul : '\x00' ∉ l) (h : binaryLine l) :
    validLine l = true := by
  unfold validLine stripNewline
  rw [cstr_of_no_nul l hnul]
  unfold binaryLine at h
  simp only [WORD_SIZE, Bool.and_eq_true, decide_eq_true_eq, List.all_eq_true,
    Bool.or_eq_true]
  exact ⟨h.1, h.2⟩

theorem binaryLine_of_validLine (l : List Char) (hnul : '\x00' ∉ l) (h : validLine l = true) :
    binaryLine l := by
  unfold validLine stripNewline at h
  rw [cstr_of_no_nul l hnul] at h
  unfold binaryLine
  simp only [WORD_SIZE, Bool.and_eq_true, decide_eq_true_eq, List.all_eq_true,
    Bool.or_eq_true] at h
  exact ⟨h.1, h.2⟩

theorem writeWord_wellFormed (store : List (List Int)) (a : Int) (vals : List Int)
    (hwf : ∀ w ∈ store, w.length = WORD_SIZE) (ha : 0 ≤ a) (hlt : a.toNat < store.length)
    (hv : vals.length = WORD_SIZE) :
    writeWord store a vals = some (store.set a.toNat vals) := by
  unfold writeWord
  rw [if_neg (by omega), List.getElem?_eq_getElem hlt]
  have hw : (store[a.toNat]).length = WORD_SIZE := hwf _ (List.getElem_mem _)
  simp only
  rw [if_neg (by omega)]
  have h1 : vals.take WORD_SIZE = vals := by rw [← hv, List.take_length]
  have h2 : (store[a.toNat]).drop WORD_SIZE = [] := by rw [← hw, List.drop_length]
  rw [h1, h2, List.append_nil]

/-- On a well-formed machine the loading loop completes; it changes nothing but the
store and keeps the machine well-formed. -/
theorem loadLoop_spec (ls : List (List Char)) : ∀ (c : BabyComputer) (a : Int),
    WellFormed c → 0 ≤ a →
    ∃ c', loadLoop c a ls = some c' ∧ WellFormed c' ∧ c'.memory_size = c.memory_size ∧
      c'.accumulator = c.accumulator ∧ c'.CI = c.CI ∧ c'.PI = c.PI ∧
      c'.running = c.running ∧ c'.addr_mode = c.addr_mode ∧
      c'.index_reg = c.index_reg ∧ c'.base_reg = c.base_reg := by
  induction ls with
  | nil =>
    intro c a hwf _
    exact ⟨c, rfl, hwf, rfl, rfl, rfl, rfl, rfl, rfl, rfl, rfl⟩
  | cons raw rest ih =>
    intro c a hwf ha
    rw [loadLoop]
    by_cases hlt : a < c.memory_size
    · rw [if_pos hlt]
      have hidx : a.toNat < c.store.length := by
        have := hwf.1
        omega
      rw [writeWord_wellFormed c.store a _ hwf.2 ha hidx (loadLine_length _)]
      simp only
      have hwf' : WellFormed { c with store := c.store.set a.toNat (loadLine (stripNewline raw)) } := by
        constructor
        · simp only [List.length_set]; exact hwf.1
        · intro w hw
          rcases List.mem_or_eq_of_mem_set hw with h | h
          · exact hwf.2 w h
          · rw [h]; exact loadLine_length _
      obtain ⟨c', h1, h2, h3, h4, h5, h6, h7, h8, h9, h10⟩ := ih _ (a + 1) hwf' (by omega)
      exact ⟨c', h1, h2, h3, h4, h5, h6, h7, h8, h9, h10⟩
    · rw [if_neg hlt]
      exact ⟨c, rfl, hwf, rfl, rfl, rfl, rfl, rfl, rfl, rfl, rfl⟩

theorem initialize_computer_wellFormed (m : Int) (h : 0 ≤ m) :
    WellFormed (initialize_computer m) := by
  constructor
  · simp only [initialize_computer, List.length_replicate]
    omega
  · intro w hw
    simp only [initialize_computer] at hw
    rw [List.eq_of_mem_replicate hw, List.length_replicate]

/-- The result of `assemble` when pass 1 succeeds: one printed line per word. -/
theorem assemble_of_firstPass_ok (file : List Char) (h : (firstPass file).1 = 0) :
    assemble file = (0, some (((secondPassWords file (firstPass file).2).map
      (fun w => wordChars w ++ ['\n'])).flatten)) := by
  unfold assemble secondPass
  rw [h]
  simp

theorem firstPassLoop_status (ls : List (List Char)) : ∀ (table : SymbolTable) (address : Nat),
    (firstPassLoop table address ls).1 = 0 ∨ (firstPassLoop table address ls).1 = -1 := by
  induction ls with
  | nil => intro table address; exact Or.inl rfl
  | cons raw rest ih =>
    intro table address
    rw [firstPassLoop]
    split
    · split
      · exact ih _ _
      · split
        · exact ih _ _
        · split
          · exact Or.inr rfl
          · exact ih _ _
    · exact Or.inl rfl

theorem firstPass_ok_of_assemble (file : List Char) (h : (assemble file).1 = 0) :
    (firstPass file).1 = 0 := by
  rcases firstPassLoop_status (fileLines MAX_LINE_LENGTH file) initAssembler 0 with h0 | h1
  · exact h0
  · exfalso
    have hf : (firstPass file).1 = -1 := h1
    unfold assemble at h
    rw [hf] at h
    simp at h

/-- The lines of the output file of a successful assembly: the printed words of
the instruction lines, in source order. -/
theorem assemble_output_lines (file out : List Char) (hsrc : SourceText file)
    (h : assemble file = (0, some out)) :
    splitLines out = ((splitLines file).filter (fun l => !skipped l)).map
      (fun l => wordChars (parseInstruction l (firstPass file).2) ++ ['\n']) := by
  have hok : (firstPass file).1 = 0 := firstPass_ok_of_assemble file (by rw [h])
  have hout := assemble_of_firstPass_ok file hok
  rw [h] at hout
  have hout' : out = ((secondPassWords file (firstPass file).2).map
      (fun w => wordChars w ++ ['\n'])).flatten :=
    Option.some.inj (Prod.mk.inj hout).2
  have hmap : (secondPassWords file (firstPass file).2).map (fun w => wordChars w ++ ['\n']) =
      ((secondPassWords file (firstPass file).2).map wordChars).map (fun w => w ++ ['\n']) := by
    rw [List.map_map]; rfl
  have hlines : splitLines out = (secondPassWords file (firstPass file).2).map
      (fun w => wordChars w ++ ['\n']) := by
    rw [hout', hmap, splitLines_flatten_lines, ← hmap]
    intro w hw
    obtain ⟨x, _, hx⟩ := List.mem_map.mp hw
    rw [← hx]
    intro hc
    rcases mem_wordChars x _ hc with e | e <;> exact absurd e (by decide)
  rw [hlines, secondPassWords_eq file _ hsrc, List.map_map]
  rfl

/-! ## Labels as operands -/

theorem trimEnd_sublist (l : List Char) : ∀ c ∈ trimEnd l, c ∈ l := by
  cases l with
  | nil => intro c hc; exact hc
  | cons x xs =>
    intro c hc
    simp only [trimEnd] at hc
    rcases List.mem_cons.mp hc with h | h
    · rw [h]; exact List.mem_cons_self _ _
    · apply List.mem_cons_of_mem
      have h1 : c ∈ xs.reverse.dropWhile isspace := List.mem_reverse.mp h
      exact List.mem_reverse.mp ((List.dropWhile_sublist isspace).subset h1)

theorem trimEnd_idempotent (l : List Char) : trimEnd (trimEnd l) = trimEnd l := by
  cases l with
  | nil => rfl
  | cons x xs =>
    simp only [trimEnd, List.reverse_reverse, List.dropWhile_idempotent]

theorem trimEnd_head? (l : List Char) : (trimEnd l).head? = l.head? := by
  cases l <;> rfl

/-- A label collected by pass 1 is a trimmed, non-empty text without `:` and `;`
that does not start with white space. -/
theorem labelOf_props (line L : List Char) (h : labelOf line = some L) :
    L ≠ [] ∧ (∀ c ∈ L.head?, isspace c = false) ∧ (∀ c ∈ L, c ≠ ':' ∧ c ≠ ';') ∧
      trimEnd L = L := by
  unfold labelOf at h
  cases hs : strchr (line.takeWhile (fun c => c ≠ ';')) ':' with
  | none => rw [hs] at h; simp at h
  | some p =>
    obtain ⟨before, after⟩ := p
    rw [hs] at h
    simp only at h
    split at h
    · rename_i hcond
      have hL : trimEnd (before.dropWhile isspace) = L := Option.some.inj h
      have hb : before = (line.takeWhile (fun c => c ≠ ';')).takeWhile (fun x => x ≠ ':') := by
        unfold strchr at hs
        split at hs
        · exact ((Prod.mk.inj (Option.some.inj hs)).1).symm
        · simp at hs
      refine ⟨by rw [← hL]; exact hcond.1, ?_, ?_, ?_⟩
      · intro c hc
        rw [← hL, trimEnd_head?] at hc
        have := List.head?_dropWhile_not isspace before
        rw [Option.mem_def.mp hc] at this
        simpa using this
      · intro c hc
        rw [← hL] at hc
        have h1 : c ∈ before := (List.dropWhile_sublist isspace).subset (trimEnd_sublist _ c hc)
        rw [hb] at h1
        have h2 := List.mem_takeWhile_imp h1
        have h3 := List.mem_takeWhile_imp ((List.takeWhile_sublist _).subset h1)
        simp only [ne_eq, decide_not, Bool.not_eq_true', decide_eq_false_iff_not] at h2 h3
        exact ⟨h2, h3⟩
      · rw [← hL, trimEnd_idempotent]
    · simp at h

theorem resolveOperand_label (L : List Char) (table : SymbolTable) (k : Nat)
    (hdig : ∀ c ∈ L.head?, isdigit c = false) (hfind : findSymbol table L = (k : Int)) :
    resolveOperand (some L) table = some (k : Int) := by
  unfold resolveOperand
  simp only
  have h1 : (L.head?.map isdigit).getD false = false := by
    cases hh : L.head? with
    | none => rfl
    | some c => simp [hdig c (by rw [hh]; rfl)]
  rw [h1, hfind]
  simp only [Bool.false_eq_true, if_false]
  rw [if_neg (by omega)]

/-- The word that `parseInstruction` builds for `MNEMONIC L` when the table binds
the label `L`, which does not start with a digit, to `k`. -/
theorem parseInstruction_label (mn : List Char) (code : Nat) (L tail : List Char)
    (table : SymbolTable) (k : Nat) (hp : (mn, code) ∈ opcodeTable)
    (hstp : mn ≠ ['S', 'T', 'P'])
    (hL : L ≠ [] ∧ (∀ c ∈ L.head?, isspace c = false) ∧ (∀ c ∈ L, c ≠ ':' ∧ c ≠ ';') ∧
      trimEnd L = L)
    (hdig : ∀ c ∈ L.head?, isdigit c = false) (hfind : findSymbol table L = (k : Int))
    (hk : k < 4294967296) (htail : ∀ c ∈ tail, isspace c = true) :
    parseInstruction (mn ++ ' ' :: (L ++ tail)) table =
      placeBits 13 k 0 ||| (code <<< (32 - 17)) := by
  obtain ⟨h1, h2, h3, _, h5, _⟩ := opcodeTable_facts (mn, code) hp
  simp only at h1 h2 h3 h5
  have htok := tokenize_mnemonic_operand mn L tail h1 h2 hL.2.1 hL.1 hL.2.2.1 hL.2.2.2 htail
  unfold parseInstruction
  rw [htok]
  simp only
  unfold encode
  rw [if_neg h3, if_neg hstp, h5 hstp]
  simp only
  rw [resolveOperand_label L table k hdig hfind]
  simp only
  rw [toU32_natCast, Nat.mod_eq_of_lt hk]

theorem not_skipped_mnemonic (mn : List Char) (code : Nat) (rest : List Char)
    (hp : (mn, code) ∈ opcodeTable) : skipped (mn ++ rest) = false := by
  obtain ⟨h1, h2, _⟩ := opcodeTable_facts (mn, code) hp
  simp only at h1 h2
  obtain ⟨m, ms, rfl⟩ := List.exists_cons_of_ne_nil h1
  have hm := h2 m (List.mem_cons_self _ _)
  unfold skipped
  rw [List.cons_append, List.dropWhile_cons, hm.1]
  simp [hm.2.2]

/-! ## Validation of a machine-code file -/

/-- When the first line does not fit in the buffer, `fgets` returns a full buffer
without a newline. -/
theorem fgetsAux_long (fp : List Char) : ∀ (room : Nat) (l : List Char)
    (ls : List (List Char)), splitLines fp = l :: ls → room < l.length →
    (fgetsAux room fp).1.length = room ∧ '\n' ∉ (fgetsAux room fp).1 ∧
      ∀ c ∈ (fgetsAux room fp).1, c ∈ fp := by
  induction fp with
  | nil => intro room l ls h; simp [splitLines] at h
  | cons c cs ih =>
    intro room l ls h hl
    cases room with
    | zero => simp [fgetsAux]
    | succ n =>
      by_cases hc : c = '\n'
      · rw [splitLines, if_pos hc] at h
        rw [← (List.cons.inj h).1] at hl
        simp at hl
      · rw [splitLines, if_neg hc] at h
        cases hs : splitLines cs with
        | nil =>
          rw [hs] at h
          rw [← (List.cons.inj h).1] at hl
          simp at hl
        | cons l' ls' =>
          rw [hs] at h
          rw [← (List.cons.inj h).1] at hl
          obtain ⟨i1, i2, i3⟩ := ih n l' ls' hs (by simpa using hl)
          rw [fgetsAux, if_neg hc]
          refine ⟨?_, ?_, ?_⟩
          · show (c :: (fgetsAux n cs).1).length = n + 1
            rw [List.length_cons, i1]
          · show '\n' ∉ c :: (fgetsAux n cs).1
            intro hm
            rcases List.mem_cons.mp hm with e | e
            · exact hc e.symm
            · exact i2 e
          · intro x hx
            have hx' : x ∈ c :: (fgetsAux n cs).1 := hx
            rcases List.mem_cons.mp hx' with e | e
            · rw [e]; exact List.mem_cons_self _ _
            · exact List.mem_cons_of_mem _ (i3 x e)

theorem validLine_false_of_long (chunk : List Char) (hlen : chunk.length = 33)
    (hnl : '\n' ∉ chunk) (hnul : '\x00' ∉ chunk) : validLine chunk = false := by
  unfold validLine stripNewline
  rw [cstr_of_no_nul chunk hnul]
  have : chunk.takeWhile (fun c => c ≠ '\n') = chunk := by
    rw [List.takeWhile_eq_self_iff]
    intro c hc
    simp only [ne_eq, decide_not, Bool.not_eq_true', decide_eq_false_iff_not]
    rintro rfl
    exact hnl hc
  rw [this, hlen]
  rfl

/-- An ill-formed line anywhere in the file makes some buffer fail the format check. -/
theorem readLines_invalid : ∀ (fuel : Nat) (fp : List Char), fp.length ≤ fuel →
    '\x00' ∉ fp → (∃ l ∈ splitLines fp, ¬ binaryLine l) →
    (readLines (WORD_SIZE + 2) fuel fp).all validLine = false := by
  intro fuel
  induction fuel with
  | zero =>
    intro fp h _ hbad
    have : fp = [] := List.length_eq_zero.mp (by omega)
    subst this
    obtain ⟨l, hl, _⟩ := hbad
    simp [splitLines] at hl
  | succ fuel ih =>
    intro fp h hnul hbad
    cases fp with
    | nil =>
      obtain ⟨l, hl, _⟩ := hbad
      simp [splitLines] at hl
    | cons c cs =>
      obtain ⟨l, ls, hs⟩ := List.exists_cons_of_ne_nil (splitLines_ne_nil c cs)
      rw [readLines, fgets]
      simp only [List.all_cons]
      have hroom : WORD_SIZE + 2 - 1 = 33 := rfl
      rw [hroom]
      by_cases hlen : l.length ≤ 33
      · obtain ⟨h0, h1, h2, h3⟩ := fgetsAux_splitLines (c :: cs) 33 l ls hs hlen
        rw [h1]
        have hlnul : '\x00' ∉ l := by
          intro hm
          apply hnul
          rw [h3]
          exact List.mem_append_left _ hm
        by_cases hb : binaryLine l
        · have hrest : ∃ x ∈ splitLines (fgetsAux 33 (c :: cs)).2, ¬ binaryLine x := by
            obtain ⟨x, hx, hxb⟩ := hbad
            rw [hs] at hx
            rcases List.mem_cons.mp hx with e | e
            · rw [e] at hxb; exact absurd hb hxb
            · exact ⟨x, by rw [h2]; exact e, hxb⟩
          have hl2 : (fgetsAux 33 (c :: cs)).2.length ≤ fuel := by
            have := congrArg List.length h3
            rw [List.length_append] at this
            have hpos : 0 < l.length := List.length_pos.mpr h0
            simp only [List.length_cons] at this h
            omega
          have hnul2 : '\x00' ∉ (fgetsAux 33 (c :: cs)).2 := by
            intro hm
            apply hnul
            rw [h3]
            exact List.mem_append_right _ hm
          rw [ih _ hl2 hnul2 hrest, Bool.and_false]
        · have : validLine l = false := by
            cases hv : validLine l with
            | false => rfl
            | true => exact absurd (binaryLine_of_validLine l hlnul hv) hb
          rw [this, Bool.false_and]
      · obtain ⟨i1, i2, i3⟩ := fgetsAux_long (c :: cs) 33 l ls hs (by omega)
        rw [validLine_false_of_long _ i1 i2 (fun hm => hnul (i3 _ hm)), Bool.false_and]

theorem splitLines_line_length (fp : List Char) :
    ∀ l ∈ splitLines fp, l.length ≤ (l.takeWhile (fun c => c ≠ '\n')).length + 1 := by
  induction fp with
  | nil => intro l hl; simp [splitLines] at hl
  | cons c cs ih =>
    intro l hl
    by_cases hc : c = '\n'
    · rw [splitLines, if_pos hc] at hl
      rcases List.mem_cons.mp hl with e | e
      · rw [e]; simp
      · exact ih l e
    · rw [splitLines, if_neg hc] at hl
      cases hs : splitLines cs with
      | nil =>
        rw [hs] at hl
        simp only [List.mem_singleton] at hl
        rw [hl]; simp
      | cons l' ls' =>
        rw [hs] at hl ih
        rcases List.mem_cons.mp hl with e | e
        · rw [e, List.takeWhile_cons]
          have hd : decide (c ≠ '\n') = true := by simpa using hc
          simp only [hd, if_true, List.length_cons]
          have := ih l' (List.mem_cons_self _ _)
          omega
        · exact ih l (List.mem_cons_of_mem _ e)

/-! ## The cycle at address 0 -/

/-- With the program counter at 0, `execute` only moves it to 1. -/
theorem execute_at_zero (c : BabyComputer) (opcode operand : Int) (hCI : c.CI = 0) :
    execute c opcode operand = some { c with CI := 1 } := by
  unfold execute
  rw [if_pos hCI]

/-- One cycle of a well-formed machine whose program counter is 0: whatever word is
stored at address 0, only `PI` is loaded and `CI` becomes 1. -/
theorem cycle_at_zero (c : BabyComputer) (hwf : WellFormed c) (hm : 0 < c.memory_size)
    (hCI : c.CI = 0) :
    ∃ pi, cycle c = some { c with PI := pi, CI := 1 } := by
  have hlen : 0 < c.store.length := by
    have := hwf.1
    omega
  have hw : c.store[(0 : Int).toNat]? = some (c.store[0]) := by
    show c.store[0]? = _
    exact List.getElem?_eq_getElem hlen
  have hr : readWord c.store 0 = some (c.store[0]) :=
    readWord_of_getElem? c.store 0 _ (Int.le_refl _) hw (hwf.2 _ (List.getElem_mem _))
  refine ⟨(c.store[0]).foldl (fun pi b => or32 (shl32 pi 1) b) 0, ?_⟩
  unfold cycle fetch
  rw [hCI, hr]
  simp only
  unfold decode
  simp only
  rw [hr]
  simp only
  rw [execute_at_zero _ _ _ rfl]

/-! ## The value of a memory word -/

theorem bitSum_succ (w : List Int) (n : Nat) :
    bitSum w (n + 1) = bitSum w n + (if w.getD n 0 ≠ 0 then 2 ^ n else 0) := by
  unfold bitSum
  rw [List.range_succ, List.map_append, List.sum_append]
  simp

theorem bitSum_lt (w : List Int) (n : Nat) : bitSum w n < 2 ^ n := by
  induction n with
  | zero => simp [bitSum]
  | succ n ih =>
    rw [bitSum_succ, Nat.pow_succ]
    split <;> omega

theorem testBit_bitSum (w : List Int) (n j : Nat) :
    (bitSum w n).testBit j = (decide (j < n) && decide (w.getD j 0 ≠ 0)) := by
  induction n with
  | zero => simp [bitSum]
  | succ n ih =>
    rw [bitSum_succ]
    have hlt := bitSum_lt w n
    by_cases hc : w.getD n 0 ≠ 0
    · rw [if_pos hc, Nat.add_comm]
      rcases Nat.lt_trichotomy j n with hj | hj | hj
      · rw [Nat.testBit_two_pow_add_gt hj, ih]
        have e1 : decide (j < n) = true := by simpa using hj
        have e2 : decide (j < n + 1) = true := by simp; omega
        rw [e1, e2]
      · subst hj
        rw [Nat.testBit_two_pow_add_eq, Nat.testBit_lt_two_pow hlt]
        have e2 : decide (j < j + 1) = true := by simp
        have e3 : decide (w.getD j 0 ≠ 0) = true := by simpa using hc
        rw [e2, e3]
        rfl
      · have hb : 2 ^ n + bitSum w n < 2 ^ j := by
          calc 2 ^ n + bitSum w n < 2 ^ n + 2 ^ n := by omega
            _ = 2 ^ (n + 1) := by rw [Nat.pow_succ]; omega
            _ ≤ 2 ^ j := Nat.pow_le_pow_right (by decide) hj
        rw [Nat.testBit_lt_two_pow hb]
        have e2 : decide (j < n + 1) = false := by simp; omega
        rw [e2]
        rfl
    · rw [if_neg hc, Nat.add_zero, ih]
      by_cases hj : j = n
      · subst hj
        have e1 : decide (j < j) = false := by simp
        have e3 : decide (w.getD j 0 ≠ 0) = false := by simpa using hc
        rw [e1, e3]
        simp
      · have e : decide (j < n + 1) = decide (j < n) := by simp; omega
        rw [e]

/-- The loop of `decode` and `get_value_from_address` computes the weighted sum of the
non-zero cells, as a signed 32-bit integer. -/
theorem orBits_eq_bitSum (w : List Int) (n : Nat) (hn : n ≤ 32) :
    orBits w n = toI32 (bitSum w n) := by
  obtain ⟨u, _, he, hb⟩ := orBits_spec w n hn
  have : u = bitSum w n := by
    apply Nat.eq_of_testBit_eq
    intro j
    rw [hb j, testBit_bitSum]
  rw [he, this]

theorem wrap32_toI32 (u : Nat) : wrap32 (toI32 u) = toI32 u := by
  unfold wrap32
  rw [toU32_toI32]
  unfold toI32
  rw [Nat.mod_mod]

theorem toI32_range (u : Nat) : -2147483648 ≤ toI32 u ∧ toI32 u < 2147483648 := by
  unfold toI32
  split <;> omega

/-- On a well-formed machine outside IMMEDIATE mode, a read at a non-negative address
returns the value of the word at that address modulo the memory size. -/
theorem get_value_wellFormed (c : BabyComputer) (n : Int) (hwf : WellFormed c)
    (hmode : c.addr_mode ≠ AddressingMode.IMMEDIATE) (hm : 0 < c.memory_size)
    (hn : 0 ≤ n) :
    get_value_from_address c n =
      some (wordValue (c.store.getD (n % c.memory_size).toNat [])) := by
  have h1 : 0 ≤ n % c.memory_size := Int.emod_nonneg n (by omega)
  have h2 : n % c.memory_size < c.memory_size := Int.emod_lt_of_pos n hm
  have hidx : (n % c.memory_size).toNat < c.store.length := by
    have := hwf.1
    omega
  have hw : c.store[(n % c.memory_size).toNat]? = some (c.store[(n % c.memory_size).toNat]) :=
    List.getElem?_eq_getElem hidx
  have hlen : (c.store[(n % c.memory_size).toNat]).length = 32 :=
    hwf.2 _ (List.getElem_mem _)
  unfold get_value_from_address
  rw [if_neg hmode, if_neg (by omega), Int.tmod_eq_emod hn (by omega),
    readWord_of_getElem? _ _ _ h1 hw hlen]
  simp only [WORD_SIZE]
  rw [orBits_eq_bitSum _ 32 (Nat.le_refl _), List.getD_eq_getElem?_getD, hw]
  rfl

/-- On a well-formed machine every read at a non-negative address is defined. -/
theorem get_value_defined (c : BabyComputer) (n : Int) (hwf : WellFormed c)
    (hm : 0 < c.memory_size) (hn : 0 ≤ n) :
    ∃ v, get_value_from_address c n = some v := by
  by_cases hmode : c.addr_mode = AddressingMode.IMMEDIATE
  · exact ⟨n, by unfold get_value_from_address; rw [if_pos hmode]⟩
  · exact ⟨_, get_value_wellFormed c n hwf hmode hm hn⟩

/-! ## The cases of `execute` -/

theorem readingOpcodes_facts : ∀ op ∈ readingOpcodes,
    op ≠ 0b0000 ∧ op ≠ 0b1000 ∧ op ≠ 0b1100 ∧ op ≠ 0b1110 ∧
    (op = 0b0100 ∨ op = 0b0010 ∨ op = 0b1010 ∨ op = 0b0110 ∨
      op = 0b0001 ∨ op = 0b1001 ∨ op = 0b0101 ∨ op = 0b1101 ∨
      op = 0b0011 ∨ op = 0b1011 ∨ op = 0b0111 ∨ op = 0b1111) := by
  decide

theorem mem_readingOpcodes_iff (op : Int) :
    op ∈ readingOpcodes ↔
      (op = 0b0100 ∨ op = 0b0010 ∨ op = 0b1010 ∨ op = 0b0110 ∨
        op = 0b0001 ∨ op = 0b1001 ∨ op = 0b0101 ∨ op = 0b1101 ∨
        op = 0b0011 ∨ op = 0b1011 ∨ op = 0b0111 ∨ op = 0b1111) := by
  simp [readingOpcodes]

/-- The case of `execute` for an opcode that reads memory, away from address 0. -/
theorem execute_reading (c : BabyComputer) (opcode operand : Int) (hCI : c.CI ≠ 0)
    (hop : opcode ∈ readingOpcodes) :
    execute c opcode operand =
      match get_value_from_address c operand with
      | none => none
      | some value =>
        match alu opcode c.accumulator value with
        | none => none
        | some acc => some { c with accumulator := acc, CI := wrap32 (c.CI + 1) } := by
  obtain ⟨h1, h2, h3, h4, h5⟩ := readingOpcodes_facts opcode hop
  unfold execute
  rw [if_neg hCI, if_neg h1, if_neg h2, if_neg h3, if_neg h4, if_pos h5]
  try rfl

/-- The result of `execute`, by cases on the program counter and the opcode. -/
theorem execute_cases (c : BabyComputer) (opcode operand : Int) (c' : BabyComputer)
    (h : execute c opcode operand = some c') :
    (c.CI = 0 ∧ c' = { c with CI := 1 }) ∨
    (c.CI ≠ 0 ∧ opcode = 0b0000 ∧ c' = { c with CI := operand }) ∨
    (c.CI ≠ 0 ∧ opcode = 0b1000 ∧ c' = { c with CI := wrap32 (c.CI + operand) }) ∨
    (c.CI ≠ 0 ∧ opcode = 0b1100 ∧ ∃ c1, store_value_to_address c operand c.accumulator = some c1 ∧
      c' = { c1 with CI := wrap32 (c1.CI + 1) }) ∨
    (c.CI ≠ 0 ∧ opcode = 0b1110 ∧ c' = { c with running := 0 }) ∨
    (c.CI ≠ 0 ∧ opcode ∈ readingOpcodes ∧ ∃ v a, get_value_from_address c operand = some v ∧
      alu opcode c.accumulator v = some a ∧
      c' = { c with accumulator := a, CI := wrap32 (c.CI + 1) }) ∨
    (c.CI ≠ 0 ∧ opcode ≠ 0b0000 ∧ opcode ≠ 0b1000 ∧ opcode ≠ 0b1100 ∧ opcode ≠ 0b1110 ∧
      opcode ∉ readingOpcodes ∧ c' = { c with CI := wrap32 (c.CI + 1) }) := by
  by_cases hCI : c.CI = 0
  · left
    unfold execute at h
    rw [if_pos hCI] at h
    exact ⟨hCI, (Option.some.inj h).symm⟩
  by_cases h0 : opcode = 0b0000
  · right; left
    unfold execute at h
    rw [if_neg hCI, if_pos h0] at h
    exact ⟨hCI, h0, (Option.some.inj h).symm⟩
  by_cases h8 : opcode = 0b1000
  · right; right; left
    unfold execute at h
    rw [if_neg hCI, if_neg h0, if_pos h8] at h
    exact ⟨hCI, h8, (Option.some.inj h).symm⟩
  by_cases h12 : opcode = 0b1100
  · right; right; right; left
    unfold execute at h
    rw [if_neg hCI, if_neg h0, if_neg h8, if_pos h12] at h
    cases hs : store_value_to_address c operand c.accumulator with
    | none => rw [hs] at h; exact absurd h (by simp)
    | some c1 =>
      rw [hs] at h
      exact ⟨hCI, h12, c1, rfl, (Option.some.inj h).symm⟩
  by_cases h14 : opcode = 0b1110
  · right; right; right; right; left
    unfold execute at h
    rw [if_neg hCI, if_neg h0, if_neg h8, if_neg h12, if_pos h14] at h
    exact ⟨hCI, h14, (Option.some.inj h).symm⟩
  by_cases hr : opcode ∈ readingOpcodes
  · right; right; right; right; right; left
    rw [execute_reading c opcode operand hCI hr] at h
    cases hv : get_value_from_address c operand with
    | none => rw [hv] at h; exact absurd h (by simp)
    | some v =>
      rw [hv] at h
      simp only at h
      cases ha : alu opcode c.accumulator v with
      | none => rw [ha] at h; exact absurd h (by simp)
      | some a =>
        rw [ha] at h
        exact ⟨hCI, hr, v, a, rfl, ha, (Option.some.inj h).symm⟩
  · right; right; right; right; right; right
    unfold execute at h
    rw [if_neg hCI, if_neg h0, if_neg h8, if_neg h12, if_neg h14,
      if_neg (fun hd => hr ((mem_readingOpcodes_iff opcode).mpr hd))] at h
    exact ⟨hCI, h0, h8, h12, h14, hr, (Option.some.inj h).symm⟩

/-- The running flag after `execute`: cleared by STP away from address 0, kept otherwise. -/
theorem execute_running (c : BabyComputer) (opcode operand : Int) (c' : BabyComputer)
    (h : execute c opcode operand = some c') :
    c'.running = if opcode = 0b1110 ∧ c.CI ≠ 0 then 0 else c.running := by
  rcases execute_cases c opcode operand c' h with
    ⟨h0, rfl⟩ | ⟨h0, h1, rfl⟩ | ⟨h0, h1, rfl⟩ | ⟨h0, h1, c1, hs, rfl⟩ | ⟨h0, h1, rfl⟩ |
    ⟨h0, h1, v, a, _, _, rfl⟩ | ⟨h0, h1, h2, h3, h4, _, rfl⟩
  · rw [if_neg (fun hh => hh.2 h0)]
  · rw [if_neg (fun hh => by rw [h1] at hh; exact absurd hh.1 (by decide))]
  · rw [if_neg (fun hh => by rw [h1] at hh; exact absurd hh.1 (by decide))]
  · rw [if_neg (fun hh => by rw [h1] at hh; exact absurd hh.1 (by decide))]
    unfold store_value_to_address at hs
    split at hs
    · exact absurd hs (by simp)
    · rw [← Option.some.inj hs]
  · rw [if_pos ⟨h1, h0⟩]
  · rw [if_neg (fun hh => (readingOpcodes_facts opcode h1).2.2.2.1 hh.1)]
  · rw [if_neg (fun hh => h4 hh.1)]

/-- The program counter after `execute`. -/
theorem execute_CI (c : BabyComputer) (opcode operand : Int) (c' : BabyComputer)
    (h : execute c opcode operand = some c') :
    c'.CI = if c.CI = 0 then 1 else if opcode = 0b0000 then operand
      else if opcode = 0b1000 then wrap32 (c.CI + operand)
      else if opcode = 0b1110 then c.CI else wrap32 (c.CI + 1) := by
  rcases execute_cases c opcode operand c' h with
    ⟨h0, rfl⟩ | ⟨h0, h1, rfl⟩ | ⟨h0, h1, rfl⟩ | ⟨h0, h1, c1, hs, rfl⟩ | ⟨h0, h1, rfl⟩ |
    ⟨h0, h1, v, a, _, _, rfl⟩ | ⟨h0, h1, h2, h3, h4, _, rfl⟩
  · rw [if_pos h0]
  · rw [if_neg h0, if_pos h1]
  · rw [if_neg h0, h1, if_neg (by decide), if_pos rfl]
  · rw [if_neg h0, h1, if_neg (by decide), if_neg (by decide), if_neg (by decide)]
    unfold store_value_to_address at hs
    split at hs
    · exact absurd hs (by simp)
    · rw [← Option.some.inj hs]
  · rw [if_neg h0, h1, if_neg (by decide), if_neg (by decide), if_pos rfl]
  · obtain ⟨f1, f2, _, f4, _⟩ := readingOpcodes_facts opcode h1
    rw [if_neg h0, if_neg f1, if_neg f2, if_neg f4]
  · rw [if_neg h0, if_neg h1, if_neg h2, if_neg h4]

theorem wrap32_of_range (x : Int) (h1 : -2147483648 ≤ x) (h2 : x < 2147483648) :
    wrap32 x = x := toI32_toU32 x h1 h2

/-- On a well-formed machine a store at an address inside the memory replaces that
word by the 32 bits of the value. -/
theorem store_value_wellFormed (c : BabyComputer) (a v : Int) (hwf : WellFormed c)
    (h0 : 0 ≤ a) (h1 : a < c.memory_size) :
    store_value_to_address c a v =
      some { c with store := (c.store.set a.toNat
        ((List.range WORD_SIZE).map (fun i => if (toU32 v).testBit i then (1 : Int) else 0))) } := by
  have hidx : a.toNat < c.store.length := by
    have := hwf.1
    omega
  unfold store_value_to_address
  rw [writeWord_wellFormed c.store a _ hwf.2 h0 hidx (by simp)]

/-- The value of the word that holds the 32 bits of `v`. -/
theorem wordValue_bits (v : Int) (h1 : -2147483648 ≤ v) (h2 : v < 2147483648) :
    wordValue ((List.range WORD_SIZE).map
      (fun i => if (toU32 v).testBit i then (1 : Int) else 0)) = v := by
  unfold wordValue
  have : bitSum ((List.range WORD_SIZE).map
      (fun i => if (toU32 v).testBit i then (1 : Int) else 0)) 32 = toU32 v := by
    apply Nat.eq_of_testBit_eq
    intro j
    rw [testBit_bitSum]
    by_cases hj : j < 32
    · have hg : ((List.range 32).map
          (fun i => if (toU32 v).testBit i then (1 : Int) else 0)).getD j 0 =
          if (toU32 v).testBit j then 1 else 0 :=
        getD_bitCells (fun i => (toU32 v).testBit i) j hj
      simp only [WORD_SIZE, hg, hj, decide_True, Bool.true_and]
      cases (toU32 v).testBit j <;> simp
    · have hb : (toU32 v).testBit j = false := by
        apply Nat.testBit_lt_two_pow
        calc toU32 v < 2 ^ 32 := toU32_lt v
          _ ≤ 2 ^ j := Nat.pow_le_pow_right (by decide) (by omega)
      simp [hj, hb]
  rw [this, toI32_toU32 v h1 h2]

/-! ## Arithmetic of the accumulator -/

theorem toI32_mod (u : Nat) : toI32 (u % 4294967296) = toI32 u := by
  unfold toI32
  rw [Nat.mod_mod]

theorem toU32_cast (x : Int) : ((toU32 x : Nat) : Int) = x % 4294967296 := by
  unfold toU32
  exact Int.toNat_of_nonneg (Int.emod_nonneg x (by decide))

/-- A left shift is a multiplication by a power of two modulo `2 ^ 32`. -/
theorem shl32_eq_wrap32 (a : Int) (k : Nat) : shl32 a k = wrap32 (a * 2 ^ k) := by
  unfold shl32 wrap32
  rw [← toI32_mod (toU32 a <<< k), ← toI32_mod (toU32 (a * 2 ^ k))]
  congr 1
  apply Int.ofNat_inj.mp
  rw [Nat.shiftLeft_eq]
  push_cast
  rw [toU32_cast, toU32_cast, Int.emod_emod_of_dvd _ (dvd_refl _),
    Int.mul_emod (a % 4294967296), Int.emod_emod_of_dvd _ (dvd_refl _),
    ← Int.mul_emod]

/-- A right shift of an `int` is the arithmetic shift of the integer. -/
theorem shr32_eq_shiftRight (a : Int) (k : Nat) : shr32 a k = a >>> k := by
  unfold shr32
  rw [Int.shiftRight_eq_div_pow]
  push_cast
  rfl

theorem and32_testBit (a b : Int) (i : Nat) :
    (toU32 (and32 a b)).testBit i = ((toU32 a).testBit i && (toU32 b).testBit i) := by
  unfold and32
  rw [toU32_toI32, Nat.mod_eq_of_lt (Nat.and_lt_two_pow (n := 32) _ (toU32_lt b)),
    Nat.testBit_and]

theorem or32_testBit (a b : Int) (i : Nat) :
    (toU32 (or32 a b)).testBit i = ((toU32 a).testBit i || (toU32 b).testBit i) := by
  unfold or32
  rw [toU32_toI32, Nat.mod_eq_of_lt (Nat.or_lt_two_pow (n := 32) (toU32_lt a) (toU32_lt b)),
    Nat.testBit_or]

theorem xor32_testBit (a b : Int) (i : Nat) :
    (toU32 (xor32 a b)).testBit i = ((toU32 a).testBit i ^^ (toU32 b).testBit i) := by
  unfold xor32
  rw [toU32_toI32, Nat.mod_eq_of_lt (Nat.xor_lt_two_pow (n := 32) (toU32_lt a) (toU32_lt b)),
    Nat.testBit_xor]

/-- The step of `execute` for an opcode that reads memory, once the value read and
the new accumulator are known. -/
theorem execute_reading_of (c : BabyComputer) (opcode operand v a : Int) (hCI : c.CI ≠ 0)
    (hop : opcode ∈ readingOpcodes) (hv : get_value_from_address c operand = some v)
    (ha : alu opcode c.accumulator v = some a) :
    execute c opcode operand = some { c with accumulator := a, CI := wrap32 (c.CI + 1) } := by
  rw [execute_reading c opcode operand hCI hop, hv]
  simp only
  rw [ha]

/-! ## Reads wrap around the memory size -/

theorem get_value_add_memory_size (c : BabyComputer) (k : Int)
    (hmode : c.addr_mode ≠ AddressingMode.IMMEDIATE) (h0 : 0 ≤ k)
    (h1 : k < c.memory_size) :
    get_value_from_address c (c.memory_size + k) = get_value_from_address c k := by
  unfold get_value_from_address
  rw [if_neg hmode, if_neg hmode, Int.tmod_eq_emod (by omega) (by omega),
    Int.tmod_eq_emod h0 (by omega), Int.add_emod_self_left]

/-! ## Decoding a word of bits -/

theorem bitSum_cast (w : List Int) (n : Nat)
    (h : ∀ i, i < n → w.getD i 0 = 0 ∨ w.getD i 0 = 1) :
    ((bitSum w n : Nat) : Int) = ((List.range n).map (fun i => w.getD i 0 * 2 ^ i)).sum := by
  induction n with
  | zero => simp [bitSum]
  | succ n ih =>
    rw [bitSum_succ, List.range_succ, List.map_append, List.sum_append,
      ← ih (fun i hi => h i (by omega))]
    simp only [List.map_cons, List.map_nil, List.sum_cons, List.sum_nil, add_zero]
    rcases h n (by omega) with h0 | h1
    · rw [h0]; simp
    · rw [h1]; simp

theorem bitSum_congr (w w2 : List Int) (n : Nat)
    (h : ∀ i, i < n → w2.getD i 0 = w.getD i 0) : bitSum w2 n = bitSum w n := by
  unfold bitSum
  congr 1
  apply List.map_congr_left
  intro i hi
  rw [h i (List.mem_range.mp hi)]

theorem opcode_of_cells (b13 b14 b15 b16 : Int) (h13 : b13 = 0 ∨ b13 = 1)
    (h14 : b14 = 0 ∨ b14 = 1) (h15 : b15 = 0 ∨ b15 = 1) (h16 : b16 = 0 ∨ b16 = 1) :
    or32 (or32 (or32 (shl32 b13 3) (shl32 b14 2)) (shl32 b15 1)) (shl32 b16 0) =
      8 * b13 + 4 * b14 + 2 * b15 + b16 := by
  rcases h13 with h | h <;> rcases h14 with h' | h' <;> rcases h15 with h'' | h'' <;>
    rcases h16 with h''' | h''' <;> subst h <;> subst h' <;> subst h'' <;> subst h''' <;>
    decide

/-- The current word of a well-formed machine whose `CI` is a memory address. -/
theorem readWord_current (c : BabyComputer) (hwf : WellFormed c) (h0 : 0 ≤ c.CI)
    (h1 : c.CI < c.memory_size) :
    readWord c.store c.CI = some (c.store.getD c.CI.toNat []) ∧
      (c.store.getD c.CI.toNat []).length = 32 ∧
      c.store.getD c.CI.toNat [] ∈ c.store := by
  have hidx : c.CI.toNat < c.store.length := by
    have := hwf.1
    omega
  have hw : c.store[c.CI.toNat]? = some (c.store[c.CI.toNat]) := List.getElem?_eq_getElem hidx
  have hg : c.store.getD c.CI.toNat [] = c.store[c.CI.toNat] := by
    rw [List.getD_eq_getElem?_getD, hw]; rfl
  have hlen : (c.store[c.CI.toNat]).length = 32 := hwf.2 _ (List.getElem_mem _)
  rw [hg]
  exact ⟨readWord_of_getElem? _ _ _ h0 hw hlen, hlen, List.getElem_mem _⟩

theorem getD_mem_or_default (w : List Int) (i : Nat) (hi : i < w.length) :
    w.getD i 0 ∈ w := by
  rw [List.getD_eq_getElem?_getD, List.getElem?_eq_getElem hi]
  exact List.getElem_mem _

/-- The loop that halts: once the running flag is cleared, `run` returns the state. -/
theorem run_halted (n : Nat) (c : BabyComputer) (h : c.running = 0) : run n c = some c := by
  cases n with
  | zero => rfl
  | succ n => rw [run, if_neg (by simp [h])]

theorem run_add (k : Nat) : ∀ (n : Nat) (c : BabyComputer),
    run (n + k) c = (run k c).bind (run n) := by
  induction k with
  | zero => intro n c; rfl
  | succ k ih =>
    intro n c
    rw [← Nat.add_assoc, run, run]
    by_cases hr : c.running ≠ 0
    · rw [if_pos hr, if_pos hr]
      cases cycle c with
      | none => rfl
      | some c1 => exact ih n c1
    · rw [if_neg hr, if_neg hr]
      have h0 : c.running = 0 := by simpa using hr
      exact (run_halted n c h0).symm

/-! ## The symbol table -/

theorem findSymbol_eq_neg_one_of_absent (table : SymbolTable) (name : List Char)
    (h : ∀ s ∈ table.symbols, s.name ≠ name) : findSymbol table name = -1 := by
  unfold findSymbol
  have : table.symbols.find? (fun s => decide (s.name = name)) = none := by
    rw [List.find?_eq_none]
    intro s hs
    simpa using h s hs
  rw [this]

theorem findSymbol_of_present (table : SymbolTable) (name : List Char)
    (h : ∃ s ∈ table.symbols, s.name = name) :
    ∃ s ∈ table.symbols, s.name = name ∧ findSymbol table name = s.address := by
  unfold findSymbol
  cases hf : table.symbols.find? (fun s => decide (s.name = name)) with
  | none =>
    rw [List.find?_eq_none] at hf
    obtain ⟨s, hs, hn⟩ := h
    exact absurd hn (by simpa using hf s hs)
  | some s =>
    exact ⟨s, List.mem_of_find?_eq_some hf, by simpa using List.find?_some hf, rfl⟩

theorem findSymbol_append_other (symbols : List Symbol) (name other : List Char)
    (address : Int) (h : other ≠ name) :
    findSymbol ⟨symbols ++ [⟨name, address⟩]⟩ other = findSymbol ⟨symbols⟩ other := by
  unfold findSymbol
  simp only [List.find?_append, List.find?_cons, List.find?_nil]
  have hd : decide (name = other) = false := by simpa using fun e => h e.symm
  simp only [hd]
  cases symbols.find? (fun s => decide (s.name = other)) <;> rfl

theorem addSymbol_invariant (table : SymbolTable) (name : List Char) (address : Int)
    (hnd : (table.symbols.map Symbol.name).Nodup) (hc : table.count ≤ MAX_SYMBOLS) :
    ((addSymbol table name address).2.symbols.map Symbol.name).Nodup ∧
      (addSymbol table name address).2.count ≤ MAX_SYMBOLS := by
  rcases addSymbol_cases table name address with ⟨_, h2, _⟩ | ⟨_, h2, h3, h4⟩
  · rw [h2]; exact ⟨hnd, hc⟩
  · rw [h2]
    constructor
    · simp only [List.map_append, List.map_cons, List.map_nil]
      rw [List.nodup_append]
      refine ⟨hnd, List.nodup_singleton _, ?_⟩
      intro a ha hb
      simp only [List.mem_singleton] at hb
      obtain ⟨s, hs, hsn⟩ := List.mem_map.mp ha
      exact h4 s hs (by rw [hsn, hb])
    · simp only [SymbolTable.count, List.length_append, List.length_singleton] at h3 ⊢
      omega

theorem addSymbols_invariant (calls : List (List Char × Int)) :
    ∀ table : SymbolTable, (table.symbols.map Symbol.name).Nodup →
      table.count ≤ MAX_SYMBOLS →
      ((addSymbols table calls).symbols.map Symbol.name).Nodup ∧
        (addSymbols table calls).count ≤ MAX_SYMBOLS := by
  induction calls with
  | nil => intro table hnd hc; exact ⟨hnd, hc⟩
  | cons call rest ih =>
    intro table hnd hc
    obtain ⟨h1, h2⟩ := addSymbol_invariant table call.1 call.2 hnd hc
    exact ih _ h1 h2

theorem addSymbols_addresses (calls : List (List Char × Int)) :
    ∀ table : SymbolTable, ∀ s ∈ (addSymbols table calls).symbols,
      s ∈ table.symbols ∨ (s.name, s.address) ∈ calls := by
  induction calls with
  | nil => intro table s hs; exact Or.inl hs
  | cons call rest ih =>
    intro table s hs
    rcases ih _ s hs with h | h
    · rcases addSymbol_cases table call.1 call.2 with ⟨_, h2, _⟩ | ⟨_, h2, _⟩
      · rw [h2] at h; exact Or.inl h
      · rw [h2] at h
        simp only [List.mem_append, List.mem_singleton] at h
        rcases h with h | h
        · exact Or.inl h
        · right; rw [h]; exact List.mem_cons_self _ _
    · exact Or.inr (List.mem_cons_of_mem _ h)

/-! ## The loading loop -/

/-- A file whose lines are all 32 characters `0`/`1` holds no NUL character. -/
theorem no_nul_of_binaryLines (file : List Char)
    (h : ∀ l ∈ splitLines file, binaryLine l) : '\x00' ∉ file := by
  intro hm
  rw [← flatten_splitLines file] at hm
  obtain ⟨l, hl, hin⟩ := List.mem_flatten.mp hm
  have hlen := splitLines_line_length file l hl
  have hb := h l hl
  have hsplit := List.takeWhile_append_dropWhile (fun c => decide (c ≠ '\n')) l
  rw [← hsplit] at hin
  rcases List.mem_append.mp hin with h1 | h1
  · rcases hb.2 _ h1 with e | e <;> exact absurd e (by decide)
  · have hdl : (l.dropWhile (fun c => decide (c ≠ '\n'))).length ≤ 1 := by
      have := congrArg List.length hsplit
      rw [List.length_append] at this
      omega
    cases hd : l.dropWhile (fun c => decide (c ≠ '\n')) with
    | nil => rw [hd] at h1; simp at h1
    | cons x xs =>
      have hx := List.head_dropWhile_not (fun c => decide (c ≠ '\n')) l
        (by rw [hd]; exact List.cons_ne_nil _ _)
      simp only [hd, List.head_cons] at hx
      rw [hd] at hdl h1
      have hxs : xs = [] := by
        cases xs with
        | nil => rfl
        | cons y ys => simp at hdl
      rw [hxs] at h1
      simp only [List.mem_singleton] at h1
      rw [← h1] at hx
      exact absurd hx (by decide)

/-- The store after the loading loop on a well-formed machine: word `a + j` holds line
`j` as long as `a + j` is below the memory size, every other word is unchanged. -/
theorem loadLoop_store (ls : List (List Char)) : ∀ (c c' : BabyComputer) (a : Int),
    WellFormed c → 0 ≤ a → loadLoop c a ls = some c' →
    c'.store.length = c.store.length ∧
    (∀ (j : Nat) (raw : List Char), ls[j]? = some raw → a + j < c.memory_size →
      c'.store[(a + j).toNat]? = some (loadLine (stripNewline raw))) ∧
    (∀ k : Nat, ((k : Int) < a ∨ a + ls.length ≤ k ∨ c.memory_size ≤ k) →
      c'.store[k]? = c.store[k]?) := by
  induction ls with
  | nil =>
    intro c c' a _ _ h
    rw [loadLoop] at h
    rw [← Option.some.inj h]
    exact ⟨rfl, fun j raw hj => by simp at hj, fun k _ => rfl⟩
  | cons raw rest ih =>
    intro c c' a hwf ha h
    rw [loadLoop] at h
    by_cases hlt : a < c.memory_size
    · rw [if_pos hlt] at h
      have hidx : a.toNat < c.store.length := by
        have := hwf.1
        omega
      rw [writeWord_wellFormed c.store a _ hwf.2 ha hidx (loadLine_length _)] at h
      simp only at h
      have hwf1 : WellFormed
          { c with store := c.store.set a.toNat (loadLine (stripNewline raw)) } := by
        constructor
        · simp only [List.length_set]; exact hwf.1
        · intro w hw
          rcases List.mem_or_eq_of_mem_set hw with h | h
          · exact hwf.2 w h
          · rw [h]; exact loadLine_length _
      obtain ⟨h1, h2, h3⟩ := ih _ c' (a + 1) hwf1 (by omega) h
      simp only [List.length_set] at h1 h2 h3
      refine ⟨h1, ?_, ?_⟩
      · intro j line hj hjm
        cases j with
        | zero =>
          simp only [List.getElem?_cons_zero, Option.some.injEq] at hj
          have := h3 a.toNat (Or.inl (by omega))
          simp only [Nat.cast_zero, add_zero]
          rw [this, List.getElem?_set_self hidx, hj]
        | succ j =>
          simp only [List.getElem?_cons_succ] at hj
          have := h2 j line hj (by push_cast at hjm; omega)
          have he : (a + ((j + 1 : Nat) : Int)).toNat = (a + 1 + (j : Int)).toNat := by
            push_cast; congr 1; omega
          rw [he]; exact this
      · intro k hk
        have hne : a.toNat ≠ k := by
          simp only [List.length_cons] at hk
          push_cast at hk
          omega
        have := h3 k (by
          simp only [List.length_cons] at hk
          push_cast at hk
          omega)
        rw [this, List.getElem?_set_ne hne]
    · rw [if_neg hlt] at h
      rw [← Option.some.inj h]
      exact ⟨rfl, fun j line _ hjm => absurd hjm (by omega), fun k _ => rfl⟩

/-! ## The cap of pass 1 -/

/-- The loop of `firstPass` keeps `count` at most the address counter, which never
exceeds `MEMORY_SIZE`; it records only addresses below `MEMORY_SIZE`; and when it
fails, the label that `addSymbol` rejected is already in the table. -/
theorem firstPassLoop_cap (ls : List (List Char)) : ∀ (table : SymbolTable) (address : Nat),
    table.count ≤ address → address ≤ MEMORY_SIZE →
    (∀ s ∈ table.symbols, 0 ≤ s.address ∧ s.address < MEMORY_SIZE) →
    (firstPassLoop table address ls).2.count ≤ MEMORY_SIZE ∧
    (∀ s ∈ (firstPassLoop table address ls).2.symbols,
      0 ≤ s.address ∧ s.address < MEMORY_SIZE) ∧
    ((firstPassLoop table address ls).1 < 0 →
      (firstPassLoop table address ls).2.count < MAX_SYMBOLS ∧
      ∃ raw ∈ ls, ∃ name, skipped (cstr raw) = false ∧ labelOf (cstr raw) = some name ∧
        ∃ s ∈ (firstPassLoop table address ls).2.symbols, s.name = name) := by
  induction ls with
  | nil =>
    intro table address hc ha hs
    rw [firstPassLoop]
    exact ⟨show table.count ≤ MEMORY_SIZE by omega, hs,
      fun h => absurd (show (0 : Int) < 0 from h) (by decide)⟩
  | cons raw rest ih =>
    intro table address hc ha hs
    have hmem : ∀ {P : List Char → Prop}, (∃ r ∈ rest, P r) → ∃ r ∈ raw :: rest, P r :=
      fun ⟨r, hr, hp⟩ => ⟨r, List.mem_cons_of_mem _ hr, hp⟩
    by_cases hlt : address < MEMORY_SIZE
    · rw [firstPassLoop_cons table address raw rest hlt]
      by_cases hsk : skipped (cstr raw) = true
      · rw [if_pos hsk]
        obtain ⟨h1, h2, h3⟩ := ih table address hc ha hs
        exact ⟨h1, h2, fun h => ⟨(h3 h).1, hmem (h3 h).2⟩⟩
      · rw [if_neg hsk]
        cases hlab : labelOf (cstr raw) with
        | none =>
          simp only
          obtain ⟨h1, h2, h3⟩ := ih table (address + 1) (by omega) (by omega) hs
          exact ⟨h1, h2, fun h => ⟨(h3 h).1, hmem (h3 h).2⟩⟩
        | some start =>
          simp only
          rcases addSymbol_cases table start address with ⟨e1, e2, e3⟩ | ⟨e1, e2, e3, e4⟩
          · rw [if_pos (by rw [e1]; decide)]
            refine ⟨by simp only; omega, hs, fun _ => ⟨?_, raw, List.mem_cons_self _ _, start,
              by simpa using hsk, hlab, ?_⟩⟩
            · simp only [MEMORY_SIZE, MAX_SYMBOLS] at *; omega
            · rcases e3 with e3 | e3
              · simp only [MEMORY_SIZE, MAX_SYMBOLS] at *; omega
              · exact e3
          · rw [if_neg (by rw [e1]; decide), e2]
            obtain ⟨h1, h2, h3⟩ := ih ⟨table.symbols ++ [⟨start, address⟩]⟩ (address + 1)
              (by simp only [SymbolTable.count, List.length_append, List.length_singleton] at hc ⊢
                  omega)
              (by omega)
              (by
                intro s hs2
                simp only [List.mem_append, List.mem_singleton] at hs2
                rcases hs2 with h | h
                · exact hs s h
                · rw [h]; simp only; omega)
            exact ⟨h1, h2, fun h => ⟨(h3 h).1, hmem (h3 h).2⟩⟩
    · rw [firstPassLoop, if_neg hlt]
      exact ⟨show table.count ≤ MEMORY_SIZE by omega, hs,
        fun h => absurd (show (0 : Int) < 0 from h) (by decide)⟩

/-- Every symbol in the table after the loop of `firstPass` was there before or is the
label of a line that is not skipped, bound to the address of that line, which is
below `MEMORY_SIZE`. -/
theorem firstPassLoop_names (ls : List (List Char)) : ∀ (table : SymbolTable) (address : Nat),
    ∀ s ∈ (firstPassLoop table address ls).2.symbols,
      s ∈ table.symbols ∨
      ∃ (j : Nat) (raw : List Char), ls[j]? = some raw ∧ skipped (cstr raw) = false ∧
        labelOf (cstr raw) = some s.name ∧
        address + (ls.take j).countP (fun l => !skipped (cstr l)) < MEMORY_SIZE ∧
        s.address = ((address + (ls.take j).countP (fun l => !skipped (cstr l)) : Nat) : Int) := by
  induction ls with
  | nil =>
    intro table address s hs
    rw [firstPassLoop] at hs
    exact Or.inl hs
  | cons raw rest ih =>
    intro table address s hs
    by_cases hlt : address < MEMORY_SIZE
    · rw [firstPassLoop_cons table address raw rest hlt] at hs
      by_cases hsk : skipped (cstr raw) = true
      · rw [if_pos hsk] at hs
        rcases ih table address s hs with h | ⟨j, r, h1, h2, h3, h4, h5⟩
        · exact Or.inl h
        · refine Or.inr ⟨j + 1, r, by simpa using h1, h2, h3, ?_, ?_⟩
          · simpa [List.take_succ_cons, List.countP_cons, hsk] using h4
          · simpa [List.take_succ_cons, List.countP_cons, hsk] using h5
      · rw [if_neg hsk] at hs
        have hsk2 : skipped (cstr raw) = false := by simpa using hsk
        have hshift : ∀ j, address + ((raw :: rest).take (j + 1)).countP
            (fun l => !skipped (cstr l)) =
            address + 1 + (rest.take j).countP (fun l => !skipped (cstr l)) := by
          intro j
          simp only [List.take_succ_cons, List.countP_cons, hsk2, Bool.not_false, if_true]
          omega
        cases hlab : labelOf (cstr raw) with
        | none =>
          rw [hlab] at hs
          simp only at hs
          rcases ih table (address + 1) s hs with h | ⟨j, r, h1, h2, h3, h4, h5⟩
          · exact Or.inl h
          · refine Or.inr ⟨j + 1, r, by simpa using h1, h2, h3, ?_, ?_⟩
            · rw [hshift]; exact h4
            · rw [hshift]; exact h5
        | some start =>
          rw [hlab] at hs
          simp only at hs
          rcases addSymbol_cases table start address with ⟨e1, e2, e3⟩ | ⟨e1, e2, e3, e4⟩
          · rw [if_pos (by rw [e1]; decide)] at hs
            exact Or.inl hs
          · rw [if_neg (by rw [e1]; decide), e2] at hs
            rcases ih _ (address + 1) s hs with h | ⟨j, r, h1, h2, h3, h4, h5⟩
            · simp only [List.mem_append, List.mem_singleton] at h
              rcases h with h | h
              · exact Or.inl h
              · refine Or.inr ⟨0, raw, by simp, hsk2, ?_, ?_, ?_⟩
                · rw [h]; exact hlab
                · simpa using hlt
                · rw [h]; simp
            · refine Or.inr ⟨j + 1, r, by simpa using h1, h2, h3, ?_, ?_⟩
              · rw [hshift]; exact h4
              · rw [hshift]; exact h5
    · rw [firstPassLoop, if_neg hlt] at hs
      exact Or.inl hs

/-- The word that `parseInstruction` builds for `MNEMONIC L` when `L`, which does not
start with a digit, is not in the table: 0. -/
theorem parseInstruction_undefined (mn : List Char) (code : Nat) (L tail : List Char)
    (table : SymbolTable) (hp : (mn, code) ∈ opcodeTable) (hstp : mn ≠ ['S', 'T', 'P'])
    (hL : L ≠ [] ∧ (∀ c ∈ L.head?, isspace c = false) ∧ (∀ c ∈ L, c ≠ ':' ∧ c ≠ ';') ∧
      trimEnd L = L)
    (hdig : ∀ c ∈ L.head?, isdigit c = false) (hfind : findSymbol table L = -1)
    (htail : ∀ c ∈ tail, isspace c = true) :
    parseInstruction (mn ++ ' ' :: (L ++ tail)) table = 0 := by
  obtain ⟨h1, h2, h3, _, h5, _⟩ := opcodeTable_facts (mn, code) hp
  simp only at h1 h2 h3 h5
  have htok := tokenize_mnemonic_operand mn L tail h1 h2 hL.2.1 hL.1 hL.2.2.1 hL.2.2.2 htail
  have hres : resolveOperand (some L) table = none := by
    unfold resolveOperand
    simp only
    have hd : (L.head?.map isdigit).getD false = false := by
      cases hh : L.head? with
      | none => rfl
      | some c => simp [hdig c (by rw [hh]; rfl)]
    rw [hd, hfind]
    simp
  unfold parseInstruction
  rw [htok]
  simp only
  unfold encode
  rw [if_neg h3, if_neg hstp, h5 hstp]
  simp only
  rw [hres]

/-! ## The branches of `execute` -/

/-- The function `execute` is the second component of its branch-by-branch form. -/
theorem execute_eq_executeBranch (c : BabyComputer) (opcode operand : Int) :
    execute c opcode operand = (executeBranch c opcode operand).2 := by
  by_cases hCI : c.CI = 0
  · unfold execute executeBranch
    rw [if_pos hCI, if_pos hCI]
  by_cases h0 : opcode = 0b0000
  · subst h0
    unfold execute executeBranch
    simp [hCI]
  by_cases h1 : opcode = 0b1000
  · subst h1
    unfold execute executeBranch
    simp [hCI]
  by_cases h2 : opcode = 0b0100
  · subst h2
    unfold execute executeBranch
    rcases hv : get_value_from_address c operand with _ | v <;>
      simp [hCI, hv, alu]
  by_cases h3 : opcode = 0b1100
  · subst h3
    unfold execute executeBranch
    rcases hs : store_value_to_address c operand c.accumulator with _ | c1 <;>
      simp [hCI, hs]
  by_cases h4 : opcode = 0b0010
  · subst h4
    unfold execute executeBranch
    rcases hv : get_value_from_address c operand with _ | v <;>
      simp [hCI, hv, alu]
  by_cases h5 : opcode = 0b1010
  · subst h5
    unfold execute executeBranch
    rcases hv : get_value_from_address c operand with _ | v <;>
      simp [hCI, hv, alu]
  by_cases h6 : opcode = 0b0110
  · subst h6
    unfold execute executeBranch
    rcases hv : get_value_from_address c operand with _ | v <;>
      simp [hCI, hv, alu]
  by_cases h7 : opcode = 0b1110
  · subst h7
    unfold execute executeBranch
    simp [hCI]
  by_cases h8 : opcode = 0b0001
  · subst h8
    unfold execute executeBranch
    rcases hv : get_value_from_address c operand with _ | v <;>
      simp [hCI, hv, alu]
  by_cases h9 : opcode = 0b1001
  · subst h9
    unfold execute executeBranch
    rcases hv : get_value_from_address c operand with _ | v <;>
      simp [hCI, hv, alu]
  by_cases h10 : opcode = 0b0101
  · subst h10
    unfold execute executeBranch
    rcases hv : get_value_from_address c operand with _ | v
    · simp [hCI, hv]
    · simp [hCI, hv, alu]
      split_ifs <;> rfl
  by_cases h11 : opcode = 0b1101
  · subst h11
    unfold execute executeBranch
    rcases hv : get_value_from_address c operand with _ | v <;>
      simp [hCI, hv, alu]
  by_cases h12 : opcode = 0b0011
  · subst h12
    unfold execute executeBranch
    rcases hv : get_value_from_address c operand with _ | v <;>
      simp [hCI, hv, alu]
  by_cases h13 : opcode = 0b1011
  · subst h13
    unfold execute executeBranch
    rcases hv : get_value_from_address c operand with _ | v <;>
      simp [hCI, hv, alu]
  by_cases h14 : opcode = 0b0111
  · subst h14
    unfold execute executeBranch
    rcases hv : get_value_from_address c operand with _ | v
    · simp [hCI, hv]
    · simp [hCI, hv, alu]
      split_ifs <;> rfl
  by_cases h15 : opcode = 0b1111
  · subst h15
    unfold execute executeBranch
    rcases hv : get_value_from_address c operand with _ | v
    · simp [hCI, hv]
    · simp [hCI, hv, alu]
      split_ifs <;> rfl
  unfold execute executeBranch
  simp [hCI, h0, h1, h2, h3, h4, h5, h6, h7, h8, h9, h10, h11, h12, h13, h14, h15]

/-- The branch that `execute` takes: the early return at address 0, otherwise the
`case` whose label is the opcode when there is one, otherwise `default`. -/
theorem executeBranch_fst (s : BabyComputer) (opcode operand : Int) :
    (executeBranch s opcode operand).1 =
      if s.CI = 0 then Branch.skip
      else if opcode ∈ executeCases then Branch.case opcode else Branch.default := by
  by_cases hCI : s.CI = 0
  · unfold executeBranch
    rw [if_pos hCI, if_pos hCI]
  by_cases h0 : opcode = 0b0000
  · subst h0
    simp [executeBranch, executeCases, hCI]
  by_cases h1 : opcode = 0b1000
  · subst h1
    simp [executeBranch, executeCases, hCI]
  by_cases h2 : opcode = 0b0100
  · subst h2
    simp [executeBranch, executeCases, hCI]
  by_cases h3 : opcode = 0b1100
  · subst h3
    simp [executeBranch, executeCases, hCI]
  by_cases h4 : opcode = 0b0010
  · subst h4
    simp [executeBranch, executeCases, hCI]
  by_cases h5 : opcode = 0b1010
  · subst h5
    simp [executeBranch, executeCases, hCI]
  by_cases h6 : opcode = 0b0110
  · subst h6
    simp [executeBranch, executeCases, hCI]
  by_cases h7 : opcode = 0b1110
  · subst h7
    simp [executeBranch, executeCases, hCI]
  by_cases h8 : opcode = 0b0001
  · subst h8
    simp [executeBranch, executeCases, hCI]
  by_cases h9 : opcode = 0b1001
  · subst h9
    simp [executeBranch, executeCases, hCI]
  by_cases h10 : opcode = 0b0101
  · subst h10
    simp [executeBranch, executeCases, hCI]
  by_cases h11 : opcode = 0b1101
  · subst h11
    simp [executeBranch, executeCases, hCI]
  by_cases h12 : opcode = 0b0011
  · subst h12
    simp [executeBranch, executeCases, hCI]
  by_cases h13 : opcode = 0b1011
  · subst h13
    simp [executeBranch, executeCases, hCI]
  by_cases h14 : opcode = 0b0111
  · subst h14
    simp [executeBranch, executeCases, hCI]
  by_cases h15 : opcode = 0b1111
  · subst h15
    simp [executeBranch, executeCases, hCI]
  simp [executeBranch, executeCases, hCI, h0, h1, h2, h3, h4, h5, h6, h7, h8, h9, h10, h11, h12, h13, h14, h15]

/-! ## C1: encode / decode round trip -/

/-- C1 (as amended): for every row `(mn, code)` of the opcode table and every operand
`n` in `[0, 8191]`, the line `mn n` (with or without its newline) encoded by
`parseInstruction`, printed as pass 2 prints it, loaded into the current memory word
and decoded, gives the code of `mn` together with `n` for the fifteen mnemonics
other than `STP`, and together with `0` for `STP`. -/
theorem roundtrip_encode_decode (mn : List Char) (code n : Nat) (tail : List Char)
    (table : SymbolTable) (computer : BabyComputer)
    (hp : (mn, code) ∈ opcodeTable) (hn : n ≤ 8191)
    (htail : tail = [] ∨ tail = ['\n']) (hCI : 0 ≤ computer.CI)
    (hw : computer.store[computer.CI.toNat]? =
      some (loadLine (wordChars (parseInstruction (mn ++ ' ' :: (decimal n ++ tail)) table)))) :
    decode computer =
      some ((code : Int), if mn = ['S', 'T', 'P'] then 0 else (n : Int)) := by
  have hsp : ∀ c ∈ tail, isspace c = true := by
    rcases htail with h | h <;> subst h <;> decide
  rw [parseInstruction_numeric mn code n tail table hp hsp] at hw
  have hc : code < 16 := (opcodeTable_facts (mn, code) hp).2.2.2.1
  by_cases hstp : mn = ['S', 'T', 'P']
  · rw [if_pos hstp] at hw
    rw [if_pos hstp]
    exact decode_encoded computer 0 code hc (by decide) hCI hw
  · rw [if_neg hstp, Nat.mod_eq_of_lt (by omega)] at hw
    rw [if_neg hstp]
    exact decode_encoded computer n code hc (by omega) hCI hw

/-- Instance of `roundtrip_encode_decode`: the line `LDN 5` decodes to `(0100, 5)`. -/
theorem roundtrip_encode_decode_witness :
    (['L', 'D', 'N'], 0b0100) ∈ opcodeTable ∧ 5 ≤ 8191 ∧
    decode { initialize_computer 1 with
      store := [loadLine (wordChars (parseInstruction "LDN 5\n".toList initAssembler))] } =
      some (0b0100, 5) :=
  ⟨by decide, by decide,
    roundtrip_encode_decode ['L', 'D', 'N'] 0b0100 5 ['\n'] initAssembler
      { initialize_computer 1 with
        store := [loadLine (wordChars (parseInstruction "LDN 5\n".toList initAssembler))] }
      (by decide) (by decide) (Or.inr rfl) (by decide) (by decide)⟩

/-- C1 fails as stated: `STP` is a row of the opcode table and `5` lies in `[0, 8191]`,
but the line `STP 5` decodes to `(1110, 0)`, not to `(1110, 5)`. -/
theorem roundtrip_fails_for_STP :
    (['S', 'T', 'P'], 0b1110) ∈ opcodeTable ∧ 5 ≤ 8191 ∧
    decode { initialize_computer 1 with
      store := [loadLine (wordChars (parseInstruction "STP 5".toList initAssembler))] } =
      some (0b1110, 0) ∧
    decode { initialize_computer 1 with
      store := [loadLine (wordChars (parseInstruction "STP 5".toList initAssembler))] } ≠
      some (0b1110, 5) := by
  decide

/-! ## C2: layout of an instruction word -/

theorem tokenize_STP (rest : List Char)
    (hhead : ∀ c ∈ rest.head?, c = ' ' ∨ c = '\t' ∨ c = '\n') (hcolon : ':' ∉ rest) :
    ∃ operand, tokenize (['S', 'T', 'P'] ++ rest) = some (['S', 'T', 'P'], operand) := by
  have hs : strchr ('S' :: 'T' :: 'P' :: rest) ':' = none := by
    unfold strchr
    rw [if_neg]
    simp only [List.mem_cons, not_or]
    exact ⟨by decide, by decide, by decide, hcolon⟩
  have htw : List.takeWhile (fun x => !decide (x ∈ [' ', '\t', '\n'])) rest = [] := by
    cases rest with
    | nil => rfl
    | cons r rs =>
      have := hhead r (by simp)
      rw [List.takeWhile_cons]
      have hd : decide (r ∈ [' ', '\t', '\n']) = true := by
        simp only [List.mem_cons, List.mem_singleton, List.not_mem_nil, or_false,
          decide_eq_true_eq]
        exact this
      rw [hd]; rfl
  have hdw : List.dropWhile (fun x => !decide (x ∈ [' ', '\t', '\n'])) rest = rest := by
    cases rest with
    | nil => rfl
    | cons r rs =>
      have := hhead r (by simp)
      rw [List.dropWhile_cons]
      have hd : decide (r ∈ [' ', '\t', '\n']) = true := by
        simp only [List.mem_cons, List.mem_singleton, List.not_mem_nil, or_false,
          decide_eq_true_eq]
        exact this
      rw [hd]; rfl
  have e1 : ∀ ch : Char, decide (ch ∈ [' ', '\t', '\n']) = false →
      ∀ l, List.takeWhile (fun x => !decide (x ∈ [' ', '\t', '\n'])) (ch :: l) =
        ch :: List.takeWhile (fun x => !decide (x ∈ [' ', '\t', '\n'])) l := by
    intro ch hch l
    rw [List.takeWhile_cons, hch]; rfl
  have e2 : ∀ ch : Char, decide (ch ∈ [' ', '\t', '\n']) = false →
      ∀ l, List.dropWhile (fun x => !decide (x ∈ [' ', '\t', '\n'])) (ch :: l) =
        List.dropWhile (fun x => !decide (x ∈ [' ', '\t', '\n'])) l := by
    intro ch hch l
    rw [List.dropWhile_cons, hch]; rfl
  have htk : strtok ('S' :: 'T' :: 'P' :: rest) [' ', '\t', '\n'] =
      some (['S', 'T', 'P'], rest.drop 1) := by
    unfold strtok
    have h0 : List.dropWhile (fun x => decide (x ∈ [' ', '\t', '\n']))
        ('S' :: 'T' :: 'P' :: rest) = 'S' :: 'T' :: 'P' :: rest := by
      rw [List.dropWhile_cons]
      have : decide ('S' ∈ [' ', '\t', '\n']) = false := by decide
      rw [this]; rfl
    rw [h0]
    simp only
    rw [e1 'S' (by decide), e1 'T' (by decide), e1 'P' (by decide), htw,
      e2 'S' (by decide), e2 'T' (by decide), e2 'P' (by decide), hdw]
  refine ⟨(strtok (rest.drop 1) [';']).map (fun p => trimEnd (p.1.dropWhile isspace)), ?_⟩
  unfold tokenize
  have hd : List.dropWhile isspace (['S', 'T', 'P'] ++ rest) = 'S' :: 'T' :: 'P' :: rest := by
    show List.dropWhile isspace ('S' :: 'T' :: 'P' :: rest) = _
    rw [List.dropWhile_cons]
    have : isspace 'S' = false := by decide
    rw [this]; rfl
  rw [hd]
  simp only
  rw [if_neg (by decide), hs]
  simp only
  rw [htk]

theorem STP_word : 0 ||| (0b1110 <<< (32 - 17)) = 458752 := by decide

/-- C2: layout of the 32 characters printed for an instruction.  For every row
`(mn, code)` of the opcode table other than `STP` and every operand `n` in the
`int` range, the line printed for `mn n` has 32 characters, character `i`
(`i ≤ 12`) is bit `i` of `n mod 8192`, characters 13 to 16 are the four bits of
`code`, most significant at 13, and characters 17 to 31 are `0`.  For `STP`,
whatever text follows the mnemonic (any text without `:`), the printed word is the
fixed pattern with only characters 13, 14 and 15 set. -/
theorem instruction_word_layout :
    (∀ (mn : List Char) (code n : Nat) (tail : List Char) (table : SymbolTable),
      (mn, code) ∈ opcodeTable → mn ≠ ['S', 'T', 'P'] → n < 2147483648 →
      (tail = [] ∨ tail = ['\n']) →
      (wordChars (parseInstruction (mn ++ ' ' :: (decimal n ++ tail)) table)).length = 32 ∧
      (∀ i, i ≤ 12 →
        (wordChars (parseInstruction (mn ++ ' ' :: (decimal n ++ tail)) table))[i]? =
          some (if (n % 8192).testBit i then '1' else '0')) ∧
      (∀ k, k < 4 →
        (wordChars (parseInstruction (mn ++ ' ' :: (decimal n ++ tail)) table))[13 + k]? =
          some (if code.testBit (3 - k) then '1' else '0')) ∧
      (∀ i, 17 ≤ i → i ≤ 31 →
        (wordChars (parseInstruction (mn ++ ' ' :: (decimal n ++ tail)) table))[i]? =
          some '0')) ∧
    (∀ (rest : List Char) (table : SymbolTable),
      (∀ c ∈ rest.head?, c = ' ' ∨ c = '\t' ∨ c = '\n') → ':' ∉ rest →
      wordChars (parseInstruction (['S', 'T', 'P'] ++ rest) table) =
        "00000000000001110000000000000000".toList) := by
  constructor
  · intro mn code n tail table hp hstp hn htail
    have hsp : ∀ c ∈ tail, isspace c = true := by
      rcases htail with h | h <;> subst h <;> decide
    rw [parseInstruction_numeric mn code n tail table hp hsp, if_neg hstp,
      Nat.mod_eq_of_lt (by omega)]
    have hc : code < 16 := (opcodeTable_facts (mn, code) hp).2.2.2.1
    refine ⟨wordChars_length _, ?_, ?_, ?_⟩
    · intro i hi
      rw [getElem?_wordChars _ i (by omega), testBit_encoded n code _ hc,
        if_pos (show 19 ≤ 31 - i by omega)]
      have e : 31 - (31 - i) = i := by omega
      have e2 : (8192 : Nat) = 2 ^ 13 := rfl
      rw [e, e2, Nat.testBit_mod_two_pow]
      have : decide (31 - i ≤ 31) = true := by simp
      have h13 : decide (i < 13) = true := by simp; omega
      rw [this, h13]
    · intro k hk
      rw [getElem?_wordChars _ (13 + k) (by omega), testBit_encoded n code _ hc,
        if_neg (show ¬ 19 ≤ 31 - (13 + k) by omega),
        if_pos (show 15 ≤ 31 - (13 + k) by omega)]
      have e : 31 - (13 + k) - 15 = 3 - k := by omega
      rw [e]
    · intro i h17 h31
      rw [getElem?_wordChars _ i (by omega), testBit_encoded n code _ hc,
        if_neg (show ¬ 19 ≤ 31 - i by omega), if_neg (show ¬ 15 ≤ 31 - i by omega)]
      rfl
  · intro rest table hhead hcolon
    obtain ⟨operand, htok⟩ := tokenize_STP rest hhead hcolon
    unfold parseInstruction
    rw [htok]
    simp only
    unfold encode
    rw [if_neg (by decide), if_pos rfl, STP_word]
    decide

/-- Instance of `instruction_word_layout`: the lines printed for `SUB 8195`
(operand field 3, code 0010) and for `STP 7`. -/
theorem instruction_word_layout_witness :
    wordChars (parseInstruction "SUB 8195\n".toList initAssembler) =
      "11000000000000010000000000000000".toList ∧
    ((wordChars (parseInstruction (['S', 'U', 'B'] ++ ' ' :: (decimal 8195 ++ ['\n']))
        initAssembler))[1]? = some (if (8195 % 8192).testBit 1 then '1' else '0')) ∧
    wordChars (parseInstruction (['S', 'T', 'P'] ++ " 7\n".toList) initAssembler) =
      "00000000000001110000000000000000".toList :=
  ⟨by decide,
   (instruction_word_layout.1 ['S', 'U', 'B'] 0b0010 8195 ['\n'] initAssembler
      (by decide) (by decide) (by decide) (Or.inr rfl)).2.1 1 (by decide),
   instruction_word_layout.2 " 7\n".toList initAssembler (by decide) (by decide)⟩

/-! ## C3: `VAR` literals -/

theorem atoi_decimalInt (v : Int) (h1 : -2147483648 ≤ v) (h2 : v < 2147483648) :
    atoi (decimalInt v) = v := by
  unfold decimalInt
  by_cases hv : v < 0
  · rw [if_pos hv]
    have h0 := (decimal_spec v.natAbs).2.2 []
    rw [List.append_nil] at h0
    have : atoi ('-' :: decimal v.natAbs) = wrap32 (-(atoiDigits 0 (decimal v.natAbs) : Int)) := by
      unfold atoi
      rw [List.dropWhile_cons]
      have : isspace '-' = false := by decide
      rw [this]
      simp only [Bool.false_eq_true, if_false]
    rw [this, h0]
    have e : atoiDigits v.natAbs [] = v.natAbs := rfl
    rw [e]
    have e2 : -(v.natAbs : Int) = v := by omega
    rw [e2]
    exact toI32_toU32 v h1 h2
  · rw [if_neg hv, atoi_decimal]
    have e2 : (v.natAbs : Int) = v := by omega
    rw [e2]
    exact toI32_toU32 v h1 h2

theorem decimalInt_props (v : Int) :
    decimalInt v ≠ [] ∧ ∀ c ∈ decimalInt v, isspace c = false ∧ c ≠ ':' ∧ c ≠ ';' := by
  obtain ⟨hne, hd, _⟩ := decimal_spec v.natAbs
  have hdig : ∀ c ∈ decimal v.natAbs, isspace c = false ∧ c ≠ ':' ∧ c ≠ ';' :=
    fun c hc => ⟨(isdigit_props (hd c hc)).1, (isdigit_props (hd c hc)).2.1,
      (isdigit_props (hd c hc)).2.2.1⟩
  unfold decimalInt
  split
  · refine ⟨by simp, ?_⟩
    intro c hc
    rcases List.mem_cons.mp hc with h | h
    · subst h; decide
    · exact hdig c h
  · exact ⟨hne, hdig⟩

/-- The word that `parseInstruction` builds for `VAR v`. -/
theorem parseInstruction_VAR (v : Int) (tail : List Char) (table : SymbolTable)
    (h1 : -2147483648 ≤ v) (h2 : v < 2147483648) (htail : ∀ c ∈ tail, isspace c = true) :
    parseInstruction (['V', 'A', 'R'] ++ ' ' :: (decimalInt v ++ tail)) table =
      placeBits 32 (toU32 v) 0 := by
  obtain ⟨hne, hp⟩ := decimalInt_props v
  have htok : tokenize (['V', 'A', 'R'] ++ ' ' :: (decimalInt v ++ tail)) =
      some (['V', 'A', 'R'], some (decimalInt v)) := by
    apply tokenize_mnemonic_operand _ (decimalInt v) tail (by simp) (by decide) _ hne _ _ htail
    · intro c hc
      obtain ⟨d, ds, he⟩ := List.exists_cons_of_ne_nil hne
      rw [he] at hc
      simp only [List.head?_cons, Option.mem_def, Option.some.injEq] at hc
      rw [← hc]
      exact (hp d (by rw [he]; exact List.mem_cons_self _ _)).1
    · exact fun c hc => (hp c hc).2
    · exact trimEnd_of_no_space _ (fun c hc => (hp c hc).1)
  unfold parseInstruction
  rw [htok]
  simp only
  unfold encode
  rw [if_pos rfl]
  simp only
  rw [atoi_decimalInt v h1 h2]

/-- Reading a memory word that holds the printed characters of the word `W`. -/
theorem get_value_loaded (computer : BabyComputer) (a : Int) (W u : Nat)
    (hmode : computer.addr_mode ≠ AddressingMode.IMMEDIATE)
    (ha : 0 ≤ a) (ham : a < computer.memory_size)
    (hw : computer.store[a.toNat]? = some (loadLine (wordChars W)))
    (hu : u < 4294967296) (hbits : ∀ j, j < 32 → u.testBit j = W.testBit (31 - j)) :
    get_value_from_address computer a = some (toI32 u) := by
  unfold get_value_from_address
  rw [if_neg hmode, if_neg (by omega), Int.tmod_eq_of_lt ha ham,
    readWord_of_getElem? _ _ _ ha hw (loadLine_length _)]
  simp only [WORD_SIZE]
  rw [loadLine_wordChars]
  obtain ⟨u', hu', he, hb⟩ := orBits_spec
    ((List.range 32).map (fun i => if W.testBit (31 - i) then (1 : Int) else 0)) 32 (by decide)
  rw [he]
  have : u' = u := by
    apply Nat.eq_of_testBit_eq
    intro j
    rw [hb j]
    by_cases hj : j < 32
    · rw [getD_bitCells _ j hj, hbits j hj]
      cases W.testBit (31 - j) <;> simp [hj]
    · have h1 : u.testBit j = false := by
        apply Nat.testBit_lt_two_pow
        calc u < 2 ^ 32 := hu
          _ ≤ 2 ^ j := Nat.pow_le_pow_right (by decide) (by omega)
      simp [hj, h1]
  rw [this]

/-- C3: for every `v` in the signed 32-bit range, character `i` of the line printed
for `VAR v` is bit `i` of the two's complement form of `v`, and a machine in DIRECT
mode whose memory word `a` holds that line reads `v` back from address `a`. -/
theorem VAR_literal_roundtrip (v : Int) (tail : List Char) (table : SymbolTable)
    (h1 : -2147483648 ≤ v) (h2 : v < 2147483648) (htail : tail = [] ∨ tail = ['\n']) :
    (∀ i, i < 32 →
      (wordChars (parseInstruction (['V', 'A', 'R'] ++ ' ' :: (decimalInt v ++ tail)) table))[i]? =
        some (if (toU32 v).testBit i then '1' else '0')) ∧
    ∀ (computer : BabyComputer) (a : Int),
      computer.addr_mode = AddressingMode.DIRECT → 0 ≤ a → a < computer.memory_size →
      computer.store[a.toNat]? = some (loadLine (wordChars
        (parseInstruction (['V', 'A', 'R'] ++ ' ' :: (decimalInt v ++ tail)) table))) →
      get_value_from_address computer a = some v := by
  have hsp : ∀ c ∈ tail, isspace c = true := by
    rcases htail with h | h <;> subst h <;> decide
  rw [parseInstruction_VAR v tail table h1 h2 hsp]
  have hbit : ∀ j, j < 32 →
      (placeBits 32 (toU32 v) 0).testBit (31 - j) = (toU32 v).testBit j := by
    intro j hj
    rw [testBit_placeBits 32 _ 0 _ (by decide)]
    have e : 31 - (31 - j) = j := by omega
    have d1 : decide (31 - j ≤ 31) = true := by simp
    have d2 : decide (j < 32) = true := by simp [hj]
    rw [e, d1, d2]
    simp
  constructor
  · intro i hi
    rw [getElem?_wordChars _ i hi, hbit i hi]
  · intro computer a hmode ha ham hw
    have := get_value_loaded computer a _ (toU32 v) (by rw [hmode]; decide) ha ham hw
      (toU32_lt v) (fun j hj => (hbit j hj).symm)
    rw [this, toI32_toU32 v h1 h2]

/-- Instance of `VAR_literal_roundtrip`: `VAR -5` is printed as the bits of `-5`,
least significant first, and reads back as `-5`. -/
theorem VAR_literal_roundtrip_witness :
    wordChars (parseInstruction "VAR -5\n".toList initAssembler) =
      "11011111111111111111111111111111".toList ∧
    get_value_from_address
      { initialize_computer 2 with
        store := [List.replicate 32 0,
          loadLine (wordChars (parseInstruction "VAR -5\n".toList initAssembler))] } 1 =
      some (-5) :=
  ⟨by decide,
   (VAR_literal_roundtrip (-5) ['\n'] initAssembler (by decide) (by decide) (Or.inr rfl)).2
      { initialize_computer 2 with
        store := [List.replicate 32 0,
          loadLine (wordChars (parseInstruction "VAR -5\n".toList initAssembler))] } 1
      rfl (by decide) (by decide) (by decide)⟩

/-! ## C4: address assignment -/

/-- C5 (as amended): in a source text that assembles successfully, let the label `L`
be defined on the instruction line with address `k < 64`, and let `L` not begin with
a decimal digit.  Then every line `MNEMONIC L` (any table mnemonic except `STP`),
before or after the defining line, is printed with operand field `k` and the code of
the mnemonic, and output line `k` is the word of the line that defines `L`. -/
theorem label_reference_resolved (file out : List Char) (hsrc : SourceText file)
    (hasm : assemble file = (0, some out))
    (j : Nat) (defLine L : List Char) (hj : (splitLines file)[j]? = some defLine)
    (hsj : skipped defLine = false) (hlab : labelOf defLine = some L)
    (h64 : lineAddress (splitLines file) j < MEMORY_SIZE)
    (hdig : ∀ c ∈ L.head?, isdigit c = false) :
    (∀ (i : Nat) (mn : List Char) (code : Nat) (tail : List Char),
      (mn, code) ∈ opcodeTable → mn ≠ ['S', 'T', 'P'] → (tail = [] ∨ tail = ['\n']) →
      (splitLines file)[i]? = some (mn ++ ' ' :: (L ++ tail)) →
      (splitLines out)[lineAddress (splitLines file) i]? =
        some (wordChars (placeBits 13 (lineAddress (splitLines file) j) 0 |||
          (code <<< (32 - 17))) ++ ['\n'])) ∧
    (splitLines out)[lineAddress (splitLines file) j]? =
      some (wordChars (parseInstruction defLine (firstPass file).2) ++ ['\n']) := by
  have hc : ∀ l ∈ splitLines file, cstr l = l :=
    fun l hl => cstr_of_mem_splitLines file l hsrc.1 hl
  have hok : (firstPass file).1 = 0 := firstPass_ok_of_assemble file (by rw [hasm])
  have heq : firstPassLoop initAssembler 0 (splitLines file) = (0, (firstPass file).2) := by
    rw [← firstPass_eq file hsrc, ← hok]
  have hcl : cstr defLine = defLine := hc defLine (List.getElem?_mem hj)
  have hfind : findSymbol (firstPass file).2 L = (lineAddress (splitLines file) j : Int) := by
    have := (firstPassLoop_bindings (splitLines file) initAssembler _ 0 heq).2 j defLine L hj
      (by rw [hcl]; exact hsj) (by rw [hcl]; exact hlab)
      (by rw [countP_cstr_take _ hc]; omega)
    rw [this, countP_cstr_take _ hc]
    simp
  have hlines := assemble_output_lines file out hsrc hasm
  have hidx : ∀ (i : Nat) (line : List Char), (splitLines file)[i]? = some line →
      skipped line = false →
      (splitLines out)[lineAddress (splitLines file) i]? =
        some (wordChars (parseInstruction line (firstPass file).2) ++ ['\n']) := by
    intro i line hi hs
    rw [hlines, List.getElem?_map]
    unfold lineAddress
    rw [getElem?_filter_countP (fun l => !skipped l) (splitLines file) i line hi (by simp [hs])]
    rfl
  constructor
  · intro i mn code tail hp hstp htail hi
    have hsp : ∀ c ∈ tail, isspace c = true := by
      rcases htail with h | h <;> subst h <;> decide
    rw [hidx i _ hi (not_skipped_mnemonic mn code _ hp),
      parseInstruction_label mn code L tail _ (lineAddress (splitLines file) j) hp hstp
        (labelOf_props defLine L hlab) hdig hfind
        (by simp only [MEMORY_SIZE] at h64; omega) hsp]
  · exact hidx j defLine hj hsj

/-- Instance of `label_reference_resolved`: `JMP END` before the definition of `END`
and `JRP END` after it are both printed with operand field 1. -/
theorem label_reference_resolved_witness :
    SourceText "JMP END\nEND: STP\nJRP END\n".toList ∧
    assemble "JMP END\nEND: STP\nJRP END\n".toList =
      (0, some ("10000000000000000000000000000000\n" ++
        "00000000000001110000000000000000\n" ++
        "10000000000001000000000000000000\n").toList) ∧
    (splitLines ("10000000000000000000000000000000\n" ++
        "00000000000001110000000000000000\n" ++
        "10000000000001000000000000000000\n").toList)[2]? =
      some (wordChars (placeBits 13 1 0 ||| (0b1000 <<< (32 - 17))) ++ ['\n']) :=
  ⟨by decide, by decide,
   (label_reference_resolved "JMP END\nEND: STP\nJRP END\n".toList _ (by decide) (by decide)
      1 "END: STP\n".toList "END".toList (by decide) (by decide) (by decide) (by decide)
      (by decide)).1 2 ['J', 'R', 'P'] 0b1000 ['\n'] (by decide) (by decide) (Or.inr rfl)
      (by decide)⟩

/-- C5 fails as stated: the label `7x` is defined on the instruction line with
address 1, but the line `JMP 7x` is printed with operand field 7 (the operand starts
with a digit and is read by `atoi`), not with operand field 1. -/
theorem label_reference_fails_for_digit_label :
    SourceText "JMP 7x\n7x: STP\n".toList ∧
    labelOf "7x: STP\n".toList = some "7x".toList ∧
    lineAddress (splitLines "JMP 7x\n7x: STP\n".toList) 1 = 1 ∧
    findSymbol (firstPass "JMP 7x\n7x: STP\n".toList).2 "7x".toList = 1 ∧
    assemble "JMP 7x\n7x: STP\n".toList =
      (0, some ("11100000000000000000000000000000\n" ++
        "00000000000001110000000000000000\n").toList) ∧
    (splitLines ("11100000000000000000000000000000\n" ++
        "00000000000001110000000000000000\n").toList)[0]? =
      some (wordChars (placeBits 13 7 0 ||| (0b0000 <<< (32 - 17))) ++ ['\n']) ∧
    (splitLines ("11100000000000000000000000000000\n" ++
        "00000000000001110000000000000000\n").toList)[0]? ≠
      some (wordChars (placeBits 13 1 0 ||| (0b0000 <<< (32 - 17))) ++ ['\n']) := by
  decide

/-! ## C6: duplicate labels -/

/-- C6: when two instruction lines of a source text define the same label and the
second of them has an address below `MEMORY_SIZE` (64), `firstPass` fails at it and
`assemble` returns `-1` without opening the output file. -/
theorem duplicate_label_rejected (file : List Char) (hsrc : SourceText file)
    (i j : Nat) (li lj name : List Char) (hij : i < j)
    (hi : (splitLines file)[i]? = some li) (hsi : skipped li = false)
    (hli : labelOf li = some name)
    (hj : (splitLines file)[j]? = some lj) (hsj : skipped lj = false)
    (hlj : labelOf lj = some name)
    (h64 : lineAddress (splitLines file) j < MEMORY_SIZE) :
    (firstPass file).1 = -1 ∧ assemble file = (-1, none) := by
  have hc : ∀ l ∈ splitLines file, cstr l = l :=
    fun l hl => cstr_of_mem_splitLines file l hsrc.1 hl
  have hci : cstr li = li := hc li (List.getElem?_mem hi)
  have hcj : cstr lj = lj := hc lj (List.getElem?_mem hj)
  have hfail : (firstPass file).1 = -1 := by
    rw [firstPass_eq file hsrc]
    exact firstPassLoop_fails_of_duplicate (splitLines file) initAssembler 0 i j li lj name hij
      hi (by rw [hci]; exact hsi) (by rw [hci]; exact hli)
      hj (by rw [hcj]; exact hsj) (by rw [hcj]; exact hlj)
      (by rw [countP_cstr_take _ hc]; omega)
  refine ⟨hfail, ?_⟩
  unfold assemble
  rw [hfail]
  rfl

/-- Instance of `duplicate_label_rejected`: a source that defines `L` twice. -/
theorem duplicate_label_rejected_witness :
    SourceText "L: LDN 2\nADD 3\nL: STP\n".toList ∧
    labelOf "L: LDN 2\n".toList = some ['L'] ∧ labelOf "L: STP\n".toList = some ['L'] ∧
    assemble "L: LDN 2\nADD 3\nL: STP\n".toList = (-1, none) :=
  ⟨by decide, by decide, by decide,
   (duplicate_label_rejected "L: LDN 2\nADD 3\nL: STP\n".toList (by decide) 0 2
      "L: LDN 2\n".toList "L: STP\n".toList ['L'] (by decide) (by decide) (by decide)
      (by decide) (by decide) (by decide) (by decide) (by decide)).2⟩

/-! ## C7: a failed encode -/

/-- C7 (behaviour of the code at the failing inputs): the operand `X` of `LDN X` is
not in the symbol table and `FOO` is not a mnemonic, yet in both cases `assemble`
returns 0 and writes a zero word for the line. -/
theorem failed_encode_reports_success :
    findSymbol (firstPass "LDN X\n".toList).2 ['X'] = -1 ∧
    assemble "LDN X\n".toList = (0, some "00000000000000000000000000000000\n".toList) ∧
    opcodeOf "FOO".toList = none ∧ "FOO".toList ≠ ['V', 'A', 'R'] ∧
    "FOO".toList ≠ ['S', 'T', 'P'] ∧
    assemble "FOO 1\n".toList = (0, some "00000000000000000000000000000000\n".toList) := by
  decide

/-! ## C8: serialisation format -/

/-- C9 (as amended): `load_program` on a text file.  If the file holds no NUL
character and some line of it, wherever it occurs, is not exactly 32 characters
`0`/`1` after removing its newline, the call returns `-1` and the machine is returned
unchanged.  If every line is 32 characters `0`/`1`, the call returns `0` (on a machine
whose memory is allocated as `initialize_computer` allocates it). -/
theorem loader_validation (computer : BabyComputer) (file : List Char) :
    ('\x00' ∉ file → (∃ l ∈ splitLines file, ¬ binaryLine l) →
      load_program computer file = some (-1, computer)) ∧
    ((∀ l ∈ splitLines file, binaryLine l) → WellFormed computer →
      ∃ c', load_program computer file = some (0, c')) := by
  constructor
  · intro hnul hbad
    unfold load_program
    have : (fileLines (WORD_SIZE + 2) file).all validLine = false :=
      readLines_invalid file.length file (Nat.le_refl _) hnul hbad
    rw [this]
    rfl
  · intro hall hwf
    have hnul := no_nul_of_binaryLines file hall
    have hlen : ∀ l ∈ splitLines file, l.length < WORD_SIZE + 2 := by
      intro l hl
      have h1 := splitLines_line_length file l hl
      have h2 := (hall l hl).1
      simp only [WORD_SIZE]
      omega
    have hfl := fileLines_eq_splitLines (WORD_SIZE + 2) file hlen
    have hvalid : (fileLines (WORD_SIZE + 2) file).all validLine = true := by
      rw [hfl, List.all_eq_true]
      intro l hl
      apply validLine_of_binaryLine l _ (hall l hl)
      intro hm
      apply hnul
      rw [← flatten_splitLines file]
      exact List.mem_flatten.mpr ⟨l, hl, hm⟩
    obtain ⟨c', hc', _⟩ := loadLoop_spec (fileLines (WORD_SIZE + 2) file) computer 0 hwf
      (Int.le_refl _)
    refine ⟨c', ?_⟩
    unfold load_program
    rw [if_pos hvalid, hc']
    rfl

/-- Instance of `loader_validation`: a file whose second line has 31 characters is
rejected and leaves the machine as it was; a file of two well-formed lines is loaded. -/
theorem loader_validation_witness :
    load_program (initialize_computer 32)
        ("00000000000001110000000000000000\n" ++
          "0000000000000111000000000000000\n").toList =
      some (-1, initialize_computer 32) ∧
    ∃ c', load_program (initialize_computer 32)
        ("00000000000001110000000000000000\n" ++
          "10100000000000000000000000000000\n").toList = some (0, c') :=
  ⟨(loader_validation (initialize_computer 32) _).1 (by decide)
      ⟨"0000000000000111000000000000000\n".toList, by decide, by decide⟩,
   (loader_validation (initialize_computer 32) _).2 (by decide) (by decide)⟩

set_option maxRecDepth 8000 in
/-- C9 fails as stated: the file made of 32 digits, a NUL character, 32 digits and a
newline is a single line of 65 characters before its newline, one of them not `0` or
`1`; but `fgets` fills its buffer with the first 33 characters, `strcspn` and `strlen`
stop at the NUL, the second call reads the rest, and `load_program` returns 0 and
loads two words. -/
theorem loader_accepts_line_with_NUL :
    splitLines ("10100000000000000000000000000000".toList ++ '\x00' ::
        "00000000000001110000000000000000\n".toList) =
      ["10100000000000000000000000000000".toList ++ '\x00' ::
        "00000000000001110000000000000000\n".toList] ∧
    ¬ binaryLine ("10100000000000000000000000000000".toList ++ '\x00' ::
        "00000000000001110000000000000000\n".toList) ∧
    load_program (initialize_computer 32)
        ("10100000000000000000000000000000".toList ++ '\x00' ::
          "00000000000001110000000000000000\n".toList) =
      some (0, { initialize_computer 32 with
        store := [loadLine "10100000000000000000000000000000".toList,
                  loadLine "00000000000001110000000000000000".toList] ++
                 List.replicate 30 (List.replicate WORD_SIZE 0) }) := by
  decide

/-! ## C10: the first cycle -/

/-- C10: after `initialize_computer` with a positive memory size and a successful
`load_program`, the program counter is 0 and one fetch-decode-execute cycle, whatever
word the file put at address 0, completes with `CI = 1` and leaves the accumulator,
every memory word and the running flag unchanged. -/
theorem first_cycle_skip (m : Int) (hm : 0 < m) (file : List Char) (c : BabyComputer)
    (hload : load_program (initialize_computer m) file = some (0, c)) :
    c.CI = 0 ∧ c.running = 1 ∧
    ∃ c', cycle c = some c' ∧ c'.CI = 1 ∧ c'.accumulator = c.accumulator ∧
      c'.store = c.store ∧ c'.running = c.running := by
  have hwf0 := initialize_computer_wellFormed m (by omega)
  obtain ⟨c1, h1, hwf, hms, _, hci, _, hrun, _⟩ :=
    loadLoop_spec (fileLines (WORD_SIZE + 2) file) (initialize_computer m) 0 hwf0
      (Int.le_refl _)
  have hc : c1 = c := by
    unfold load_program at hload
    split at hload
    · rw [h1] at hload
      exact (Prod.mk.inj (Option.some.inj hload)).2
    · have := (Prod.mk.inj (Option.some.inj hload)).1
      exact absurd this (by decide)
  subst hc
  have hci0 : c1.CI = 0 := hci
  have hm' : 0 < c1.memory_size := by rw [hms]; exact hm
  obtain ⟨pi, hcyc⟩ := cycle_at_zero c1 hwf hm' hci0
  exact ⟨hci0, hrun, _, hcyc, rfl, rfl, rfl, rfl⟩

set_option maxRecDepth 8000 in
/-- Instance of `first_cycle_skip`: a two-word machine loaded with a program whose
word at address 0 is `STP`; the first cycle moves to address 1 and the machine keeps
running. -/
theorem first_cycle_skip_witness :
    load_program (initialize_computer 2)
        ("00000000000001110000000000000000\n" ++
          "10100000000000000000000000000000\n").toList =
      some (0, { initialize_computer 2 with
        store := [loadLine "00000000000001110000000000000000".toList,
          loadLine "10100000000000000000000000000000".toList] }) ∧
    cycle { initialize_computer 2 with
        store := [loadLine "00000000000001110000000000000000".toList,
          loadLine "10100000000000000000000000000000".toList] } =
      some { initialize_computer 2 with
        store := [loadLine "00000000000001110000000000000000".toList,
          loadLine "10100000000000000000000000000000".toList]
        PI := 458752
        CI := 1 } ∧
    ∃ c', cycle { initialize_computer 2 with
        store := [loadLine "00000000000001110000000000000000".toList,
          loadLine "10100000000000000000000000000000".toList] } = some c' ∧
      c'.CI = 1 ∧ c'.accumulator = 0 ∧ c'.running = 1 :=
  ⟨by decide, by decide,
   (first_cycle_skip 2 (by decide)
      ("00000000000001110000000000000000\n" ++
        "10100000000000000000000000000000\n").toList
      { initialize_computer 2 with
        store := [loadLine "00000000000001110000000000000000".toList,
          loadLine "10100000000000000000000000000000".toList] }
      (by decide)).2.2.imp
      (fun _ h => ⟨h.1, h.2.1, h.2.2.1, h.2.2.2.2⟩)⟩

/-! ## C11: halting -/

/-- C11: for a running machine and any `(opcode, operand)`, whenever `execute`
completes, the running flag is cleared exactly when the opcode is STP (1110) and
`CI` is not 0; STP away from address 0 always completes and changes nothing but the
running flag; and neither `fetch` nor `execute` sets a cleared running flag again
(`decode` returns only the pair `(opcode, operand)` and no machine state). -/
theorem halting_only_via_STP (c : BabyComputer) (opcode operand : Int)
    (hrun : c.running ≠ 0) :
    (∀ c', execute c opcode operand = some c' →
      (c'.running = 0 ↔ (opcode = 0b1110 ∧ c.CI ≠ 0))) ∧
    (c.CI ≠ 0 → execute c 0b1110 operand = some { c with running := 0 }) ∧
    (∀ (s s' : BabyComputer), s.running = 0 →
      (fetch s = some s' → s'.running = 0) ∧
      (∀ op arg, execute s op arg = some s' → s'.running = 0)) := by
  refine ⟨?_, ?_, ?_⟩
  · intro c' h
    rw [execute_running c opcode operand c' h]
    by_cases hc : opcode = 0b1110 ∧ c.CI ≠ 0
    · rw [if_pos hc]
      exact ⟨fun _ => hc, fun _ => rfl⟩
    · rw [if_neg hc]
      exact ⟨fun h0 => absurd h0 hrun, fun h1 => absurd h1 hc⟩
  · intro hCI
    unfold execute
    rw [if_neg hCI, if_neg (by decide), if_neg (by decide), if_neg (by decide), if_pos rfl]
  · intro s s' hs
    constructor
    · intro hf
      unfold fetch at hf
      split at hf
      · exact absurd hf (by simp)
      · rw [← Option.some.inj hf]
        exact hs
    · intro op arg he
      rw [execute_running s op arg s' he]
      split
      · rfl
      · exact hs

/-- Instance of `halting_only_via_STP`: STP executed at address 1 of a running machine
clears the running flag and nothing else. -/
theorem halting_only_via_STP_witness :
    ({ initialize_computer 2 with CI := 1 } : BabyComputer).running ≠ 0 ∧
    execute { initialize_computer 2 with CI := 1 } 0b1110 0 =
      some { initialize_computer 2 with CI := 1, running := 0 } :=
  ⟨by decide,
   (halting_only_via_STP { initialize_computer 2 with CI := 1 } 0b1110 0 (by decide)).2.1
      (by decide)⟩

/-! ## C12: the program counter -/

/-- The nine operations of `alu` that have a result for every pair of arguments. -/
theorem alu_defined_simple (opcode acc v : Int)
    (h : opcode ∈ [(0b0100 : Int), 0b0010, 0b1010, 0b0110, 0b0001, 0b1001, 0b1101, 0b0011,
      0b1011]) :
    ∃ a, alu opcode acc v = some a := by
  simp only [List.mem_cons, List.mem_singleton, List.not_mem_nil, or_false] at h
  rcases h with h | h | h | h | h | h | h | h | h <;> subst h <;>
    (unfold alu; simp)

/-- C12: away from address 0 and with `CI`, `CI + 1` and `CI + operand` inside the
`int` range, `execute` sets `CI` to the operand for JMP, to `CI + operand` for JRP,
leaves it unchanged for STP (all three always complete), and sets it to `CI + 1`,
with no reduction modulo the memory size, for every other opcode whenever the
instruction completes; on a well-formed machine with a non-negative operand the
nine opcodes LDN, SUB, SUB2, CMP, ADD, MUL, AND, OR, XOR always complete, and STO
completes when the operand is below the memory size. -/
theorem program_counter_rule (c : BabyComputer) (opcode operand : Int)
    (hCI : c.CI ≠ 0) (hlo : -2147483648 ≤ c.CI) (hhi : c.CI < 2147483647)
    (hop : 0 ≤ operand) (hsum : c.CI + operand < 2147483648) :
    execute c 0b0000 operand = some { c with CI := operand } ∧
    execute c 0b1000 operand = some { c with CI := c.CI + operand } ∧
    execute c 0b1110 operand = some { c with running := 0 } ∧
    (opcode ≠ 0b0000 → opcode ≠ 0b1000 → opcode ≠ 0b1110 →
      ∀ c', execute c opcode operand = some c' → c'.CI = c.CI + 1) ∧
    (WellFormed c → 0 < c.memory_size →
      opcode ∈ [(0b0100 : Int), 0b0010, 0b1010, 0b0110, 0b0001, 0b1001, 0b1101, 0b0011,
        0b1011] →
      ∃ c', execute c opcode operand = some c') ∧
    (WellFormed c → operand < c.memory_size →
      ∃ c', execute c 0b1100 operand = some c') := by
  refine ⟨?_, ?_, ?_, ?_, ?_, ?_⟩
  · unfold execute
    rw [if_neg hCI, if_pos rfl]
  · unfold execute
    rw [if_neg hCI, if_neg (by decide), if_pos rfl,
      wrap32_of_range _ (by omega) (by omega)]
  · unfold execute
    rw [if_neg hCI, if_neg (by decide), if_neg (by decide), if_neg (by decide), if_pos rfl]
  · intro h0 h8 h14 c' h
    rw [execute_CI c opcode operand c' h, if_neg hCI, if_neg h0, if_neg h8, if_neg h14,
      wrap32_of_range _ (by omega) (by omega)]
  · intro hwf hm hmem
    have hr : opcode ∈ readingOpcodes := by
      rw [mem_readingOpcodes_iff]
      simp only [List.mem_cons, List.mem_singleton, List.not_mem_nil, or_false] at hmem
      rcases hmem with h | h | h | h | h | h | h | h | h <;> subst h <;> decide
    obtain ⟨v, hv⟩ := get_value_defined c operand hwf hm hop
    obtain ⟨a, ha⟩ := alu_defined_simple opcode c.accumulator v hmem
    rw [execute_reading c opcode operand hCI hr, hv]
    simp only
    rw [ha]
    exact ⟨_, rfl⟩
  · intro hwf hlt
    unfold execute
    rw [if_neg hCI, if_neg (by decide), if_neg (by decide), if_pos rfl,
      store_value_wellFormed c operand c.accumulator hwf hop hlt]
    exact ⟨_, rfl⟩

/-- Instance of `program_counter_rule`: at address 5, JMP 3 goes to 3, JRP 3 goes to 8
and ADD 1 goes to 6. -/
theorem program_counter_rule_witness :
    execute { initialize_computer 32 with CI := 5 } 0b0000 3 =
      some { initialize_computer 32 with CI := 3 } ∧
    execute { initialize_computer 32 with CI := 5 } 0b1000 3 =
      some { initialize_computer 32 with CI := 5 + 3 } ∧
    (∀ c', execute { initialize_computer 32 with CI := 5 } 0b0001 1 = some c' →
      c'.CI = 5 + 1) ∧
    ∃ c', execute { initialize_computer 32 with CI := 5 } 0b0001 1 = some c' :=
  ⟨(program_counter_rule { initialize_computer 32 with CI := 5 } 0b0001 3 (by decide)
      (by decide) (by decide) (by decide) (by decide)).1,
   (program_counter_rule { initialize_computer 32 with CI := 5 } 0b0001 3 (by decide)
      (by decide) (by decide) (by decide) (by decide)).2.1,
   (program_counter_rule { initialize_computer 32 with CI := 5 } 0b0001 1 (by decide)
      (by decide) (by decide) (by decide) (by decide)).2.2.2.1 (by decide) (by decide)
      (by decide),
   (program_counter_rule { initialize_computer 32 with CI := 5 } 0b0001 1 (by decide)
      (by decide) (by decide) (by decide) (by decide)).2.2.2.2.1
      (initialize_computer_wellFormed 32 (by decide)) (by decide) (by decide)⟩

/-! ## C13: accumulator semantics -/

/-- C13: on a well-formed machine in DIRECT mode, away from address 0 and for a
non-negative operand, let `m` be the value of the memory word at address
`operand mod memory_size`, read with weight `2 ^ i` for cell `i` as a signed 32-bit
integer.  Then `execute` completes with `CI` advanced by one step and with the
accumulator set to: `-m` for LDN, `acc - m` for SUB and for SUB2, `acc + m` for ADD,
`acc * m` for MUL and `acc * 2 ^ m` for SHL (`0 ≤ m ≤ 31`), each reduced modulo
`2 ^ 32` to a signed 32-bit value; the bitwise AND, OR, XOR of the 32-bit patterns of
`acc` and `m`; the quotient truncated toward zero for DIV when `m ≠ 0` (the quotient
`-2 ^ 31 / -1` excepted, for which C defines no result); and `acc` shifted
arithmetically right by `m` for SHR (`0 ≤ m ≤ 31`). -/
theorem accumulator_semantics (c : BabyComputer) (operand : Int) (hwf : WellFormed c)
    (hmode : c.addr_mode = AddressingMode.DIRECT) (hCI : c.CI ≠ 0) (hop : 0 ≤ operand)
    (hm : 0 < c.memory_size) :
    execute c 0b0100 operand = some { c with
      accumulator := wrap32 (-(wordValue (c.store.getD (operand % c.memory_size).toNat [])))
      CI := wrap32 (c.CI + 1) } ∧
    execute c 0b0010 operand = some { c with
      accumulator := wrap32 (c.accumulator -
        wordValue (c.store.getD (operand % c.memory_size).toNat []))
      CI := wrap32 (c.CI + 1) } ∧
    execute c 0b1010 operand = execute c 0b0010 operand ∧
    execute c 0b0001 operand = some { c with
      accumulator := wrap32 (c.accumulator +
        wordValue (c.store.getD (operand % c.memory_size).toNat []))
      CI := wrap32 (c.CI + 1) } ∧
    execute c 0b1001 operand = some { c with
      accumulator := wrap32 (c.accumulator *
        wordValue (c.store.getD (operand % c.memory_size).toNat []))
      CI := wrap32 (c.CI + 1) } ∧
    (∃ r, execute c 0b1101 operand = some { c with
        accumulator := r, CI := wrap32 (c.CI + 1) } ∧
      -2147483648 ≤ r ∧ r < 2147483648 ∧
      ∀ i, (toU32 r).testBit i = ((toU32 c.accumulator).testBit i &&
        (toU32 (wordValue (c.store.getD (operand % c.memory_size).toNat []))).testBit i)) ∧
    (∃ r, execute c 0b0011 operand = some { c with
        accumulator := r, CI := wrap32 (c.CI + 1) } ∧
      -2147483648 ≤ r ∧ r < 2147483648 ∧
      ∀ i, (toU32 r).testBit i = ((toU32 c.accumulator).testBit i ||
        (toU32 (wordValue (c.store.getD (operand % c.memory_size).toNat []))).testBit i)) ∧
    (∃ r, execute c 0b1011 operand = some { c with
        accumulator := r, CI := wrap32 (c.CI + 1) } ∧
      -2147483648 ≤ r ∧ r < 2147483648 ∧
      ∀ i, (toU32 r).testBit i = ((toU32 c.accumulator).testBit i ^^
        (toU32 (wordValue (c.store.getD (operand % c.memory_size).toNat []))).testBit i)) ∧
    (wordValue (c.store.getD (operand % c.memory_size).toNat []) ≠ 0 →
      ¬ (c.accumulator = -2147483648 ∧
        wordValue (c.store.getD (operand % c.memory_size).toNat []) = -1) →
      execute c 0b0101 operand = some { c with
        accumulator := Int.tdiv c.accumulator
          (wordValue (c.store.getD (operand % c.memory_size).toNat []))
        CI := wrap32 (c.CI + 1) }) ∧
    (0 ≤ wordValue (c.store.getD (operand % c.memory_size).toNat []) →
      wordValue (c.store.getD (operand % c.memory_size).toNat []) ≤ 31 →
      execute c 0b0111 operand = some { c with
        accumulator := wrap32 (c.accumulator *
          2 ^ (wordValue (c.store.getD (operand % c.memory_size).toNat [])).toNat)
        CI := wrap32 (c.CI + 1) } ∧
      execute c 0b1111 operand = some { c with
        accumulator := c.accumulator >>>
          (wordValue (c.store.getD (operand % c.memory_size).toNat [])).toNat
        CI := wrap32 (c.CI + 1) }) := by
  have hv := get_value_wellFormed c operand hwf (by rw [hmode]; decide) hm hop
  generalize wordValue (c.store.getD (operand % c.memory_size).toNat []) = m at hv ⊢
  have step : ∀ (opcode a : Int), opcode ∈ readingOpcodes →
      alu opcode c.accumulator m = some a →
      execute c opcode operand = some { c with accumulator := a, CI := wrap32 (c.CI + 1) } :=
    fun opcode a ho ha => execute_reading_of c opcode operand m a hCI ho hv ha
  refine ⟨?_, ?_, ?_, ?_, ?_, ?_, ?_, ?_, ?_, ?_⟩
  · exact step _ _ (by decide) (by unfold alu; simp)
  · exact step _ _ (by decide) (by unfold alu; simp)
  · rw [step 0b1010 (wrap32 (c.accumulator - m)) (by decide) (by unfold alu; simp),
      step 0b0010 (wrap32 (c.accumulator - m)) (by decide) (by unfold alu; simp)]
  · exact step _ _ (by decide) (by unfold alu; simp)
  · exact step _ _ (by decide) (by unfold alu; simp)
  · exact ⟨and32 c.accumulator m, step _ _ (by decide) (by unfold alu; simp),
      (toI32_range _).1, (toI32_range _).2, and32_testBit _ _⟩
  · exact ⟨or32 c.accumulator m, step _ _ (by decide) (by unfold alu; simp),
      (toI32_range _).1, (toI32_range _).2, or32_testBit _ _⟩
  · exact ⟨xor32 c.accumulator m, step _ _ (by decide) (by unfold alu; simp),
      (toI32_range _).1, (toI32_range _).2, xor32_testBit _ _⟩
  · intro hm0 hmin
    exact step _ _ (by decide) (by unfold alu; simp [hm0, hmin])
  · intro h0 h31
    constructor
    · rw [← shl32_eq_wrap32]
      exact step _ _ (by decide)
        (by unfold alu; simp only [show (0 : Int) ≤ m ∧ m < 32 from ⟨h0, by omega⟩]; simp)
    · rw [← shr32_eq_shiftRight]
      exact step _ _ (by decide)
        (by unfold alu; simp only [show (0 : Int) ≤ m ∧ m < 32 from ⟨h0, by omega⟩]; simp)

/-- Instance of `accumulator_semantics`: with accumulator 7 and the value 5 in word 2,
LDN 2 gives -5, SUB 2 gives 2 and MUL 6 (address 6 mod 4 = 2) gives 35. -/
theorem accumulator_semantics_witness :
    wordValue (loadLine "10100000000000000000000000000000".toList) = 5 ∧
    execute { initialize_computer 4 with
        store := [List.replicate 32 0, List.replicate 32 0,
          loadLine "10100000000000000000000000000000".toList, List.replicate 32 0]
        accumulator := 7
        CI := 1 } 0b0100 2 =
      some { initialize_computer 4 with
        store := [List.replicate 32 0, List.replicate 32 0,
          loadLine "10100000000000000000000000000000".toList, List.replicate 32 0]
        accumulator := -5
        CI := 2 } ∧
    execute { initialize_computer 4 with
        store := [List.replicate 32 0, List.replicate 32 0,
          loadLine "10100000000000000000000000000000".toList, List.replicate 32 0]
        accumulator := 7
        CI := 1 } 0b0010 2 =
      some { initialize_computer 4 with
        store := [List.replicate 32 0, List.replicate 32 0,
          loadLine "10100000000000000000000000000000".toList, List.replicate 32 0]
        accumulator := 2
        CI := 2 } ∧
    execute { initialize_computer 4 with
        store := [List.replicate 32 0, List.replicate 32 0,
          loadLine "10100000000000000000000000000000".toList, List.replicate 32 0]
        accumulator := 7
        CI := 1 } 0b1001 6 =
      some { initialize_computer 4 with
        store := [List.replicate 32 0, List.replicate 32 0,
          loadLine "10100000000000000000000000000000".toList, List.replicate 32 0]
        accumulator := 35
        CI := 2 } :=
  ⟨by decide,
   ((accumulator_semantics _ 2 (by decide) rfl (by decide) (by decide) (by decide)).1).trans
      (by decide),
   ((accumulator_semantics _ 2 (by decide) rfl (by decide) (by decide)
      (by decide)).2.1).trans (by decide),
   ((accumulator_semantics _ 6 (by decide) rfl (by decide) (by decide)
      (by decide)).2.2.2.2.1).trans (by decide)⟩

/-! ## C14: division by zero -/

/-- C14: away from address 0, when the value read for the operand is 0, DIV completes,
leaves the accumulator, the memory and the running flag (and every other field)
unchanged and advances `CI` by one. -/
theorem division_by_zero_skipped (c : BabyComputer) (operand : Int) (hCI : c.CI ≠ 0)
    (hlo : -2147483648 ≤ c.CI) (hhi : c.CI < 2147483647)
    (hv : get_value_from_address c operand = some 0) :
    execute c 0b0101 operand = some { c with CI := c.CI + 1 } := by
  have ha : alu 0b0101 c.accumulator 0 = some c.accumulator := by
    unfold alu; simp
  rw [execute_reading_of c 0b0101 operand 0 c.accumulator hCI (by decide) hv ha,
    wrap32_of_range _ (by omega) (by omega)]

/-- Instance of `division_by_zero_skipped`: DIV 3 on a zeroed memory with
accumulator 9 at address 1. -/
theorem division_by_zero_skipped_witness :
    get_value_from_address { initialize_computer 4 with accumulator := 9, CI := 1 } 3 =
      some 0 ∧
    execute { initialize_computer 4 with accumulator := 9, CI := 1 } 0b0101 3 =
      some { initialize_computer 4 with accumulator := 9, CI := 2 } :=
  ⟨by decide,
   division_by_zero_skipped { initialize_computer 4 with accumulator := 9, CI := 1 } 3
      (by decide) (by decide) (by decide) (by decide)⟩

/-! ## C15: wraparound on reads -/

/-- C15: in DIRECT mode, for every opcode that reads memory (LDN, SUB, SUB2, CMP, ADD,
MUL, DIV, AND, OR, XOR, SHL, SHR) and every `k` in `[0, memory_size)`, `execute` with
operand `memory_size + k` gives the same result as with operand `k`; and on a
well-formed machine the value read for an operand `n ≥ 0` is the value of the word at
address `n mod memory_size`. -/
theorem read_wraparound (c : BabyComputer) (opcode k : Int)
    (hmode : c.addr_mode = AddressingMode.DIRECT) (hop : opcode ∈ readingOpcodes)
    (h0 : 0 ≤ k) (h1 : k < c.memory_size) :
    execute c opcode (c.memory_size + k) = execute c opcode k ∧
    (WellFormed c → ∀ n, 0 ≤ n →
      get_value_from_address c n =
        some (wordValue (c.store.getD (n % c.memory_size).toNat []))) := by
  have hm : c.addr_mode ≠ AddressingMode.IMMEDIATE := by rw [hmode]; decide
  constructor
  · by_cases hCI : c.CI = 0
    · rw [execute_at_zero c _ _ hCI, execute_at_zero c _ _ hCI]
    · rw [execute_reading c opcode _ hCI hop, execute_reading c opcode _ hCI hop,
        get_value_add_memory_size c k hm h0 h1]
  · intro hwf n hn
    exact get_value_wellFormed c n hwf hm (by omega) hn

/-- Instance of `read_wraparound`: on a 4-word machine ADD 6 and ADD 2 give the same
state. -/
theorem read_wraparound_witness :
    execute { initialize_computer 4 with
        store := [List.replicate 32 0, List.replicate 32 0,
          loadLine "10100000000000000000000000000000".toList, List.replicate 32 0]
        accumulator := 7
        CI := 1 } 0b0001 (4 + 2) =
      some { initialize_computer 4 with
        store := [List.replicate 32 0, List.replicate 32 0,
          loadLine "10100000000000000000000000000000".toList, List.replicate 32 0]
        accumulator := 12
        CI := 2 } :=
  ((read_wraparound { initialize_computer 4 with
        store := [List.replicate 32 0, List.replicate 32 0,
          loadLine "10100000000000000000000000000000".toList, List.replicate 32 0]
        accumulator := 7
        CI := 1 } 0b0001 2 rfl (by decide) (by decide) (by decide)).1).trans (by decide)

/-! ## C16: wraparound on writes -/

/-- C16 (behaviour of the code at the failing input): the program `STP`, `STO 32`
assembles and loads into a 32-word machine; its second word decodes to STO with
operand 32, and executing it indexes `store[32]`, outside the 32 allocated words, so
that `execute` and the run have no defined result, whereas a read at address 32 is
reduced modulo the memory size and STO 0 writes word 0. -/
theorem STO_beyond_memory_size_undefined :
    assemble "STP\nSTO 32\n".toList =
      (0, some ("00000000000001110000000000000000\n" ++
        "00000100000001100000000000000000\n").toList) ∧
    (load_program (initialize_computer 32)
        ("00000000000001110000000000000000\n" ++
          "00000100000001100000000000000000\n").toList).bind
      (fun p => decode { p.2 with CI := 1 }) = some (0b1100, 32) ∧
    execute { initialize_computer 32 with accumulator := 7, CI := 1 } 0b1100 32 = none ∧
    (load_program (initialize_computer 32)
        ("00000000000001110000000000000000\n" ++
          "00000100000001100000000000000000\n").toList).bind
      (fun p => run 2 p.2) = none ∧
    get_value_from_address { initialize_computer 32 with accumulator := 7, CI := 1 } 32 =
      get_value_from_address { initialize_computer 32 with accumulator := 7, CI := 1 } 0 ∧
    (execute { initialize_computer 32 with accumulator := 7, CI := 1 } 0b1100 0).map
        (fun c => (c.store.getD 0 []).take 4) = some [1, 1, 1, 0] := by
  decide

/-! ## C17: store / load round trip -/

/-- LDN away from address 0, given the value read for its operand. -/
theorem execute_LDN_of_value {c1 : BabyComputer} {a v : Int}
    (hv : get_value_from_address c1 a = some v) (hCI : c1.CI ≠ 0) :
    execute c1 0b0100 a =
      some { c1 with accumulator := wrap32 (-v), CI := wrap32 (c1.CI + 1) } :=
  execute_reading_of c1 0b0100 a v (wrap32 (-v)) hCI (by decide) hv (by unfold alu; simp)

/-- C17: on a well-formed machine in DIRECT mode, for every signed 32-bit value `v`
and every address `a` in `[0, memory_size)`, `store_value_to_address` completes; after
it word `a` has 32 cells, cell `i` being 1 when bit `i` of the two's complement form
of `v` is set and 0 otherwise, and `get_value_from_address` returns `v` from address
`a`.  Hence, at an address `CI > 0`, STO `a` followed by LDN `a` leaves in the
accumulator the negation, as a signed 32-bit value, of the accumulator before the
STO: exactly `-acc` unless `acc = -2 ^ 31`. -/
theorem store_load_roundtrip (c : BabyComputer) (a v : Int) (hwf : WellFormed c)
    (hmode : c.addr_mode = AddressingMode.DIRECT) (h0 : 0 ≤ a) (h1 : a < c.memory_size)
    (hv1 : -2147483648 ≤ v) (hv2 : v < 2147483648) :
    (∃ c1, store_value_to_address c a v = some c1 ∧
      (c1.store.getD a.toNat []).length = 32 ∧
      (∀ i, i < 32 → (c1.store.getD a.toNat []).getD i 0 =
        if (toU32 v).testBit i then 1 else 0) ∧
      get_value_from_address c1 a = some v) ∧
    (c.accumulator = v → 0 < c.CI → c.CI < 2147483646 →
      ∃ c2 c3, execute c 0b1100 a = some c2 ∧ execute c2 0b0100 a = some c3 ∧
        c3.accumulator = wrap32 (-v) ∧ (v ≠ -2147483648 → c3.accumulator = -v)) := by
  have hidx : a.toNat < c.store.length := by
    have := hwf.1
    omega
  have hstore := store_value_wellFormed c a v hwf h0 h1
  have hmode' : c.addr_mode ≠ AddressingMode.IMMEDIATE := by rw [hmode]; decide
  have hword : (c.store.set a.toNat ((List.range WORD_SIZE).map
      (fun i => if (toU32 v).testBit i then (1 : Int) else 0))).getD a.toNat [] =
      (List.range WORD_SIZE).map (fun i => if (toU32 v).testBit i then (1 : Int) else 0) := by
    rw [List.getD_eq_getElem?_getD, List.getElem?_set_self hidx]
    rfl
  have hwf1 : WellFormed { c with store := (c.store.set a.toNat ((List.range WORD_SIZE).map
      (fun i => if (toU32 v).testBit i then (1 : Int) else 0))) } := by
    constructor
    · simp only [List.length_set]; exact hwf.1
    · intro w hw
      rcases List.mem_or_eq_of_mem_set hw with h | h
      · exact hwf.2 w h
      · rw [h]; simp
  have hread : ∀ (ci : Int), get_value_from_address
      { c with store := (c.store.set a.toNat ((List.range WORD_SIZE).map
          (fun i => if (toU32 v).testBit i then (1 : Int) else 0))), CI := ci } a = some v := by
    intro ci
    have hwf2 : WellFormed { c with store := (c.store.set a.toNat ((List.range WORD_SIZE).map
        (fun i => if (toU32 v).testBit i then (1 : Int) else 0))), CI := ci } := hwf1
    rw [get_value_wellFormed _ a hwf2 hmode' (by show 0 < c.memory_size; omega) h0]
    have hmod : a % c.memory_size = a := Int.emod_eq_of_lt h0 h1
    show some (wordValue ((c.store.set a.toNat _).getD (a % c.memory_size).toNat [])) = some v
    rw [hmod, hword, wordValue_bits v hv1 hv2]
  constructor
  · refine ⟨_, hstore, ?_, ?_, ?_⟩
    · show ((c.store.set a.toNat _).getD a.toNat []).length = 32
      rw [hword]; simp [WORD_SIZE]
    · intro i hi
      show ((c.store.set a.toNat _).getD a.toNat []).getD i 0 = _
      rw [hword]
      exact getD_bitCells (fun i => (toU32 v).testBit i) i hi
    · have := hread c.CI
      exact this
  · intro hacc hci1 hci2
    subst hacc
    have hCI : c.CI ≠ 0 := by omega
    have hsto : execute c 0b1100 a = some { c with
        store := (c.store.set a.toNat ((List.range WORD_SIZE).map
          (fun i => if (toU32 c.accumulator).testBit i then (1 : Int) else 0))),
        CI := wrap32 (c.CI + 1) } := by
      unfold execute
      rw [if_neg hCI, if_neg (by decide), if_neg (by decide), if_pos rfl, hstore]
    have hnext : wrap32 (c.CI + 1) ≠ 0 := by
      rw [wrap32_of_range _ (by omega) (by omega)]; omega
    have hldn := execute_LDN_of_value (hread (wrap32 (c.CI + 1))) hnext
    refine ⟨_, _, hsto, hldn, rfl, ?_⟩
    intro hne
    show wrap32 (-c.accumulator) = -c.accumulator
    exact wrap32_of_range _ (by omega) (by omega)

set_option maxRecDepth 8000 in
/-- Instance of `store_load_roundtrip`: storing -5 at address 2 of a 4-word machine and
reading it back; STO 2 then LDN 2 with accumulator -5 at address 1 leaves 5. -/
theorem store_load_roundtrip_witness :
    (store_value_to_address { initialize_computer 4 with accumulator := -5, CI := 1 } 2
        (-5)).bind (fun c1 => get_value_from_address c1 2) = some (-5) ∧
    ((execute { initialize_computer 4 with accumulator := -5, CI := 1 } 0b1100 2).bind
        (fun c2 => execute c2 0b0100 2)).map (fun c3 => c3.accumulator) = some 5 ∧
    ∃ c2 c3, execute { initialize_computer 4 with accumulator := -5, CI := 1 } 0b1100 2 =
        some c2 ∧ execute c2 0b0100 2 = some c3 ∧ c3.accumulator = wrap32 (-(-5)) ∧
        ((-5 : Int) ≠ -2147483648 → c3.accumulator = -(-5)) :=
  ⟨by decide, by decide,
   (store_load_roundtrip { initialize_computer 4 with accumulator := -5, CI := 1 } 2 (-5)
      (by decide) rfl (by decide) (by decide) (by decide) (by decide)).2 rfl (by decide)
      (by decide)⟩

/-! ## C18: CMP -/

/-- C18: away from address 0, whenever CMP completes it has changed nothing but `CI`,
which is advanced by exactly one (the next instruction is never skipped, whatever the
accumulator): accumulator, memory, running flag, addressing mode, index and base
registers are as before; and on a well-formed machine with a non-negative operand
CMP always completes. -/
theorem CMP_changes_only_CI (c : BabyComputer) (operand : Int) (hCI : c.CI ≠ 0)
    (hlo : -2147483648 ≤ c.CI) (hhi : c.CI < 2147483647) :
    (∀ c', execute c 0b0110 operand = some c' → c' = { c with CI := c.CI + 1 }) ∧
    (WellFormed c → 0 < c.memory_size → 0 ≤ operand →
      execute c 0b0110 operand = some { c with CI := c.CI + 1 }) := by
  have hstep : ∀ v, get_value_from_address c operand = some v →
      execute c 0b0110 operand = some { c with CI := c.CI + 1 } := by
    intro v hv
    rw [execute_reading_of c 0b0110 operand v c.accumulator hCI (by decide) hv
      (by unfold alu; simp), wrap32_of_range _ (by omega) (by omega)]
  constructor
  · intro c' h
    rcases execute_cases c 0b0110 operand c' h with
      ⟨h0, _⟩ | ⟨_, h1, _⟩ | ⟨_, h1, _⟩ | ⟨_, h1, _⟩ | ⟨_, h1, _⟩ |
      ⟨_, _, v, a, hv, _, _⟩ | ⟨_, _, _, _, _, h5, _⟩
    · exact absurd h0 hCI
    · exact absurd h1 (by decide)
    · exact absurd h1 (by decide)
    · exact absurd h1 (by decide)
    · exact absurd h1 (by decide)
    · rw [hstep v hv] at h
      exact (Option.some.inj h).symm
    · exact absurd (by decide) h5
  · intro hwf hm hop
    obtain ⟨v, hv⟩ := get_value_defined c operand hwf hm hop
    exact hstep v hv

/-- Instance of `CMP_changes_only_CI`: CMP 2 with a negative accumulator at address 1. -/
theorem CMP_changes_only_CI_witness :
    execute { initialize_computer 4 with accumulator := -3, CI := 1 } 0b0110 2 =
      some { initialize_computer 4 with accumulator := -3, CI := 1 + 1 } :=
  (CMP_changes_only_CI { initialize_computer 4 with accumulator := -3, CI := 1 } 2
    (by decide) (by decide) (by decide)).2 (by decide) (by decide) (by decide)

/-! ## C19: the end-to-end example -/

set_option maxRecDepth 20000 in
/-- C19 (as amended): the five-line source `START: LDN 2`, `ADD 3`, `STP`, `VAR 5`,
`VAR -5` assembles successfully (with or without
the leading blanks of the continuation lines) to exactly 5 lines of 32 binary characters, which
`load_program` loads into a freshly initialised 32-word machine.  Repeating
fetch/decode/execute while the running flag is set terminates after three cycles:
the first cycle only moves `CI` from 0 to 1, so the LDN at address 0 is not executed
and the accumulator stays 0; the second executes ADD 3 and sets the accumulator to
0 plus the value at address 3, that is 5; the third executes STP and clears the
running flag.  The final accumulator is 5 and further cycles change nothing. -/
theorem end_to_end_example :
    assemble exampleSource = (0, some exampleOutput) ∧
    assemble "START: LDN 2\nADD 3\nSTP\nVAR 5\nVAR -5".toList = (0, some exampleOutput) ∧
    (splitLines exampleOutput).length = 5 ∧
    (∀ l ∈ splitLines exampleOutput, binaryLine l) ∧
    load_program (initialize_computer 32) exampleOutput = some (0, exampleMachine) ∧
    get_value_from_address exampleMachine 3 = some 5 ∧
    (run 1 exampleMachine).map (fun c => (c.running, c.accumulator, c.CI)) =
      some (1, 0, 1) ∧
    (run 2 exampleMachine).map (fun c => (c.running, c.accumulator, c.CI)) =
      some (1, 5, 2) ∧
    (run 3 exampleMachine).map (fun c => (c.running, c.accumulator, c.CI)) =
      some (0, 5, 2) ∧
    ∀ n, run (n + 3) exampleMachine = run 3 exampleMachine := by
  refine ⟨by decide, by decide, by decide, by decide, by decide, by decide, by decide,
    by decide, by decide, ?_⟩
  intro n
  rw [run_add 3 n exampleMachine]
  have h3 : ∃ cf, run 3 exampleMachine = some cf ∧ cf.running = 0 := by
    have h : (run 3 exampleMachine).map (fun c => c.running) = some 0 := by decide
    cases hr : run 3 exampleMachine with
    | none => rw [hr] at h; exact absurd h (by simp)
    | some cf =>
      rw [hr] at h
      exact ⟨cf, rfl, Option.some.inj h⟩
  obtain ⟨cf, hcf, hrun⟩ := h3
  rw [hcf]
  exact run_halted n cf hrun

set_option maxRecDepth 20000 in
/-- C19 fails as stated: the value at address 2 is 57344 and the value at address 3
is 5, so the claim puts the accumulator at -57344 after the LDN and at -57339 at the
end; but the accumulator is 0 after the first cycle (the LDN at address 0 is skipped)
and 5 when the run has terminated at the STP. -/
theorem end_to_end_example_skips_LDN :
    load_program (initialize_computer 32) exampleOutput = some (0, exampleMachine) ∧
    get_value_from_address exampleMachine 2 = some 57344 ∧
    get_value_from_address exampleMachine 3 = some 5 ∧
    (run 1 exampleMachine).map (fun c => (c.accumulator, c.CI)) = some (0, 1) ∧
    (run 3 exampleMachine).map (fun c => (c.running, c.accumulator)) = some (0, 5) ∧
    (run 1 exampleMachine).map (fun c => c.accumulator) ≠ some (-57344) ∧
    (run 3 exampleMachine).map (fun c => c.accumulator) ≠ some (-57344 + 5) := by
  decide

/-! ## C20: decode -/

/-- C20: on a well-formed machine whose `CI` lies in `[0, memory_size)` and whose
current word holds only the cells 0 and 1, `decode` returns (it reads the machine and
returns only the pair, no machine state) the opcode `8*b13 + 4*b14 + 2*b15 + b16`,
which lies in `[0, 15]`, and the operand `b0*2^0 + ... + b12*2^12`, which lies in
`[0, 8191]`; and any well-formed machine whose current word has the same cells at
positions 0 to 16 decodes to the same pair. -/
theorem decode_pure_total (c : BabyComputer) (hwf : WellFormed c) (h0 : 0 ≤ c.CI)
    (h1 : c.CI < c.memory_size)
    (hbits : ∀ b ∈ c.store.getD c.CI.toNat [], b = 0 ∨ b = 1) :
    decode c = some
      (8 * (c.store.getD c.CI.toNat []).getD 13 0 + 4 * (c.store.getD c.CI.toNat []).getD 14 0 +
        2 * (c.store.getD c.CI.toNat []).getD 15 0 + (c.store.getD c.CI.toNat []).getD 16 0,
       ((List.range 13).map (fun i => (c.store.getD c.CI.toNat []).getD i 0 * 2 ^ i)).sum) ∧
    (∃ opcode operand, decode c = some (opcode, operand) ∧ 0 ≤ opcode ∧ opcode ≤ 15 ∧
      0 ≤ operand ∧ operand ≤ 8191) ∧
    (∀ c2 : BabyComputer, WellFormed c2 → 0 ≤ c2.CI → c2.CI < c2.memory_size →
      (∀ i, i ≤ 16 → (c2.store.getD c2.CI.toNat []).getD i 0 =
        (c.store.getD c.CI.toNat []).getD i 0) →
      decode c2 = decode c) := by
  obtain ⟨hr, hlen, _⟩ := readWord_current c hwf h0 h1
  generalize c.store.getD c.CI.toNat [] = w at hr hlen hbits ⊢
  have hcell : ∀ i, i < 32 → w.getD i 0 = 0 ∨ w.getD i 0 = 1 :=
    fun i hi => hbits _ (getD_mem_or_default w i (by omega))
  have hsum : orBits w 13 = ((bitSum w 13 : Nat) : Int) := by
    rw [orBits_eq_bitSum w 13 (by decide)]
    have := bitSum_lt w 13
    unfold toI32
    rw [Nat.mod_eq_of_lt (by omega), if_pos (by omega)]
  have hdec : decode c = some
      (8 * w.getD 13 0 + 4 * w.getD 14 0 + 2 * w.getD 15 0 + w.getD 16 0,
       ((List.range 13).map (fun i => w.getD i 0 * 2 ^ i)).sum) := by
    unfold decode
    rw [hr]
    simp only
    rw [opcode_of_cells _ _ _ _ (hcell 13 (by decide)) (hcell 14 (by decide))
      (hcell 15 (by decide)) (hcell 16 (by decide)), hsum,
      bitSum_cast w 13 (fun i hi => hcell i (by omega))]
  refine ⟨hdec, ?_, ?_⟩
  · refine ⟨_, _, hdec, ?_, ?_, ?_, ?_⟩
    · rcases hcell 13 (by decide) with a | a <;> rcases hcell 14 (by decide) with b | b <;>
        rcases hcell 15 (by decide) with d | d <;> rcases hcell 16 (by decide) with e | e <;>
        rw [a, b, d, e] <;> decide
    · rcases hcell 13 (by decide) with a | a <;> rcases hcell 14 (by decide) with b | b <;>
        rcases hcell 15 (by decide) with d | d <;> rcases hcell 16 (by decide) with e | e <;>
        rw [a, b, d, e] <;> decide
    · rw [← bitSum_cast w 13 (fun i hi => hcell i (by omega))]
      omega
    · rw [← bitSum_cast w 13 (fun i hi => hcell i (by omega))]
      have := bitSum_lt w 13
      omega
  · intro c2 hwf2 h02 h12 hagree
    obtain ⟨hr2, _, _⟩ := readWord_current c2 hwf2 h02 h12
    generalize c2.store.getD c2.CI.toNat [] = w2 at hr2 hagree
    unfold decode
    rw [hr, hr2]
    simp only
    rw [hagree 13 (by decide), hagree 14 (by decide), hagree 15 (by decide),
      hagree 16 (by decide), orBits_eq_bitSum w2 13 (by decide),
      orBits_eq_bitSum w 13 (by decide),
      bitSum_congr w w2 13 (fun i hi => hagree i (by omega))]

set_option maxRecDepth 8000 in
/-- Instance of `decode_pure_total`: the word of `ADD 3` at address 1 of the example
machine decodes to `(0001, 3)`. -/
theorem decode_pure_total_witness :
    WellFormed { exampleMachine with CI := 1 } ∧
    decode { exampleMachine with CI := 1 } = some (0b0001, 3) :=
  ⟨by decide,
   ((decode_pure_total { exampleMachine with CI := 1 } (by decide) (by decide) (by decide)
      (by decide)).1).trans (by decide)⟩

/-! ## C21: the addressing-mode fields -/

/-- The value read by `get_value_from_address` depends on the machine only through its
memory, its memory size and the test `addr_mode == IMMEDIATE`. -/
theorem get_value_congr (c1 c2 : BabyComputer) (address : Int)
    (hstore : c1.store = c2.store) (hsize : c1.memory_size = c2.memory_size)
    (hmode : c1.addr_mode = AddressingMode.IMMEDIATE ↔
      c2.addr_mode = AddressingMode.IMMEDIATE) :
    get_value_from_address c1 address = get_value_from_address c2 address := by
  unfold get_value_from_address
  by_cases h : c1.addr_mode = AddressingMode.IMMEDIATE
  · rw [if_pos h, if_pos (hmode.mp h)]
  · rw [if_neg h, if_neg (fun h2 => h (hmode.mpr h2)), hstore, hsize]

/-- C21 (as amended): `execute` never consults `index_reg` or `base_reg`, and consults
`addr_mode` only through the test `addr_mode == IMMEDIATE` of
`get_value_from_address`.  For two machine states that agree on memory, memory size,
accumulator, `CI`, `PI` and running, and whose addressing modes are both IMMEDIATE or
both different from IMMEDIATE, `execute` is defined on both or on neither and the
resulting states agree on memory, memory size, accumulator, `CI`, `PI` and running;
`execute` leaves the three fields unchanged, so a machine started by
`initialize_computer` stays in DIRECT mode; outside IMMEDIATE mode a reading opcode
takes the value of word `operand mod memory_size`, in IMMEDIATE mode it takes the
operand itself. -/
theorem execute_consults_only_IMMEDIATE (c1 c2 : BabyComputer) (opcode operand : Int)
    (hstore : c1.store = c2.store) (hsize : c1.memory_size = c2.memory_size)
    (hacc : c1.accumulator = c2.accumulator) (hCI : c1.CI = c2.CI) (hPI : c1.PI = c2.PI)
    (hrun : c1.running = c2.running)
    (hmode : c1.addr_mode = AddressingMode.IMMEDIATE ↔
      c2.addr_mode = AddressingMode.IMMEDIATE) :
    (execute c1 opcode operand).map
        (fun c => (c.store, c.memory_size, c.accumulator, c.CI, c.PI, c.running)) =
      (execute c2 opcode operand).map
        (fun c => (c.store, c.memory_size, c.accumulator, c.CI, c.PI, c.running)) ∧
    (∀ c', execute c1 opcode operand = some c' →
      c'.addr_mode = c1.addr_mode ∧ c'.index_reg = c1.index_reg ∧
        c'.base_reg = c1.base_reg) ∧
    (c1.addr_mode ≠ AddressingMode.IMMEDIATE → WellFormed c1 → 0 < c1.memory_size →
      0 ≤ operand →
      get_value_from_address c1 operand =
        some (wordValue (c1.store.getD (operand % c1.memory_size).toNat []))) ∧
    (c1.addr_mode = AddressingMode.IMMEDIATE →
      get_value_from_address c1 operand = some operand) := by
  refine ⟨?_, ?_, ?_, ?_⟩
  · have hg := get_value_congr c1 c2 operand hstore hsize hmode
    unfold execute store_value_to_address
    rw [hg, hstore, hacc, hCI]
    by_cases h0 : c2.CI = 0
    · simp [h0, hstore, hsize, hacc, hPI, hrun]
    · simp only [if_neg h0]
      split_ifs
      · simp [hstore, hsize, hacc, hPI, hrun]
      · simp [hstore, hsize, hacc, hPI, hrun, hCI]
      · rcases hw : writeWord c2.store operand
            ((List.range WORD_SIZE).map
              (fun i => if (toU32 c2.accumulator).testBit i then (1 : Int) else 0)) with _ | st <;>
          simp [hw, hsize, hacc, hPI, hrun, hCI]
      · simp [hstore, hsize, hacc, hPI, hCI]
      · cases get_value_from_address c2 operand with
        | none => rfl
        | some v =>
          rcases ha : alu opcode c2.accumulator v with _ | a <;>
            simp [ha, hstore, hsize, hacc, hPI, hrun, hCI]
      · simp [hstore, hsize, hacc, hPI, hrun, hCI]
  · intro c' h
    rcases execute_cases c1 opcode operand c' h with
      ⟨_, h⟩ | ⟨_, _, h⟩ | ⟨_, _, h⟩ | ⟨_, _, c3, h3, h⟩ | ⟨_, _, h⟩ | ⟨_, _, v, a, _, _, h⟩ |
      ⟨_, _, _, _, _, _, h⟩
    all_goals subst h
    all_goals try exact ⟨rfl, rfl, rfl⟩
    unfold store_value_to_address at h3
    split at h3
    · exact absurd h3 (by simp)
    · have h4 := Option.some.inj h3
      subst h4
      exact ⟨rfl, rfl, rfl⟩
  · intro hm hwf hpos hop
    exact get_value_wellFormed c1 operand hwf hm hpos hop
  · intro hm
    unfold get_value_from_address
    rw [if_pos hm]

/-- Instance of `execute_consults_only_IMMEDIATE`: LDN 2 gives the same memory,
accumulator, `CI` and running flag in DIRECT mode and in INDIRECT mode with other
index and base registers. -/
theorem execute_consults_only_IMMEDIATE_witness :
    (execute { initialize_computer 4 with CI := 1 } 0b0100 2).map
        (fun c => (c.store, c.memory_size, c.accumulator, c.CI, c.PI, c.running)) =
      (execute { initialize_computer 4 with
          CI := 1, addr_mode := AddressingMode.INDIRECT, index_reg := 7, base_reg := 9 }
        0b0100 2).map
        (fun c => (c.store, c.memory_size, c.accumulator, c.CI, c.PI, c.running)) :=
  (execute_consults_only_IMMEDIATE { initialize_computer 4 with CI := 1 }
    { initialize_computer 4 with
      CI := 1, addr_mode := AddressingMode.INDIRECT, index_reg := 7, base_reg := 9 }
    0b0100 2 rfl rfl rfl rfl rfl rfl (by decide)).1

/-- C21 fails as stated: two states that differ only in `addr_mode` (DIRECT and
IMMEDIATE) give different accumulators for LDN 2: minus the value of word 2, which is
0, in DIRECT mode, and minus the operand, -2, in IMMEDIATE mode. -/
theorem execute_consults_addr_mode :
    (execute { initialize_computer 4 with CI := 1 } 0b0100 2).map
        (fun c => c.accumulator) = some 0 ∧
    (execute { initialize_computer 4 with CI := 1, addr_mode := AddressingMode.IMMEDIATE }
        0b0100 2).map (fun c => c.accumulator) = some (-2) := by
  decide

/-! ## C22: operand resolution -/

/-- C22 (as amended): for every table mnemonic other than `STP` (`VAR` is not in the
table) and every operand text `d :: ds`, `parseInstruction` takes the operand as a
number exactly when its first character `d` is a decimal digit: when the leading run
of digits denotes a value in the `int` range (below 2^31, the range in which `atoi`
has a defined result), the operand field is that value, whatever follows the digits.
In every other case the whole text is looked up in the symbol table: the operand field
is the address found, and the word is 0 when the text is absent. -/
theorem operand_resolution (mn : List Char) (code : Nat) (d : Char) (ds tail : List Char)
    (table : SymbolTable) (hp : (mn, code) ∈ opcodeTable) (hstp : mn ≠ ['S', 'T', 'P'])
    (hd : isspace d = false) (hop : ∀ c ∈ d :: ds, c ≠ ':' ∧ c ≠ ';')
    (htrim : trimEnd (d :: ds) = d :: ds) (htail : ∀ c ∈ tail, isspace c = true) :
    (isdigit d = true → atoiDigits 0 (d :: ds) < 2147483648 →
      parseInstruction (mn ++ ' ' :: (d :: ds ++ tail)) table =
        placeBits 13 (atoiDigits 0 (d :: ds)) 0 ||| (code <<< (32 - 17))) ∧
    (isdigit d = false → findSymbol table (d :: ds) ≠ -1 →
      parseInstruction (mn ++ ' ' :: (d :: ds ++ tail)) table =
        placeBits 13 (toU32 (findSymbol table (d :: ds))) 0 ||| (code <<< (32 - 17))) ∧
    (isdigit d = false → findSymbol table (d :: ds) = -1 →
      parseInstruction (mn ++ ' ' :: (d :: ds ++ tail)) table = 0) := by
  obtain ⟨h1, h2, h3, _, h5, _⟩ := opcodeTable_facts (mn, code) hp
  simp only at h1 h2 h3 h5
  have htok := tokenize_mnemonic_operand mn (d :: ds) tail h1 h2
    (by intro c hc; simp only [List.head?_cons, Option.mem_def, Option.some.injEq] at hc
        rw [← hc]; exact hd)
    (List.cons_ne_nil _ _) hop htrim htail
  have hpi : parseInstruction (mn ++ ' ' :: (d :: ds ++ tail)) table =
      match resolveOperand (some (d :: ds)) table with
      | none => 0
      | some addr => placeBits 13 (toU32 addr) 0 ||| (code <<< (32 - 17)) := by
    unfold parseInstruction
    rw [htok]
    simp only
    unfold encode
    rw [if_neg h3, if_neg hstp, h5 hstp]
    try rfl
  rw [hpi]
  unfold resolveOperand
  simp only [List.head?_cons, Option.map_some', Option.getD_some]
  refine ⟨?_, ?_, ?_⟩
  · intro hdig hrange
    rw [if_pos hdig, atoi_of_digit_head d ds hdig]
    simp only
    rw [toU32_wrap32_natCast, Nat.mod_eq_of_lt (by omega)]
  · intro hdig hfind
    rw [if_neg (by rw [hdig]; decide), if_neg hfind]
  · intro hdig hfind
    rw [if_neg (by rw [hdig]; decide), if_pos hfind]

/-- Instance of `operand_resolution`: with `2x` bound to 5 and `x2` bound to 6,
`LDN 2x` gets the operand field 2 and `LDN x2` the operand field 6. -/
theorem operand_resolution_witness :
    parseInstruction "LDN 2x\n".toList ⟨[⟨"2x".toList, 5⟩, ⟨"x2".toList, 6⟩]⟩ =
      placeBits 13 2 0 ||| (0b0100 <<< (32 - 17)) ∧
    parseInstruction "LDN x2\n".toList ⟨[⟨"2x".toList, 5⟩, ⟨"x2".toList, 6⟩]⟩ =
      placeBits 13 6 0 ||| (0b0100 <<< (32 - 17)) :=
  ⟨(operand_resolution "LDN".toList 0b0100 '2' "x".toList "\n".toList
      ⟨[⟨"2x".toList, 5⟩, ⟨"x2".toList, 6⟩]⟩ (by decide) (by decide) (by decide)
      (by decide) (by decide) (by decide)).1 (by decide) (by decide),
   (operand_resolution "LDN".toList 0b0100 'x' "2".toList "\n".toList
      ⟨[⟨"2x".toList, 5⟩, ⟨"x2".toList, 6⟩]⟩ (by decide) (by decide) (by decide)
      (by decide) (by decide) (by decide)).2.1 (by decide) (by decide)⟩

/-- C22 fails as stated: the operand `2x` is not purely numeric and the symbol table
binds it to 5, but `parseInstruction` sees that its first character is a digit and
takes the number 2: the word of `LDN 2x` is the word of `LDN 2`, not that of
`LDN 5`. -/
theorem operand_2x_read_as_number :
    findSymbol ⟨[⟨"2x".toList, 5⟩]⟩ "2x".toList = 5 ∧
    "2x".toList.all isdigit = false ∧
    parseInstruction "LDN 2x".toList ⟨[⟨"2x".toList, 5⟩]⟩ =
      parseInstruction "LDN 2".toList ⟨[⟨"2x".toList, 5⟩]⟩ ∧
    parseInstruction "LDN 2x".toList ⟨[⟨"2x".toList, 5⟩]⟩ =
      placeBits 13 2 0 ||| (0b0100 <<< (32 - 17)) ∧
    parseInstruction "LDN 2x".toList ⟨[⟨"2x".toList, 5⟩]⟩ ≠
      placeBits 13 5 0 ||| (0b0100 <<< (32 - 17)) := by
  decide

/-! ## C23: comments -/

/-- C23 fails on the code: `parseInstruction` looks for `:` in the whole line, comment
included, while pass 1 cuts the line at `;` first.  The line `LDN 2 ; note: hi` has no
label for pass 1, but pass 2 takes everything up to the colon of the comment as a
label and `hi` as the mnemonic, so the word emitted is 0 instead of the word of
`LDN 2`, which is what `LDN 2 ; note` and `LDN 2` give. -/
theorem comment_with_colon_changes_word :
    labelOf "LDN 2 ; note: hi\n".toList = none ∧
    tokenize "LDN 2 ; note: hi\n".toList = some ("hi".toList, none) ∧
    tokenize "LDN 2 ; note\n".toList = some ("LDN".toList, some "2".toList) ∧
    assemble "LDN 2\n".toList = (0, some "01000000000000100000000000000000\n".toList) ∧
    assemble "LDN 2 ; note\n".toList =
      (0, some "01000000000000100000000000000000\n".toList) ∧
    assemble "LDN 2 ; note: hi\n".toList =
      (0, some "00000000000000000000000000000000\n".toList) := by
  decide

/-! ## C24: the symbol table -/

/-- C24: let `t` be the table reached from the empty table by any sequence of
`addSymbol` calls.  The stored names are pairwise distinct and `count` is at most 100.
`addSymbol` returns -1 and leaves `t` unchanged when the name is already present or
`count = 100`; otherwise it returns 0 and increases `count` by one, after which
`findSymbol` of that name returns the given address and `findSymbol` of every other
name returns what it returned before.  `findSymbol` returns -1 for an absent name, and
when all addresses passed to `addSymbol` are non-negative it returns -1 only for an
absent name (for a present name it returns the non-negative address of its entry). -/
theorem symbol_table_invariant (calls : List (List Char × Int)) (t : SymbolTable)
    (ht : t = addSymbols initAssembler calls) (name : List Char) (address : Int) :
    (t.symbols.map Symbol.name).Nodup ∧ t.count ≤ 100 ∧
    ((name ∈ t.symbols.map Symbol.name ∨ t.count = 100) →
      addSymbol t name address = (-1, t)) ∧
    (¬ (name ∈ t.symbols.map Symbol.name ∨ t.count = 100) →
      (addSymbol t name address).1 = 0 ∧
      (addSymbol t name address).2.count = t.count + 1 ∧
      findSymbol (addSymbol t name address).2 name = address ∧
      ∀ other, other ≠ name →
        findSymbol (addSymbol t name address).2 other = findSymbol t other) ∧
    (name ∉ t.symbols.map Symbol.name → findSymbol t name = -1) ∧
    ((∀ call ∈ calls, 0 ≤ call.2) →
      (findSymbol t name = -1 ↔ name ∉ t.symbols.map Symbol.name) ∧
      (name ∈ t.symbols.map Symbol.name →
        0 ≤ findSymbol t name ∧ (⟨name, findSymbol t name⟩ : Symbol) ∈ t.symbols)) := by
  obtain ⟨hnd, hc⟩ := addSymbols_invariant calls initAssembler (by simp [initAssembler])
    (by simp [initAssembler, SymbolTable.count, MAX_SYMBOLS])
  rw [← ht] at hnd hc
  have hc100 : t.count ≤ 100 := hc
  have hmem : ∀ n : List Char, n ∈ t.symbols.map Symbol.name ↔ ∃ s ∈ t.symbols, s.name = n :=
    fun n => List.mem_map
  have habs : name ∉ t.symbols.map Symbol.name → findSymbol t name = -1 := by
    intro h
    apply findSymbol_eq_neg_one_of_absent
    intro s hs hn
    exact h ((hmem name).mpr ⟨s, hs, hn⟩)
  refine ⟨hnd, hc100, ?_, ?_, habs, ?_⟩
  · intro h
    rcases addSymbol_cases t name address with ⟨h1, h2, _⟩ | ⟨_, _, h3, h4⟩
    · exact Prod.ext h1 h2
    · rcases h with h | h
      · obtain ⟨s, hs, hn⟩ := (hmem name).mp h
        exact absurd hn (h4 s hs)
      · simp only [MAX_SYMBOLS] at h3; omega
  · intro h
    rcases addSymbol_cases t name address with ⟨_, _, h3⟩ | ⟨h1, h2, _, h4⟩
    · exfalso
      apply h
      rcases h3 with h3 | h3
      · right; simp only [MAX_SYMBOLS] at h3; omega
      · left; exact (hmem name).mpr h3
    · refine ⟨h1, ?_, ?_, ?_⟩
      · rw [h2]; simp [SymbolTable.count]
      · rw [h2]; exact findSymbol_append_new t.symbols name address h4
      · intro other ho
        rw [h2]; exact findSymbol_append_other t.symbols name other address ho
  · intro hpos
    have hpres : name ∈ t.symbols.map Symbol.name →
        0 ≤ findSymbol t name ∧ (⟨name, findSymbol t name⟩ : Symbol) ∈ t.symbols := by
      intro h
      obtain ⟨s, hs, hn, hf⟩ := findSymbol_of_present t name ((hmem name).mp h)
      have hs2 := hs
      rw [ht] at hs2
      rcases addSymbols_addresses calls initAssembler s hs2 with h0 | h0
      · simp [initAssembler] at h0
      · have := hpos _ h0
        simp only at this
        rw [hf]
        refine ⟨this, ?_⟩
        rw [← hn]
        exact hs
    refine ⟨⟨?_, habs⟩, hpres⟩
    intro h hin
    have := (hpres hin).1
    omega

/-- Instance of `symbol_table_invariant`: after adding `A` at 0, `B` at 1 and `A`
again at 2, the table holds two symbols, a further `A` is rejected, and `C` at 7 is
accepted and found, with `B` still found at 1. -/
theorem symbol_table_invariant_witness :
    (addSymbols initAssembler [(['A'], 0), (['B'], 1), (['A'], 2)]).count = 2 ∧
    addSymbol (addSymbols initAssembler [(['A'], 0), (['B'], 1), (['A'], 2)]) ['A'] 7 =
      (-1, addSymbols initAssembler [(['A'], 0), (['B'], 1), (['A'], 2)]) ∧
    findSymbol (addSymbol (addSymbols initAssembler [(['A'], 0), (['B'], 1), (['A'], 2)])
      ['C'] 7).2 ['C'] = 7 ∧
    findSymbol (addSymbol (addSymbols initAssembler [(['A'], 0), (['B'], 1), (['A'], 2)])
      ['C'] 7).2 ['B'] = 1 :=
  ⟨by decide,
   (symbol_table_invariant [(['A'], 0), (['B'], 1), (['A'], 2)] _ rfl ['A'] 7).2.2.1
     (by decide),
   ((symbol_table_invariant [(['A'], 0), (['B'], 1), (['A'], 2)] _ rfl ['C'] 7).2.2.2.1
     (by decide)).2.2.1,
   by decide⟩

/-! ## C25: the memory frame -/

/-- A completed `writeWord` replaces the word at the given address. -/
theorem writeWord_frame (store st : List (List Int)) (a : Int) (vals : List Int)
    (h : writeWord store a vals = some st) :
    0 ≤ a ∧ ∃ w, st = store.set a.toNat w := by
  unfold writeWord at h
  by_cases ha : a < 0
  · rw [if_pos ha] at h; exact absurd h (by simp)
  · rw [if_neg ha] at h
    cases hw : store[a.toNat]? with
    | none => rw [hw] at h; exact absurd h (by simp)
    | some w0 =>
      rw [hw] at h
      simp only at h
      by_cases hl : w0.length < WORD_SIZE
      · rw [if_pos hl] at h; exact absurd h (by simp)
      · rw [if_neg hl] at h
        exact ⟨by omega, _, (Option.some.inj h).symm⟩

/-- A completed `store_value_to_address` replaces the word at the given address and
changes no other field. -/
theorem store_value_frame (c c1 : BabyComputer) (a v : Int)
    (h : store_value_to_address c a v = some c1) :
    0 ≤ a ∧ ∃ w, c1 = { c with store := c.store.set a.toNat w } := by
  unfold store_value_to_address at h
  cases hw : writeWord c.store a
      ((List.range WORD_SIZE).map (fun i => if (toU32 v).testBit i then (1 : Int) else 0)) with
  | none => rw [hw] at h; exact absurd h (by simp)
  | some st =>
    rw [hw] at h
    obtain ⟨h0, w, hst⟩ := writeWord_frame _ _ _ _ hw
    refine ⟨h0, w, ?_⟩
    rw [← hst]
    exact (Option.some.inj h).symm

/-- C25: `fetch` changes only the instruction register `PI` (`decode` returns only the
pair `(opcode, operand)` and no machine state); `execute` with any opcode other than
STO, and `execute` at `CI = 0`, leaves the memory unchanged; a completed STO away from
address 0 keeps the number of words and changes no word other than the one at its
operand; and on a well-formed machine STO with `CI ≠ 0` and an operand in
`[0, memory_size)` completes. -/
theorem memory_frame (c : BabyComputer) (opcode operand : Int) :
    (∀ c', fetch c = some c' → c' = { c with PI := c'.PI }) ∧
    (∀ c', execute c opcode operand = some c' → (opcode ≠ 0b1100 ∨ c.CI = 0) →
      c'.store = c.store) ∧
    (∀ c', execute c 0b1100 operand = some c' → c.CI ≠ 0 →
      0 ≤ operand ∧ c'.store.length = c.store.length ∧
      ∀ j, j ≠ operand.toNat → c'.store[j]? = c.store[j]?) ∧
    (WellFormed c → c.CI ≠ 0 → 0 ≤ operand → operand < c.memory_size →
      ∃ c', execute c 0b1100 operand = some c') := by
  refine ⟨?_, ?_, ?_, ?_⟩
  · intro c' h
    unfold fetch at h
    split at h
    · exact absurd h (by simp)
    · rw [← Option.some.inj h]
  · intro c' h hop
    rcases execute_cases c opcode operand c' h with
      ⟨_, h⟩ | ⟨_, _, h⟩ | ⟨_, _, h⟩ | ⟨h0, h1, _⟩ | ⟨_, _, h⟩ | ⟨_, _, v, a, _, _, h⟩ |
      ⟨_, _, _, _, _, _, h⟩
    · rw [h]
    · rw [h]
    · rw [h]
    · rcases hop with hop | hop
      · exact absurd h1 hop
      · exact absurd hop h0
    · rw [h]
    · rw [h]
    · rw [h]
  · intro c' h hCI
    rcases execute_cases c 0b1100 operand c' h with
      ⟨h0, _⟩ | ⟨_, h1, _⟩ | ⟨_, h1, _⟩ | ⟨_, _, c1, hs, h⟩ | ⟨_, h1, _⟩ | ⟨_, h1, _⟩ |
      ⟨_, _, _, h1, _⟩
    · exact absurd h0 hCI
    · exact absurd h1 (by decide)
    · exact absurd h1 (by decide)
    · obtain ⟨h0, w, hc1⟩ := store_value_frame c c1 operand c.accumulator hs
      rw [h, hc1]
      refine ⟨h0, by simp, ?_⟩
      intro j hj
      simp only
      rw [List.getElem?_set_ne (Ne.symm hj)]
    · exact absurd h1 (by decide)
    · exact absurd h1 (by decide)
    · exact absurd rfl h1
  · intro hwf hCI h0 h1
    unfold execute
    rw [if_neg hCI, if_neg (by decide), if_neg (by decide), if_pos rfl,
      store_value_wellFormed c operand c.accumulator hwf h0 h1]
    exact ⟨_, rfl⟩

/-- Instance of `memory_frame`: STO 1 at address 1 of a two-word machine completes,
and ADD 1 there leaves the memory as it was. -/
theorem memory_frame_witness :
    (∃ c', execute { initialize_computer 2 with accumulator := 5, CI := 1 } 0b1100 1 =
      some c') ∧
    ∀ c', execute { initialize_computer 2 with accumulator := 5, CI := 1 } 0b0001 1 =
        some c' →
      c'.store = (initialize_computer 2).store :=
  ⟨(memory_frame { initialize_computer 2 with accumulator := 5, CI := 1 } 0b1100 1).2.2.2
      (by decide) (by decide) (by decide) (by decide),
   fun c' h =>
    (memory_frame { initialize_computer 2 with accumulator := 5, CI := 1 } 0b0001 1).2.1
      c' h (Or.inl (by decide))⟩

/-! ## C26: the load postcondition -/

/-- C26: let every line of the file be 32 characters `0`/`1` and let the machine be
well-formed, with any memory size.  Then `load_program` returns 0, however many lines
the file has, and in the machine it leaves: for every line `a` of the file with `a`
below the memory size and every `i < 32`, cell `i` of word `a` is the digit at
character position `i` of that line (lines in ascending address order from 0); every
word at an address that is not below both the number of lines and the memory size is
unchanged; and the memory size, the accumulator, `CI`, `PI`, the running flag and the
addressing fields are unchanged. -/
theorem load_postcondition (c : BabyComputer) (file : List Char) (hwf : WellFormed c)
    (hfile : ∀ l ∈ splitLines file, binaryLine l) :
    ∃ c', load_program c file = some (0, c') ∧
      c'.store.length = c.store.length ∧
      (∀ (a : Nat) (line : List Char), (splitLines file)[a]? = some line →
        (a : Int) < c.memory_size →
        ∃ w, c'.store[a]? = some w ∧ w.length = 32 ∧
          ∀ i, i < 32 →
            (line.getD i '0' = '0' ∧ w.getD i 0 = 0) ∨
            (line.getD i '0' = '1' ∧ w.getD i 0 = 1)) ∧
      (∀ a : Nat, ((splitLines file).length ≤ a ∨ c.memory_size ≤ a) →
        c'.store[a]? = c.store[a]?) ∧
      c'.memory_size = c.memory_size ∧ c'.accumulator = c.accumulator ∧
      c'.CI = c.CI ∧ c'.PI = c.PI ∧ c'.running = c.running ∧
      c'.addr_mode = c.addr_mode ∧ c'.index_reg = c.index_reg ∧
      c'.base_reg = c.base_reg := by
  have hnul := no_nul_of_binaryLines file hfile
  have hlen : ∀ l ∈ splitLines file, l.length < WORD_SIZE + 2 := by
    intro l hl
    have h1 := splitLines_line_length file l hl
    have h2 := (hfile l hl).1
    simp only [WORD_SIZE]
    omega
  have hfl := fileLines_eq_splitLines (WORD_SIZE + 2) file hlen
  have hvalid : (fileLines (WORD_SIZE + 2) file).all validLine = true := by
    rw [hfl, List.all_eq_true]
    intro l hl
    apply validLine_of_binaryLine l _ (hfile l hl)
    intro hm
    apply hnul
    rw [← flatten_splitLines file]
    exact List.mem_flatten.mpr ⟨l, hl, hm⟩
  obtain ⟨c', hc', _, h3, h4, h5, h6, h7, h8, h9, h10⟩ :=
    loadLoop_spec (splitLines file) c 0 hwf (Int.le_refl _)
  obtain ⟨hl1, hl2, hl3⟩ := loadLoop_store (splitLines file) c c' 0 hwf (Int.le_refl _) hc'
  refine ⟨c', ?_, hl1, ?_, ?_, h3, h4, h5, h6, h7, h8, h9, h10⟩
  · unfold load_program
    rw [if_pos hvalid, hfl, hc']
    rfl
  · intro a line ha ham
    have hw := hl2 a line ha (by omega)
    have ha0 : ((0 : Int) + (a : Int)).toNat = a := by omega
    rw [ha0] at hw
    refine ⟨_, hw, loadLine_length _, ?_⟩
    intro i hi
    have hmem := List.getElem?_mem ha
    have hb := hfile line hmem
    have hstrip : stripNewline line = line.takeWhile (fun c => c ≠ '\n') := by
      unfold stripNewline
      rw [cstr_of_mem_splitLines file line hnul hmem]
    have hi2 : i < (line.takeWhile (fun c => decide (c ≠ '\n'))).length := by
      rw [hb.1]; exact hi
    have hget : line.getD i '0' = (line.takeWhile (fun c => decide (c ≠ '\n'))).getD i '0' := by
      conv_lhs => rw [← List.takeWhile_append_dropWhile (fun c => decide (c ≠ '\n')) line]
      rw [List.getD_append _ _ _ _ hi2]
    have hcell : (loadLine (stripNewline line)).getD i 0 =
        (((line.takeWhile (fun c => decide (c ≠ '\n'))).getD i '\x00').toNat : Int) - 48 := by
      unfold loadLine
      rw [hstrip]
      simp [WORD_SIZE, List.getD_eq_getElem?_getD, hi]
    have hd0 : (line.takeWhile (fun c => decide (c ≠ '\n'))).getD i '\x00' =
        (line.takeWhile (fun c => decide (c ≠ '\n'))).getD i '0' := by
      rw [List.getD_eq_getElem _ _ hi2, List.getD_eq_getElem _ _ hi2]
    rw [hcell, hd0, hget]
    have hin : (line.takeWhile (fun c => decide (c ≠ '\n'))).getD i '0' ∈
        line.takeWhile (fun c => decide (c ≠ '\n')) := by
      rw [List.getD_eq_getElem _ _ hi2]
      exact List.getElem_mem _
    rcases hb.2 _ hin with e | e
    · left; rw [e]; exact ⟨rfl, by decide⟩
    · right; rw [e]; exact ⟨rfl, by decide⟩
  · intro a ha
    apply hl3
    rcases ha with ha | ha
    · right; left; omega
    · right; right; exact ha

/-- Instance of `load_postcondition`: a file of three well-formed lines is loaded into
a machine of two words; the third line is ignored. -/
theorem load_postcondition_witness :
    WellFormed (initialize_computer 2) ∧
    ∃ c', load_program (initialize_computer 2)
        ("00000000000001110000000000000000\n" ++
          "10100000000000000000000000000000\n" ++
          "11111111111111111111111111111111\n").toList = some (0, c') ∧
      c'.store.length = (initialize_computer 2).store.length ∧
      c'.accumulator = (initialize_computer 2).accumulator :=
  ⟨by decide,
   match load_postcondition (initialize_computer 2)
      ("00000000000001110000000000000000\n" ++
        "10100000000000000000000000000000\n" ++
        "11111111111111111111111111111111\n").toList (by decide) (by decide) with
   | ⟨c', h1, h2, _, _, _, h6, _⟩ => ⟨c', h1, h2, h6⟩⟩

/-! ## C27: the skip at address 0 -/

/-- C27: in every machine state with `CI = 0`, fresh or reached later, and for every
decoded `(opcode, operand)`, `execute` sets `CI` to 1 and changes nothing else; so on a
well-formed machine a whole cycle at address 0 changes only `PI` and `CI`, whatever
word is stored there, and an STP at address 0 does not clear the running flag.  Away
from address 0, JMP 0 sets `CI` to 0, as does JRP when `CI + operand` is 0; and JMP 0
followed by one more cycle leaves the machine at `CI = 1` with the accumulator, the
memory and the running flag as they were after the jump. -/
theorem address_zero_skip_every_visit (c : BabyComputer) (opcode operand : Int) :
    (c.CI = 0 → execute c opcode operand = some { c with CI := 1 }) ∧
    (c.CI = 0 → execute c 0b1110 operand = some { c with CI := 1 } ∧
      ({ c with CI := 1 } : BabyComputer).running = c.running) ∧
    (c.CI = 0 → WellFormed c → 0 < c.memory_size →
      ∃ pi, cycle c = some { c with PI := pi, CI := 1 }) ∧
    (c.CI ≠ 0 → execute c 0b0000 0 = some { c with CI := 0 }) ∧
    (c.CI ≠ 0 → c.CI + operand = 0 → execute c 0b1000 operand = some { c with CI := 0 }) ∧
    (c.CI ≠ 0 → WellFormed c → 0 < c.memory_size →
      ∃ c1 c2, execute c 0b0000 0 = some c1 ∧ c1.CI = 0 ∧ cycle c1 = some c2 ∧
        c2.CI = 1 ∧ c2.accumulator = c1.accumulator ∧ c2.store = c1.store ∧
        c2.running = c1.running ∧ c2.accumulator = c.accumulator ∧ c2.store = c.store) := by
  have hjmp : c.CI ≠ 0 → execute c 0b0000 0 = some { c with CI := 0 } := by
    intro h
    unfold execute
    rw [if_neg h, if_pos rfl]
  refine ⟨fun h => execute_at_zero c opcode operand h,
    fun h => ⟨execute_at_zero c 0b1110 operand h, rfl⟩,
    fun h hwf hm => cycle_at_zero c hwf hm h, hjmp, ?_, ?_⟩
  · intro h hsum
    unfold execute
    rw [if_neg h, if_neg (by decide), if_pos rfl, hsum]
    rfl
  · intro h hwf hm
    obtain ⟨pi, hpi⟩ := cycle_at_zero { c with CI := 0 } hwf hm rfl
    exact ⟨_, _, hjmp h, rfl, hpi, rfl, rfl, rfl, rfl, rfl, rfl⟩

/-- Instance of `address_zero_skip_every_visit`: with `CI = 0`, executing the decoded
STP of the example machine's word 2 only moves `CI` to 1; and from address 2, JMP 0
goes back to address 0. -/
theorem address_zero_skip_every_visit_witness :
    execute exampleMachine 0b1110 0 = some { exampleMachine with CI := 1 } ∧
    execute { exampleMachine with CI := 2 } 0b0000 0 =
      some { exampleMachine with CI := 0 } :=
  ⟨(address_zero_skip_every_visit exampleMachine 0b1110 0).1 rfl,
   (address_zero_skip_every_visit { exampleMachine with CI := 2 } 0b0000 0).2.2.2.1
     (by decide)⟩

/-! ## C28: the cap of pass 1 -/

/-- C28: for every source, the table that `firstPass` returns holds at most 64 symbols
and no symbol with an address outside `[0, 64)`; when `firstPass` fails the table is
not full (fewer than 100 symbols) and the rejected label of the source is already in
it, so the failure is a redefinition and never the capacity failure of `addSymbol`.
In a source text, let the label `L` be defined on an instruction line with address at
least 64 and on none of the first 64 instruction lines: then `L` is absent from the
table; and when the source assembles, the output still has the word of the defining
line at that address, and every line `MNEMONIC L` (`L` not starting with a digit, any
table mnemonic except `STP`) is emitted as the word 0. -/
theorem pass1_capped_at_64 (file : List Char) :
    (firstPass file).2.count ≤ 64 ∧
    (∀ s ∈ (firstPass file).2.symbols, 0 ≤ s.address ∧ s.address < 64) ∧
    ((firstPass file).1 < 0 →
      (firstPass file).2.count < MAX_SYMBOLS ∧
      ∃ raw ∈ fileLines MAX_LINE_LENGTH file, ∃ name,
        skipped (cstr raw) = false ∧ labelOf (cstr raw) = some name ∧
        ∃ s ∈ (firstPass file).2.symbols, s.name = name) ∧
    (SourceText file → ∀ (k : Nat) (line L : List Char),
      (splitLines file)[k]? = some line → skipped line = false → labelOf line = some L →
      64 ≤ lineAddress (splitLines file) k →
      L ∉ (((splitLines file).filter (fun l => !skipped l)).take 64).filterMap labelOf →
      findSymbol (firstPass file).2 L = -1 ∧
      ∀ out, assemble file = (0, some out) →
        (splitLines out)[lineAddress (splitLines file) k]? =
          some (wordChars (parseInstruction line (firstPass file).2) ++ ['\n']) ∧
        ((∀ c ∈ L.head?, isdigit c = false) →
          ∀ (i : Nat) (mn : List Char) (code : Nat) (tail : List Char),
            (mn, code) ∈ opcodeTable → mn ≠ ['S', 'T', 'P'] → (tail = [] ∨ tail = ['\n']) →
            (splitLines file)[i]? = some (mn ++ ' ' :: (L ++ tail)) →
            (splitLines out)[lineAddress (splitLines file) i]? =
              some (wordChars 0 ++ ['\n']))) := by
  obtain ⟨h1, h2, h3⟩ := firstPassLoop_cap (fileLines MAX_LINE_LENGTH file) initAssembler 0
    (by simp [initAssembler, SymbolTable.count]) (by decide)
    (by intro s hs; simp [initAssembler] at hs)
  refine ⟨h1, h2, h3, ?_⟩
  intro hsrc k line L hk hsk hlab h64 hnew
  have hc : ∀ l ∈ splitLines file, cstr l = l :=
    fun l hl => cstr_of_mem_splitLines file l hsrc.1 hl
  have hfind : findSymbol (firstPass file).2 L = -1 := by
    apply findSymbol_eq_neg_one_of_absent
    intro s hs hn
    rw [firstPass_eq file hsrc] at hs
    rcases firstPassLoop_names (splitLines file) initAssembler 0 s hs with
      h | ⟨j, raw, hj, hjs, hjl, hj64, _⟩
    · simp [initAssembler] at h
    · apply hnew
      have hcr : cstr raw = raw := hc raw (List.getElem?_mem hj)
      rw [hcr] at hjs hjl
      rw [countP_cstr_take _ hc, Nat.zero_add] at hj64
      have hidx := getElem?_filter_countP (fun l => !skipped l) (splitLines file) j raw hj
        (by simp [hjs])
      have hin : raw ∈ ((splitLines file).filter (fun l => !skipped l)).take 64 := by
        apply List.getElem?_mem (n := lineAddress (splitLines file) j)
        rw [List.getElem?_take]
        simp only [MEMORY_SIZE] at hj64
        rw [if_pos hj64]
        exact hidx
      exact List.mem_filterMap.mpr ⟨raw, hin, by rw [hjl, hn]⟩
  refine ⟨hfind, ?_⟩
  intro out hasm
  have hlines := assemble_output_lines file out hsrc hasm
  have hidx : ∀ (i : Nat) (l : List Char), (splitLines file)[i]? = some l →
      skipped l = false →
      (splitLines out)[lineAddress (splitLines file) i]? =
        some (wordChars (parseInstruction l (firstPass file).2) ++ ['\n']) := by
    intro i l hi hs
    rw [hlines, List.getElem?_map]
    unfold lineAddress
    rw [getElem?_filter_countP (fun l => !skipped l) (splitLines file) i l hi (by simp [hs])]
    rfl
  refine ⟨hidx k line hk hsk, ?_⟩
  intro hdig i mn code tail hp hstp htail hi
  have hsp : ∀ c ∈ tail, isspace c = true := by
    rcases htail with h | h <;> subst h <;> decide
  rw [hidx i _ hi (not_skipped_mnemonic mn code _ hp),
    parseInstruction_undefined mn code L tail _ hp hstp (labelOf_props line L hlab) hdig
      hfind hsp]

set_option maxRecDepth 100000 in
/-- Instance of `pass1_capped_at_64`: in the source of 64 lines `STP` followed by
`L: STP` and `JMP L`, the label `L` of the line with address 64 is absent from the
table, which is empty; the source assembles, and the output line at address 65, that
of `JMP L`, is the word 0. -/
theorem pass1_capped_at_64_witness :
    SourceText longSource ∧
    (splitLines longSource)[64]? = some "L: STP\n".toList ∧
    lineAddress (splitLines longSource) 64 = 64 ∧
    lineAddress (splitLines longSource) 65 = 65 ∧
    (firstPass longSource).2.count = 0 ∧
    findSymbol (firstPass longSource).2 "L".toList = -1 ∧
    ∃ out, assemble longSource = (0, some out) ∧
      (splitLines out)[lineAddress (splitLines longSource) 65]? =
        some (wordChars 0 ++ ['\n']) :=
  ⟨by decide, by decide, by decide, by decide, by decide,
   ((pass1_capped_at_64 longSource).2.2.2 (by decide) 64 "L: STP\n".toList "L".toList
      (by decide) (by decide) (by decide) (by decide) (by decide)).1,
   _, assemble_of_firstPass_ok longSource (by decide),
   (((pass1_capped_at_64 longSource).2.2.2 (by decide) 64 "L: STP\n".toList "L".toList
      (by decide) (by decide) (by decide) (by decide) (by decide)).2 _
      (assemble_of_firstPass_ok longSource (by decide))).2
      (by decide) 65 "JMP".toList 0b0000 "\n".toList (by decide) (by decide) (by decide)
      (by decide)⟩

/-! ## C29: every decoded opcode has a case -/

/-- The guard of the last branch of `execute` (the `default` of the switch) holds
exactly for the values that are not `case` labels. -/
theorem mem_executeCases_iff (opcode : Int) :
    opcode ∈ executeCases ↔
      (opcode = 0b0000 ∨ opcode = 0b1000 ∨ opcode = 0b1100 ∨ opcode = 0b1110 ∨
        opcode ∈ readingOpcodes) := by
  simp only [executeCases, readingOpcodes, List.mem_cons, List.mem_singleton, List.not_mem_nil,
    or_false]
  omega

/-- C29: the assembler binds its 16 mnemonics to 16 pairwise distinct codes that
cover every value in `[0, 15]`, and its `strcmp` chain uses the same codes; the
simulator's `enum OpCode` is the same table, and the `case` labels of `execute` are
exactly its codes.  The function `execute` is its branch-by-branch form
`executeBranch`, which takes the `default` branch exactly when `CI` is not 0 and the
opcode is none of the `case` labels.  So on a well-formed machine whose `CI` lies in
`[0, memory_size)` and whose current word holds only cells 0 and 1, the opcode that
`decode` returns lies in `[0, 15]` and, in whatever state `execute` is called with
it, `execute` does not take the `default` branch: away from address 0 it takes the
`case` labelled with that opcode, which the table binds to a mnemonic. -/
theorem no_unrecognised_opcode (c : BabyComputer) (hwf : WellFormed c) (h0 : 0 ≤ c.CI)
    (h1 : c.CI < c.memory_size)
    (hbits : ∀ b ∈ c.store.getD c.CI.toNat [], b = 0 ∨ b = 1) :
    opcodeTable.length = 16 ∧ (opcodeTable.map Prod.fst).Nodup ∧
    (opcodeTable.map Prod.snd).Nodup ∧
    (∀ v, v < 16 → v ∈ opcodeTable.map Prod.snd) ∧
    (∀ p ∈ opcodeTable, (p.1 ≠ ['S', 'T', 'P'] → opcodeOf p.1 = some p.2) ∧
      (p.1 = ['S', 'T', 'P'] → p.2 = 0b1110)) ∧
    OpCode = opcodeTable.map (fun p => (p.1, (p.2 : Int))) ∧
    executeCases = OpCode.map Prod.snd ∧
    (∀ v : Int, 0 ≤ v → v ≤ 15 → v ∈ executeCases) ∧
    (∀ (s : BabyComputer) (opcode operand : Int),
      execute s opcode operand = (executeBranch s opcode operand).2 ∧
      ((executeBranch s opcode operand).1 = Branch.default ↔
        s.CI ≠ 0 ∧ opcode ∉ executeCases)) ∧
    ∃ opcode operand, decode c = some (opcode, operand) ∧ 0 ≤ opcode ∧ opcode ≤ 15 ∧
      opcode ∈ executeCases ∧
      ¬ (opcode ≠ 0b0000 ∧ opcode ≠ 0b1000 ∧ opcode ≠ 0b1100 ∧ opcode ≠ 0b1110 ∧
        opcode ∉ readingOpcodes) ∧
      ∀ s : BabyComputer,
        execute s opcode operand = (executeBranch s opcode operand).2 ∧
        (executeBranch s opcode operand).1 ≠ Branch.default ∧
        (s.CI ≠ 0 → (executeBranch s opcode operand).1 = Branch.case opcode ∧
          ∃ mn, (mn, opcode) ∈ OpCode) := by
  have hall : ∀ v : Int, 0 ≤ v → v ≤ 15 → v ∈ executeCases := by
    intro v hv0 hv1
    simp only [executeCases, List.mem_cons, List.mem_singleton, List.not_mem_nil, or_false]
    omega
  have hcases : executeCases = OpCode.map Prod.snd := by decide
  have hdefault : ∀ (s : BabyComputer) (opcode operand : Int),
      ((executeBranch s opcode operand).1 = Branch.default ↔
        s.CI ≠ 0 ∧ opcode ∉ executeCases) := by
    intro s opcode operand
    rw [executeBranch_fst]
    by_cases hCI : s.CI = 0
    · simp [hCI]
    · by_cases hmem : opcode ∈ executeCases
      · simp [hCI, hmem]
      · simp [hCI, hmem]
  refine ⟨by decide, by decide, by decide, by decide, ?_, by decide, hcases, hall,
    fun s opcode operand => ⟨execute_eq_executeBranch s opcode operand,
      hdefault s opcode operand⟩, ?_⟩
  · intro p hp
    obtain ⟨_, _, _, _, h5, h6⟩ := opcodeTable_facts p hp
    exact ⟨h5, h6⟩
  · obtain ⟨hr, hlen, _⟩ := readWord_current c hwf h0 h1
    generalize c.store.getD c.CI.toNat [] = w at hr hlen hbits
    have hcell : ∀ i, i < 32 → w.getD i 0 = 0 ∨ w.getD i 0 = 1 :=
      fun i hi => hbits _ (getD_mem_or_default w i (by omega))
    have hdec : decode c = some
        (8 * w.getD 13 0 + 4 * w.getD 14 0 + 2 * w.getD 15 0 + w.getD 16 0, orBits w 13) := by
      unfold decode
      rw [hr]
      simp only
      rw [opcode_of_cells _ _ _ _ (hcell 13 (by decide)) (hcell 14 (by decide))
        (hcell 15 (by decide)) (hcell 16 (by decide))]
    have hlo : 0 ≤ 8 * w.getD 13 0 + 4 * w.getD 14 0 + 2 * w.getD 15 0 + w.getD 16 0 := by
      rcases hcell 13 (by decide) with a | a <;> rcases hcell 14 (by decide) with b | b <;>
        rcases hcell 15 (by decide) with d | d <;> rcases hcell 16 (by decide) with e | e <;>
        rw [a, b, d, e] <;> decide
    have hhi : 8 * w.getD 13 0 + 4 * w.getD 14 0 + 2 * w.getD 15 0 + w.getD 16 0 ≤ 15 := by
      rcases hcell 13 (by decide) with a | a <;> rcases hcell 14 (by decide) with b | b <;>
        rcases hcell 15 (by decide) with d | d <;> rcases hcell 16 (by decide) with e | e <;>
        rw [a, b, d, e] <;> decide
    have hmem := hall _ hlo hhi
    refine ⟨_, _, hdec, hlo, hhi, hmem, ?_, ?_⟩
    · intro hdef
      rcases (mem_executeCases_iff _).mp hmem with h | h | h | h | h
      · exact hdef.1 h
      · exact hdef.2.1 h
      · exact hdef.2.2.1 h
      · exact hdef.2.2.2.1 h
      · exact hdef.2.2.2.2 h
    · intro s
      refine ⟨execute_eq_executeBranch s _ _, ?_, ?_⟩
      · intro hd
        exact ((hdefault s _ _).mp hd).2 hmem
      · intro hCI
        refine ⟨by rw [executeBranch_fst, if_neg hCI, if_pos hmem], ?_⟩
        have hm2 := hmem
        rw [hcases] at hm2
        obtain ⟨p, hp, hp2⟩ := List.mem_map.mp hm2
        exact ⟨p.1, by rw [← hp2]; exact hp⟩

set_option maxRecDepth 8000 in
/-- Instance of `no_unrecognised_opcode`: the word of `STP` at address 2 of the
example machine decodes to the opcode 1110, and `execute` with a decoded opcode does
not take the `default` branch there. -/
theorem no_unrecognised_opcode_witness :
    WellFormed { exampleMachine with CI := 2 } ∧
    decode { exampleMachine with CI := 2 } = some (0b1110, 0) ∧
    (executeBranch { exampleMachine with CI := 2 } 0b1110 0).1 = Branch.case 0b1110 ∧
    ∃ opcode operand, decode { exampleMachine with CI := 2 } = some (opcode, operand) ∧
      opcode ∈ executeCases ∧
      execute { exampleMachine with CI := 2 } opcode operand =
        (executeBranch { exampleMachine with CI := 2 } opcode operand).2 ∧
      (executeBranch { exampleMachine with CI := 2 } opcode operand).1 ≠ Branch.default :=
  ⟨by decide, by decide, by decide,
   match (no_unrecognised_opcode { exampleMachine with CI := 2 } (by decide) (by decide)
      (by decide) (by decide)).2.2.2.2.2.2.2.2.2 with
   | ⟨opcode, operand, h1, _, _, h2, _, h3⟩ =>
     ⟨opcode, operand, h1, h2, (h3 _).1, (h3 _).2.1⟩⟩

end ManchesterBaby
